import Mathlib

/-!
# Verification of the GISCUP-2018 upstream-feature analyser

This development gives a shallow embedding of the program consisting of
`json.h`, `json_fast.h`, `read_graph.h` and `upstream_features.cpp`, and
proves or refutes the specified properties of its graph constructor, its
streaming JSON scanner, its articulation-point traversal and its output
emitter.

Identifiers are raw byte strings (`std::string`), modelled as `List Char`.
The `unordered_map` tables are modelled as association lists (insertion
order is irrelevant for map semantics; the program only inserts a key when
it is absent, so first-match lookup agrees with map lookup).
-/

set_option maxRecDepth 20000
set_option maxHeartbeats 1000000

namespace GisCup

/-- Identifiers (global IDs) are raw byte strings. -/
abbrev Ident := List Char

/-- `#define HEAD 0` — the single underlying starting point (read_graph.h). -/
def HEAD : Nat := 0

/-- `#define TAIL 1` — the single underlying controller (read_graph.h). -/
def TAIL : Nat := 1

/-! Character constants (written by code so that no brace appears inside a
string literal). -/

/-- `'\n'`, the terminator appended by `extract_string`. -/
def nl : Char := Char.ofNat 10

/-- The double quote `'"'`. -/
def qm : Char := Char.ofNat 34

/-- `'{'` -/
def lb : Char := Char.ofNat 123

/-- `'}'` -/
def rb : Char := Char.ofNat 125

/-- `'['` -/
def lk : Char := Char.ofNat 91

/-- `']'` -/
def rk : Char := Char.ofNat 93

/-- `':'` -/
def cl : Char := Char.ofNat 58

/-- `','` -/
def cm : Char := Char.ofNat 44

/-- `'\0'`, the C-string terminator of the key literals. -/
def nulc : Char := Char.ofNat 0

/-- Lookup in an `unordered_map` modelled as an association list
(`map.find(k)` returning `map.end()` becomes `none`). -/
def alookup {α β : Type} [DecidableEq α] (m : List (α × β)) (k : α) : Option β :=
  match m with
  | [] => none
  | (k', v) :: rest => if k' = k then some v else alookup rest k

/-- `map[k].push_back(v)` on the `edgevtx` table: append `v` to the vector
stored under the (present) key `e`. -/
def avput (m : List (Nat × List Nat)) (e : Nat) (v : Nat) : List (Nat × List Nat) :=
  match m with
  | [] => []
  | (k, vs) :: rest => if k = e then (k, vs ++ [v]) :: rest else (k, vs) :: avput rest e v

/-- `map.emplace(e, {})` on the `edgevtx` table: insert an empty vector under
key `e` if absent. -/
def avemplace (m : List (Nat × List Nat)) (e : Nat) : List (Nat × List Nat) :=
  match alookup m e with
  | some _ => m
  | none => m ++ [(e, [])]

/-- The global tables of the program (read_graph.h / upstream_features.cpp):
`name`, `graph`, `edgename`, `badedge`, `edgenodes`, `idx`, `edgeidx`,
`edgevtx`, and the counters `nodes` and `edges`. -/
structure GState where
  name      : List Ident
  graph     : List (List (Nat × Nat))
  edgename  : List Ident
  badedge   : List Bool
  edgenodes : List (List (Nat × Nat))
  idx       : List (Ident × Nat)
  edgeidx   : List (Ident × Nat)
  edgevtx   : List (Nat × List Nat)
  nodes     : Nat
  edges     : Nat
deriving DecidableEq, Repr

/-- The state after the initial lines of `read_graph`: HEAD and TAIL are
created with empty names, `nodes = 2`, `edges = 0`. -/
def initState : GState :=
  { name := [[], []], graph := [[], []], edgename := [], badedge := [],
    edgenodes := [], idx := [], edgeidx := [], edgevtx := [],
    nodes := 2, edges := 0 }

/-- `graph[u].emplace_back(p)`; out-of-range `u` is never exercised by the
constructor (see `GWF`), and `List.set` is a no-op there. -/
def gput (g : List (List (Nat × Nat))) (u : Nat) (p : Nat × Nat) :
    List (List (Nat × Nat)) :=
  g.set u (g.getD u [] ++ [p])

/-- The mirrored pair of `emplace_back` calls that every wiring site of
`read_graph` performs: `graph[u].emplace_back(v, e); graph[v].emplace_back(u, e)`. -/
def wire (g : List (List (Nat × Nat))) (u v e : Nat) : List (List (Nat × Nat)) :=
  gput (gput g u (v, e)) v (u, e)

/-- `if ((it = idx.find(id)) == idx.end()) { allocate } else reuse` — resolve
or allocate a vertex index for an identifier. -/
def resolveVertex (s : GState) (id : Ident) : GState × Nat :=
  match alookup s.idx id with
  | some k => (s, k)
  | none =>
    ({ s with name := s.name ++ [id], graph := s.graph ++ [[]],
              idx := s.idx ++ [(id, s.nodes)], nodes := s.nodes + 1 }, s.nodes)

/-- Resolve or allocate an edge index for an identifier (allocates the edge
record: empty segment list, name, `deleted = false` flag, table entry). -/
def resolveEdge (s : GState) (id : Ident) : GState × Nat :=
  match alookup s.edgeidx id with
  | some k => (s, k)
  | none =>
    ({ s with edgenodes := s.edgenodes ++ [[]], edgename := s.edgename ++ [id],
              badedge := s.badedge ++ [false],
              edgeidx := s.edgeidx ++ [(id, s.edges)], edges := s.edges + 1 }, s.edges)

/-- The body of the `rows` loop of `read_graph` once the three identifier
strings have been obtained: resolve or allocate `source`, `target` and the
edge, record the segment, and add the mirrored adjacency entries. -/
def addRow (s : GState) (via source target : Ident) : GState :=
  let a := resolveVertex s source
  let b := resolveVertex a.1 target
  let sourcev := a.2
  let targetv := b.2
  let c := resolveEdge b.1 via
  let s := c.1
  let edgev := c.2
  let s :=
    { s with edgenodes :=
        s.edgenodes.set edgev (s.edgenodes.getD edgev [] ++ [(sourcev, targetv)]) }
  { s with graph := wire s.graph sourcev targetv edgev }

/-- After the `rows` loop, `read_graph` appends the dummy edge reserved for
reduction-2 wiring: `edgename.emplace_back(); badedge.push_back(false);`. -/
def pushDummy (s : GState) : GState :=
  { s with edgename := s.edgename ++ [[]], badedge := s.badedge ++ [false] }

/-- The body of the explosion loop of reduction 1, for one recorded segment
`p` of the deleted edge `e`: create a substitute vertex named `id`, record it
under `edgevtx[e]`, wire it to the sentinel `sent` via the dummy edge, and
reconnect it to the segment's two endpoints. -/
def explodeSeg (sent e : Nat) (id : Ident) (t : GState) (p : Nat × Nat) : GState :=
  let v := t.nodes
  let t := { t with name := t.name ++ [id], graph := t.graph ++ [[]],
                    nodes := t.nodes + 1, edgevtx := avput t.edgevtx e v }
  let t := { t with graph := wire t.graph sent v t.edges }
  let t := { t with graph := wire t.graph v p.1 t.edges }
  { t with graph := wire t.graph v p.2 t.edges }

/-- First half of processing a designated identifier: `if ((it =
idx.find(ctrl)) != idx.end())`, wire the sentinel to the matching vertex via
the dummy edge. -/
def designateVertexPart (sent : Nat) (s : GState) (id : Ident) : GState :=
  match alookup s.idx id with
  | some v => { s with graph := wire s.graph sent v s.edges }
  | none => s

/-- Second half: `if ((it = edgeidx.find(ctrl)) != edgeidx.end())`, either
explode the edge (first designation: set its deleted flag, then create one
substitute vertex per recorded segment) or wire the sentinel to the existing
substitute vertices. -/
def designateEdgePart (sent : Nat) (s : GState) (id : Ident) : GState :=
  match alookup s.edgeidx id with
  | none => s
  | some e =>
    if s.badedge.getD e false then
      ((alookup s.edgevtx e).getD []).foldl
        (fun t v => { t with graph := wire t.graph sent v t.edges }) s
    else
      let s := { s with badedge := s.badedge.set e true,
                        edgevtx := avemplace s.edgevtx e }
      (s.edgenodes.getD e []).foldl (explodeSeg sent e id) s

/-- Processing one controller (`sent = TAIL`) or starting-point
(`sent = HEAD`) identifier, exactly as in `read_graph`: the vertex lookup and
the edge lookup are performed independently, in this order. -/
def designate (sent : Nat) (s : GState) (id : Ident) : GState :=
  designateEdgePart sent (designateVertexPart sent s id) id

/-- `read_graph` at the level of extracted records: the `rows` loop, the dummy
edge, the `controllers` loop (wired to TAIL), then the starting-points loop
(wired to HEAD). -/
def readGraphRecords (rows : List (Ident × Ident × Ident))
    (ctrls starts : List Ident) : GState :=
  let s := rows.foldl (fun t r => addRow t r.1 r.2.1 r.2.2) initState
  let s := pushDummy s
  let s := ctrls.foldl (designate TAIL) s
  starts.foldl (designate HEAD) s

/-! ## The streaming scanner of `json.h` -/

/-- `uint_fast32_t` is 64 bits wide on the target platform (x86-64 glibc), so
`--braces` at zero wraps to `2^64 - 1`.  No claim exercises underflow. -/
def wdec (n : Nat) : Nat := if n = 0 then 18446744073709551615 else n - 1

/-- The global scanner bookkeeping of `json.h`: `braces`, `brackets`,
`instring`. -/
structure ScanState where
  braces : Nat
  brackets : Nat
  instring : Bool
deriving DecidableEq, Repr

/-- `readc`: process one character, updating the bookkeeping counters.  A
double quote toggles the string flag; inside a string all other characters
are inert; otherwise the four delimiters adjust the depth counters. -/
def readc (c : Char) (st : ScanState) : ScanState :=
  if c = qm then { st with instring := !st.instring }
  else if st.instring then st
  else if c = lb then { st with braces := st.braces + 1 }
  else if c = rb then { st with braces := wdec st.braces }
  else if c = lk then { st with brackets := st.brackets + 1 }
  else if c = rk then { st with brackets := wdec st.brackets }
  else st

/-- First loop of `extract_string`: `while (!instring) readc(file);`.
Returns the unread suffix and state.  At end of stream the C++ loop spins on
EOF; the embedding stops (that branch is unreached under the theorems'
hypotheses). -/
def extractToString : List Char → ScanState → List Char × ScanState
  | [], st => ([], st)
  | c :: rest, st =>
    if st.instring then (c :: rest, st) else extractToString rest (readc c st)

/-- Second loop of `extract_string`: copy characters while `instring` holds
after reading each one.  Returns the copied characters, the unread suffix and
the state. -/
def extractChars : List Char → ScanState → List Char × List Char × ScanState
  | [], st => ([], [], st)
  | c :: rest, st =>
    let st' := readc c st
    if st'.instring then
      let r := extractChars rest st'
      (c :: r.1, r.2.1, r.2.2)
    else ([], rest, st')

/-- `extract_string`: scan to the next string start, copy its characters
verbatim, and append one `'\n'` terminator. -/
def extract_string (s : List Char) (st : ScanState) :
    Ident × List Char × ScanState :=
  let r := extractToString s st
  let r2 := extractChars r.1 r.2
  (r2.1 ++ [nl], r2.2.1, r2.2.2)

/-- Entry loop of `scan_field` (and, with the roles of the counters swapped,
of `scan_list`): `while (bracelevel == braces) { readc; if (bracketlevel >
brackets) return false; }`.  Result `some false` is the early failure return,
`some true` means the loop exited (depth changed), `none` is end of stream
(where the C++ loop would spin on EOF). -/
def sfEnter (bl bk : Nat) : List Char → ScanState →
    Option Bool × List Char × ScanState
  | [], st => (none, [], st)
  | c :: rest, st =>
    let st' := readc c st
    if bk > st'.brackets then (some false, rest, st')
    else if st'.braces = bl then sfEnter bl bk rest st'
    else (some true, rest, st')

/-- The per-character key-matching loop body of `scan_field`, in the pure
form where the action only records the index it was invoked with.  For each
key: on a character match advance `pos`, firing when the C-string terminator
is reached; on a mismatch reset `pos` to 0 (without re-examining the
character).  `k.getD p nulc` models `keys[i][p]` on the zero-terminated key
literal. -/
def matchKeysGo : List Ident → List Nat → Nat → Char → List Nat × List Nat
  | [], _, _, _ => ([], [])
  | _ :: _, [], _, _ => ([], [])
  | k :: ks, p :: ps, i, c =>
    let r := matchKeysGo ks ps (i + 1) c
    if c = k.getD p nulc then
      if k.getD (p + 1) nulc = nulc then ((p + 1) :: r.1, i :: r.2)
      else ((p + 1) :: r.1, r.2)
    else (0 :: r.1, r.2)

/-- Main loop of `scan_field` (recording form): `while (bracelevel < braces)`
read a character; skip the matching when strictly deeper than `bl + 1` in
objects or deeper than `bk` in arrays; otherwise run the key matchers.
Accumulates fired indices in order. -/
def sfScan (keys : List Ident) (bl bk : Nat) :
    List Char → ScanState → List Nat → List Nat →
    List Nat × List Char × ScanState
  | [], st, _, fires => (fires, [], st)
  | c :: rest, st, pos, fires =>
    if st.braces ≤ bl then (fires, c :: rest, st)
    else
      let st' := readc c st
      if bl + 1 < st'.braces ∨ bk < st'.brackets then
        sfScan keys bl bk rest st' pos fires
      else
        let pf := matchKeysGo keys pos 0 c
        sfScan keys bl bk rest st' pf.1 (fires ++ pf.2)

/-- `scan_field` in the recording form: returns the success flag, the list of
handler invocations (key indices, in invocation order), the unread suffix and
the scanner state. -/
def scanFieldRec (keys : List Ident) (s : List Char) (st : ScanState) :
    Bool × List Nat × List Char × ScanState :=
  let bl := st.braces
  let bk := st.brackets
  match sfEnter bl bk s st with
  | (some false, rest, st') => (false, [], rest, st')
  | (some true, rest, st') =>
    let r := sfScan keys bl bk rest st' (List.replicate keys.length 0) []
    (true, r.1, r.2.1, r.2.2)
  | (none, rest, st') => (false, [], rest, st')

/-- The key-matching loop body in the form used by the row and controller
handlers of `read_graph`: firing key `i` runs `extract_string` (consuming
input) and stores the extracted identifier in slot `i`. -/
def sfMatchExtract : List Ident → List Nat → List Ident → Char →
    List Char → ScanState → List Nat × List Ident × List Char × ScanState
  | [], _, _, _, s, st => ([], [], s, st)
  | _ :: _, [], _, _, s, st => ([], [], s, st)
  | _ :: _, _ :: _, [], _, s, st => ([], [], s, st)
  | k :: ks, p :: ps, sl :: sls, c, s, st =>
    if c = k.getD p nulc then
      if k.getD (p + 1) nulc = nulc then
        let ex := extract_string s st
        let r := sfMatchExtract ks ps sls c ex.2.1 ex.2.2
        ((p + 1) :: r.1, ex.1 :: r.2.1, r.2.2)
      else
        let r := sfMatchExtract ks ps sls c s st
        ((p + 1) :: r.1, sl :: r.2.1, r.2.2)
    else
      let r := sfMatchExtract ks ps sls c s st
      (0 :: r.1, sl :: r.2.1, r.2.2)

/-- Main loop of `scan_field` in the extracting form (fuelled because the
actions themselves consume input). -/
def sfScanExtract (keys : List Ident) (bl bk : Nat) :
    Nat → List Char → ScanState → List Nat → List Ident →
    List Ident × List Char × ScanState
  | 0, s, st, _, slots => (slots, s, st)
  | _ + 1, [], st, _, slots => (slots, [], st)
  | fuel + 1, c :: rest, st, pos, slots =>
    if st.braces ≤ bl then (slots, c :: rest, st)
    else
      let st' := readc c st
      if bl + 1 < st'.braces ∨ bk < st'.brackets then
        sfScanExtract keys bl bk fuel rest st' pos slots
      else
        let pf := sfMatchExtract keys pos slots c rest st'
        sfScanExtract keys bl bk fuel pf.2.2.1 pf.2.2.2 pf.1 pf.2.1

/-- `scan_field` in the extracting form: the result slots hold the extracted
identifier for each key that fired (slot unchanged where the key never
fired). -/
def scanFieldExtract (keys : List Ident) (slots : List Ident) (fuel : Nat)
    (s : List Char) (st : ScanState) :
    Bool × List Ident × List Char × ScanState :=
  let bl := st.braces
  let bk := st.brackets
  match sfEnter bl bk s st with
  | (some false, rest, st') => (false, slots, rest, st')
  | (some true, rest, st') =>
    let r := sfScanExtract keys bl bk fuel rest st'
      (List.replicate keys.length 0) slots
    (true, r.1, r.2.1, r.2.2)
  | (none, rest, st') => (false, slots, rest, st')

/-- The three key literals of the rows loop. -/
def keysRow : List Ident :=
  [qm :: "viaGlobalId".toList ++ [qm],
   qm :: "fromGlobalId".toList ++ [qm],
   qm :: "toGlobalId".toList ++ [qm]]

/-- The key literal of the controllers loop. -/
def keysCtrl : List Ident := [qm :: "globalId".toList ++ [qm]]

/-- The body of the rows `scan_list` action: `std::string edge, source,
target;` start empty; run the row `scan_field`; on success, insert the row
into the graph state. -/
def rowAction (g : GState) (s : List Char) (st : ScanState) :
    GState × List Char × ScanState :=
  let r := scanFieldExtract keysRow [[], [], []] (s.length + 1) s st
  match r with
  | (true, [via, source, target], rest, st') => (addRow g via source target, rest, st')
  | (_, _, rest, st') => (g, rest, st')

/-- The body of the controllers `scan_list` action: run the single-key
`scan_field`; on success, count and designate the extracted identifier as a
controller (wired to TAIL). -/
def ctrlAction (g : GState) (s : List Char) (st : ScanState) :
    GState × List Char × ScanState :=
  let r := scanFieldExtract keysCtrl [[]] (s.length + 1) s st
  match r with
  | (true, [id], rest, st') => (designate TAIL g id, rest, st')
  | (_, _, rest, st') => (g, rest, st')

/-- `scan_list`: the entry loop (object/array roles swapped relative to
`scan_field`) followed by `while (bracketlevel < brackets) action();`,
fuelled by the number of list iterations. -/
def scanList (action : GState → List Char → ScanState → GState × List Char × ScanState)
    (g : GState) (s : List Char) (st : ScanState) (fuel : Nat) :
    Bool × GState × List Char × ScanState :=
  let bk := st.brackets
  let bl := st.braces
  match slgo bk bl s st with
  | (some false, rest, st') => (false, g, rest, st')
  | (some true, rest, st') => (true, slloop bk action fuel g rest st')
  | (none, rest, st') => (false, g, rest, st')
where
  /-- entry loop of `scan_list` -/
  slgo (bk bl : Nat) : List Char → ScanState → Option Bool × List Char × ScanState
    | [], st => (none, [], st)
    | c :: rest, st =>
      let st' := readc c st
      if bl > st'.braces then (some false, rest, st')
      else if st'.brackets = bk then slgo bk bl rest st'
      else (some true, rest, st')
  /-- iteration loop of `scan_list` -/
  slloop (bk : Nat)
      (action : GState → List Char → ScanState → GState × List Char × ScanState) :
      Nat → GState → List Char → ScanState → GState × List Char × ScanState
    | 0, g, s, st => (g, s, st)
    | fuel + 1, g, s, st =>
      if bk < st.brackets then
        let r := action g s st
        slloop bk action fuel r.1 r.2.1 r.2.2
      else (g, s, st)

/-! ## The non-recursive DFS of `upstream_features.cpp` (`traverse`) -/

/-- The recursion-stack frame of `traverse`: vertex, adjacency cursor,
accumulated low-link (`best`), TAIL-reachability flag, and whether an edge
has been explored yet. -/
structure Frame where
  v : Nat
  i : Nat
  best : Nat
  reached : Bool
  started : Bool
deriving DecidableEq, Repr

/-- The mutable state of `traverse` (and of `main` around it): the `dfs`
pairs, the `upstream` marks, the component accumulator `acc`, the explicit
recursion stack `stk` (head = top), the discovery counter and the threaded
return value `child_reached`. -/
structure TState where
  dfs : List (Nat × Nat)
  upstream : List Bool
  acc : List Nat
  stk : List Frame
  count : Nat
  child : Bool
deriving DecidableEq, Repr

/-- The articulation pop: `while (acc.top() != u) { upstream |= child; pop }`
followed by marking and popping `u` itself.  The empty-accumulator case is
undefined behaviour in the C++ (never reached under the traversal
invariant); the embedding returns the state unchanged there. -/
def popAcc (u : Nat) (child : Bool) : List Nat → List Bool → List Nat × List Bool
  | [], up => ([], up)
  | a :: rest, up =>
    if a = u then (rest, up.set a (up.getD a false || child))
    else popAcc u child rest (up.set a (up.getD a false || child))

/-- Structural worker for `skipEdges`: `k` counts the at most
`adj.length - i` remaining loop iterations. -/
def skipEdgesGo (adj : List (Nat × Nat)) (bad : List Bool) (dfs : List (Nat × Nat)) :
    Nat → Nat → Nat → Bool → Nat × Nat × Bool
  | 0, i, best, reached => (i, best, reached)
  | k + 1, i, best, reached =>
    if i < adj.length then
      let p := adj.getD i (0, 0)
      if 0 < (dfs.getD p.1 (0, 0)).1 ∨ bad.getD p.2 false = true then
        if bad.getD p.2 false then skipEdgesGo adj bad dfs k (i + 1) best reached
        else
          skipEdgesGo adj bad dfs k (i + 1) (min best (dfs.getD p.1 (0, 0)).2)
            (reached || (p.1 == TAIL))
      else (i, best, reached)
    else (i, best, reached)

/-- The inner `while` of `traverse` that advances the cursor past edges that
are deleted or lead to an already-visited vertex, folding in low-link and
TAIL-reachability information for the non-deleted ones. -/
def skipEdges (adj : List (Nat × Nat)) (bad : List Bool) (dfs : List (Nat × Nat))
    (i best : Nat) (reached : Bool) : Nat × Nat × Bool :=
  skipEdgesGo adj bad dfs (adj.length - i) i best reached

/-- One iteration of the main `while (!stk.empty())` loop of `traverse`. -/
def step (g : List (List (Nat × Nat))) (bad : List Bool) (s : TState) : TState :=
  match s.stk with
  | [] => s
  | fm :: rest =>
    let fm := { fm with reached := fm.reached || s.child }
    let st :=
      if fm.started then
        let u := ((g.getD fm.v []).getD fm.i (0, 0)).1
        if (s.dfs.getD u (0, 0)).2 ≥ (s.dfs.getD fm.v (0, 0)).1 then
          let pr := popAcc u s.child s.acc s.upstream
          ({ s with acc := pr.1, upstream := pr.2 }, { fm with i := fm.i + 1 })
        else
          (s, { fm with best := min fm.best (s.dfs.getD u (0, 0)).2, i := fm.i + 1 })
      else
        ({ s with dfs := s.dfs.set fm.v (fm.best, fm.best), acc := fm.v :: s.acc }, fm)
    let s1 := st.1
    let fm := st.2
    let adj := g.getD fm.v []
    let sk := skipEdges adj bad s1.dfs fm.i fm.best fm.reached
    let fm := { fm with i := sk.1, best := sk.2.1, reached := sk.2.2 }
    if fm.i = adj.length then
      { s1 with dfs := s1.dfs.set fm.v ((s1.dfs.getD fm.v (0, 0)).1, fm.best),
                stk := rest, child := fm.reached }
    else
      let w := (adj.getD fm.i (0, 0)).1
      let fm := { fm with reached := fm.reached || (w == TAIL), started := true }
      { s1 with
          stk := { v := w, i := 0, best := s1.count, reached := false, started := false }
                   :: fm :: rest,
          count := s1.count + 1, child := false }

/-- Iterate `step` until the frame stack empties (or the fuel runs out; the
termination theorem shows `3 * nodes + 2` fuel always suffices). -/
def runT (g : List (List (Nat × Nat))) (bad : List Bool) : Nat → TState → TState
  | 0, s => s
  | fuel + 1, s =>
    match s.stk with
    | [] => s
    | _ :: _ => runT g bad fuel (step g bad s)

/-- The initial state of `traverse`: `dfs` and `upstream` zero-initialised in
`main`, the root frame for HEAD with discovery value 1. -/
def initT (n : Nat) : TState :=
  { dfs := List.replicate n (0, 0), upstream := List.replicate n false,
    acc := [], stk := [{ v := HEAD, i := 0, best := 1, reached := false, started := false }],
    count := 2, child := false }

/-- The final loop of `traverse`: unconditionally mark every vertex still in
the accumulator as upstream. -/
def markAcc : List Nat → List Bool → List Bool
  | [], up => up
  | a :: rest, up => markAcc rest (up.set a true)

/-- The whole of `traverse` (with explicit fuel for the main loop). -/
def traverseFinal (g : List (List (Nat × Nat))) (bad : List Bool) (n fuel : Nat) :
    TState :=
  let s := runT g bad fuel (initT n)
  { s with upstream := markAcc s.acc s.upstream, acc := [] }

/-! ## The output pass of `main` (the feature emitter) -/

/-- The `for (const uintp &p : graph[v])` loop of the emitter: for each
adjacency entry with an upstream neighbour `u`, print the edge name when
`u > v`, and on first discovery (`dfs[u].first` nonzero) clear that field,
push `u` and print its name.  Every `fout <<` appends one element to `out`. -/
def emitAdj (nm en : List Ident) (up : List Bool) (v : Nat) :
    List (Nat × Nat) → List (Nat × Nat) → List Nat → List Ident →
    List (Nat × Nat) × List Nat × List Ident
  | [], dfs, stk, out => (dfs, stk, out)
  | p :: rest, dfs, stk, out =>
    let u := p.1
    if up.getD u false = false then emitAdj nm en up v rest dfs stk out
    else
      let out := if u > v then out ++ [en.getD p.2 []] else out
      if 0 < (dfs.getD u (0, 0)).1 then
        emitAdj nm en up v rest (dfs.set u (0, (dfs.getD u (0, 0)).2)) (u :: stk)
          (out ++ [nm.getD u []])
      else emitAdj nm en up v rest dfs stk out

/-- The outer `while (!find_upstream.empty())` loop of the emitter. -/
def emitLoop (nm en : List Ident) (up : List Bool) (g : List (List (Nat × Nat))) :
    Nat → List (Nat × Nat) → List Nat → List Ident → List Ident
  | 0, _, _, out => out
  | fuel + 1, dfs, stk, out =>
    match stk with
    | [] => out
    | v :: rest =>
      let out := out ++ [nm.getD v []]
      let r := emitAdj nm en up v (g.getD v []) dfs rest out
      emitLoop nm en up g fuel r.1 r.2.1 r.2.2

/-- The emitter pass of `main`: seed the stack with HEAD, clear
`dfs[0].first`, and run the loop. -/
def emitter (nm en : List Ident) (up : List Bool) (g : List (List (Nat × Nat)))
    (dfs : List (Nat × Nat)) (fuel : Nat) : List Ident :=
  emitLoop nm en up g fuel (dfs.set 0 (0, (dfs.getD 0 (0, 0)).2)) [0] []

/-- The full pipeline of `main` at the record level: build the graph, run
`traverse`, then run the emitter; the result is the sequence of strings
written to the output file. -/
def pipeline (rows : List (Ident × Ident × Ident)) (ctrls starts : List Ident) :
    List Ident :=
  let s := readGraphRecords rows ctrls starts
  let t := traverseFinal s.graph s.badedge s.nodes (3 * s.nodes + 2)
  emitter s.name s.edgename t.upstream s.graph t.dfs (2 * s.nodes + 2)

section Sanity

/-- Running example: one row (edge "E" joining "A" and "B"), controller "B",
starting point "A"; all identifiers carry the terminator. -/
example :
    readGraphRecords [(['E', nl], ['A', nl], ['B', nl])] [['B', nl]] [['A', nl]] =
    { name := [[], [], ['A', nl], ['B', nl]],
      graph := [[(2, 1)], [(3, 1)], [(3, 0), (0, 1)], [(2, 0), (1, 1)]],
      edgename := [['E', nl], []], badedge := [false, false],
      edgenodes := [[(2, 3)]],
      idx := [(['A', nl], 2), (['B', nl], 3)], edgeidx := [(['E', nl], 0)],
      edgevtx := [], nodes := 4, edges := 1 } := by
  decide

/-- Running example with reduction 1: the edge "E" itself is the controller. -/
example :
    (readGraphRecords [(['E', nl], ['A', nl], ['B', nl])] [['E', nl]] [['A', nl]]).nodes = 5 := by
  decide

/-- Traversal on the running example: HEAD, A and B are marked upstream, TAIL
is not; discovery order HEAD, A, B, TAIL. -/
example :
    (traverseFinal [[(2, 1)], [(3, 1)], [(3, 0), (0, 1)], [(2, 0), (1, 1)]]
      [false, false] 4 14) =
    { dfs := [(1, 1), (4, 3), (2, 1), (3, 2)], upstream := [true, false, true, true],
      acc := [], stk := [], count := 5, child := true } := by
  decide

/-- Emitter on the running example: the names of A and B each appear twice. -/
example :
    pipeline [(['E', nl], ['A', nl], ['B', nl])] [['B', nl]] [['A', nl]] =
    [[], [], ['A', nl], ['A', nl], ['E', nl], ['B', nl], ['B', nl]] := by
  decide

/-- `extract_string` on a fragment of the value position. -/
example :
    extract_string ([cl, qm, 'E', qm, cm] ++ [qm]) ⟨2, 1, false⟩ =
    (['E', nl], [cm, qm], ⟨2, 1, false⟩) := by
  decide

/-- `scan_field` scans the field `{aab}` for key `ab` without ever firing,
although `ab` occurs: the mismatch reset discards the current character. -/
example :
    scanFieldRec [['a', 'b']] ([lb, 'a', 'a', 'b', rb]) ⟨0, 0, false⟩ =
    (true, [], [], ⟨0, 0, false⟩) := by
  decide

/-- `scan_field` fires for key `a}b` on the field `{a{x}b}` although the full
text `a}b` never occurs contiguously: matcher state survives a nested
sub-object. -/
example :
    scanFieldRec [['a', rb, 'b']] ([lb, 'a', lb, 'x', rb, 'b', rb]) ⟨0, 0, false⟩ =
    (true, [0], [], ⟨0, 0, false⟩) := by
  decide

/-- A rows list whose first element is missing `toGlobalId`. -/
def jsonRow1 : List Char :=
  [lb] ++ (qm :: "viaGlobalId".toList ++ [qm]) ++ [cl, qm, 'E', qm, cm] ++
    (qm :: "fromGlobalId".toList ++ [qm]) ++ [cl, qm, 'A', qm, rb]

/-- A complete rows element. -/
def jsonRow2 : List Char :=
  [lb] ++ (qm :: "viaGlobalId".toList ++ [qm]) ++ [cl, qm, 'F', qm, cm] ++
    (qm :: "fromGlobalId".toList ++ [qm]) ++ [cl, qm, 'A', qm, cm] ++
    (qm :: "toGlobalId".toList ++ [qm]) ++ [cl, qm, 'B', qm, rb]

/-- The rows list `[row1, row2]`. -/
def jsonRows : List Char := [lk] ++ jsonRow1 ++ [cm] ++ jsonRow2 ++ [rk]

/-- Scanning the rows list: the malformed first row still contributes an edge
(with the default-empty target identifier stored in `idx`), and the second
row is parsed correctly afterwards. -/
example :
    scanList rowAction initState jsonRows ⟨1, 0, false⟩ 4 =
    (true,
      { name := [[], [], ['A', nl], [], ['B', nl]],
        graph := [[], [], [(3, 0), (4, 1)], [(2, 0)], [(2, 1)]],
        edgename := [['E', nl], ['F', nl]], badedge := [false, false],
        edgenodes := [[(2, 3)], [(2, 4)]],
        idx := [(['A', nl], 2), ([], 3), (['B', nl], 4)],
        edgeidx := [(['E', nl], 0), (['F', nl], 1)],
        edgevtx := [], nodes := 5, edges := 2 },
      [], ⟨1, 0, false⟩) := by
  decide

end Sanity

/-! ## Verification of the string extractor (claim C8) -/

lemma readc_instring_of_ne {c : Char} (st : ScanState) (h : c ≠ qm) :
    (readc c st).instring = st.instring := by
  unfold readc
  simp only [h, if_false]
  split
  · rfl
  · split <;> first | rfl | (split <;> first | rfl | (split <;> first | rfl | (split <;> rfl)))

lemma extractToString_skip (pre : List Char) :
    ∀ (st : ScanState) (s' : List Char), st.instring = false → qm ∉ pre →
    ∃ st', extractToString (pre ++ qm :: s') st = (s', st') ∧ st'.instring = true := by
  induction pre with
  | nil =>
    intro st s' hin _
    refine ⟨readc qm st, ?_, ?_⟩
    · show extractToString (qm :: s') st = _
      unfold extractToString
      rw [hin]
      simp only [Bool.false_eq_true, if_false]
      cases s' with
      | nil => rfl
      | cons c rest =>
        unfold extractToString
        have : (readc qm st).instring = true := by
          unfold readc; simp [hin]
        rw [this]
        simp
    · unfold readc; simp [hin]
  | cons c pre ih =>
    intro st s' hin hpre
    have hc : c ≠ qm := fun h => hpre (h ▸ List.mem_cons_self c pre)
    have hpre' : qm ∉ pre := fun h => hpre (List.mem_cons_of_mem c h)
    have hin' : (readc c st).instring = false := by
      rw [readc_instring_of_ne st hc, hin]
    obtain ⟨st', h1, h2⟩ := ih (readc c st) s' hin' hpre'
    refine ⟨st', ?_, h2⟩
    show extractToString (c :: (pre ++ qm :: s')) st = _
    unfold extractToString
    rw [hin]
    simpa using h1

lemma extractChars_copy (mid : List Char) :
    ∀ (st : ScanState) (rest : List Char), st.instring = true → qm ∉ mid →
    ∃ st', extractChars (mid ++ qm :: rest) st = (mid, rest, st') ∧
      st'.instring = false := by
  induction mid with
  | nil =>
    intro st rest hin _
    refine ⟨readc qm st, ?_, ?_⟩
    · show extractChars (qm :: rest) st = _
      unfold extractChars
      have : (readc qm st).instring = false := by
        unfold readc; simp [hin]
      simp [this]
    · unfold readc; simp [hin]
  | cons c mid ih =>
    intro st rest hin hmid
    have hc : c ≠ qm := fun h => hmid (h ▸ List.mem_cons_self c mid)
    have hmid' : qm ∉ mid := fun h => hmid (List.mem_cons_of_mem c h)
    have hin' : (readc c st).instring = true := by
      rw [readc_instring_of_ne st hc, hin]
    obtain ⟨st', h1, h2⟩ := ih (readc c st) rest hin' hmid'
    refine ⟨st', ?_, h2⟩
    show extractChars (c :: (mid ++ qm :: rest)) st = _
    unfold extractChars
    simp [hin', h1]

/-- **C8.** `extract_string` scans to the next string start and copies every
character up to the closing double quote verbatim — backslash sequences
included, no unescaping — then appends exactly one `'\n'` terminator; and
because each starting-point line is looked up in the same `'\n'`-terminated
form, a line matches a stored identifier exactly when the raw texts are
equal. -/
theorem extract_string_verbatim (pre mid rest : List Char) (st : ScanState)
    (hin : st.instring = false) (hpre : qm ∉ pre) (hmid : qm ∉ mid) :
    (extract_string (pre ++ qm :: (mid ++ qm :: rest)) st).1 = mid ++ [nl] ∧
    (extract_string (pre ++ qm :: (mid ++ qm :: rest)) st).2.1 = rest ∧
    ∀ line : List Char, line ++ [nl] = mid ++ [nl] ↔ line = mid := by
  obtain ⟨st1, h1, hst1⟩ := extractToString_skip pre st (mid ++ qm :: rest) hin hpre
  obtain ⟨st2, h2, _⟩ := extractChars_copy mid st1 rest hst1 hmid
  refine ⟨?_, ?_, ?_⟩
  · unfold extract_string
    simp [h1, h2]
  · unfold extract_string
    simp [h1, h2]
  · intro line
    constructor
    · intro h
      exact List.append_cancel_right h
    · intro h
      rw [h]

/-- Witness for C8: extracting `"Xy\"` from `ab"Xy\"z` yields `Xy\` plus the
terminator (the backslash is copied literally), leaving `z` unread. -/
theorem extract_string_verbatim_witness :
    (extract_string (['a', 'b'] ++ qm :: (['X', 'y', Char.ofNat 92] ++ qm :: ['z']))
        ⟨0, 0, false⟩).1 = ['X', 'y', Char.ofNat 92] ++ [nl] ∧
    (extract_string (['a', 'b'] ++ qm :: (['X', 'y', Char.ofNat 92] ++ qm :: ['z']))
        ⟨0, 0, false⟩).2.1 = ['z'] ∧
    ∀ line : List Char, line ++ [nl] = ['X', 'y', Char.ofNat 92] ++ [nl] ↔
      line = ['X', 'y', Char.ofNat 92] :=
  extract_string_verbatim ['a', 'b'] ['X', 'y', Char.ofNat 92] ['z'] ⟨0, 0, false⟩
    (by decide) (by decide) (by decide)

/-! ## The emitter duplicates vertex names (claim C2) -/

/-- **C2 (refuted — code bug).** On the network with one row (edge `E`
joining `A` and `B`), controller `B` and starting point `A`, the emitter
writes the upstream vertex names `A` and `B` twice each: once when the vertex
is first discovered (pushed) and once when it is popped.  The claim — and the
design in the spec, whose discovery-field guard exists precisely to emit each
vertex once — requires each upstream vertex name to appear exactly once. -/
theorem emitter_vertex_name_twice :
    (pipeline [(['E', nl], ['A', nl], ['B', nl])] [['B', nl]] [['A', nl]]).count
      ['A', nl] = 2 ∧
    (pipeline [(['E', nl], ['A', nl], ['B', nl])] [['B', nl]] [['A', nl]]).count
      ['B', nl] = 2 ∧
    (pipeline [(['E', nl], ['A', nl], ['B', nl])] [['B', nl]] [['A', nl]]).count
      ['E', nl] = 1 := by
  decide

/-! ## Missing-key rows still contribute (claim C6) -/

/-- **C6 counterexample.** On the rows list `[row1, row2]` where `row1` is
missing `toGlobalId`: the row-level field scan reports success (`true`), and
the malformed row contributes an edge record (edge 0, segment `(2, 3)`) and
adjacency entries — the claim asserts it reports failure and contributes
nothing. -/
theorem missing_key_row_counterexample :
    (scanFieldExtract keysRow [[], [], []] (jsonRow1.length + 1) jsonRow1
      ⟨1, 1, false⟩).1 = true ∧
    (scanList rowAction initState jsonRows ⟨1, 0, false⟩ 4).2.1.edges = 2 ∧
    (scanList rowAction initState jsonRows ⟨1, 0, false⟩ 4).2.1.edgenodes.getD 0 [] =
      [(2, 3)] ∧
    (scanList rowAction initState jsonRows ⟨1, 0, false⟩ 4).2.1.graph.getD 3 [] =
      [(2, 0)] := by
  decide

/-- **C6 (amended).** The field scan's success flag does not depend on the
candidate keys at all — it reports failure only when the enclosing list
closes before a field is entered.  A rows element that is present as an
object but missing required keys is therefore reported as success and still
contributes an edge record, with the default-empty string standing in for
each missing identifier, and parsing continues correctly with the next list
element (concretely: the complete second row is parsed into edge 1 with
segment `(2, 4)` after the malformed first row). -/
theorem missing_key_row_amended :
    (∀ (keys keys' slots slots' : List Ident) (fuel fuel' : Nat)
       (s : List Char) (st : ScanState),
       (scanFieldExtract keys slots fuel s st).1 =
       (scanFieldExtract keys' slots' fuel' s st).1) ∧
    (scanFieldExtract keysRow [[], [], []] (jsonRow1.length + 1) jsonRow1
      ⟨1, 1, false⟩).2.1 = [['E', nl], ['A', nl], []] ∧
    (scanList rowAction initState jsonRows ⟨1, 0, false⟩ 4).2.1.edgenodes =
      [[(2, 3)], [(2, 4)]] ∧
    (scanList rowAction initState jsonRows ⟨1, 0, false⟩ 4).2.1.edgename =
      [['E', nl], ['F', nl]] ∧
    (scanList rowAction initState jsonRows ⟨1, 0, false⟩ 4).2.1.idx =
      [(['A', nl], 2), ([], 3), (['B', nl], 4)] := by
  refine ⟨?_, by decide, by decide, by decide, by decide⟩
  intro keys keys' slots slots' fuel fuel' s st
  unfold scanFieldExtract
  rcases hE : sfEnter st.braces st.brackets s st with ⟨ob, rest, st'⟩
  rcases ob with _ | b
  · simp only [hE]
  · rcases b with _ | _ <;> simp only [hE]

/-! ## Key matching in `scan_field` (claim C3) -/

/-- Spec-side: the number of positions at which `key` occurs contiguously in
`s`. -/
def occCount (key s : List Char) : Nat :=
  ((List.range s.length).filter (fun i => (s.drop i).take key.length = key)).length

/-- Spec-side: the scanner state after consuming a prefix. -/
def scanChars (s : List Char) (st : ScanState) : ScanState :=
  s.foldl (fun a c => readc c a) st

/-- **C3 counterexample.** (a) In the field `{aab}` the key `ab` occurs once,
every character of the occurrence at object-depth exactly one above entry,
yet `scan_field` never invokes the handler: the reset-on-mismatch matcher
discards the second `a`.  (b) For the key `a}b` on the field `{a{x}b}` the
handler IS invoked although the full text `a}b` never occurs in the stream:
matcher state survives a nested sub-object whose closing brace is compared.
Both contradict "exactly once for each occurrence of the full text … and only
for occurrences …". -/
theorem scan_field_match_counterexample :
    (scanFieldRec [['a', 'b']] [lb, 'a', 'a', 'b', rb] ⟨0, 0, false⟩).1 = true ∧
    (scanFieldRec [['a', 'b']] [lb, 'a', 'a', 'b', rb] ⟨0, 0, false⟩).2.1 = [] ∧
    occCount ['a', 'b'] [lb, 'a', 'a', 'b', rb] = 1 ∧
    scanChars [lb, 'a', 'a'] ⟨0, 0, false⟩ = ⟨1, 0, false⟩ ∧
    scanChars [lb, 'a', 'a', 'b'] ⟨0, 0, false⟩ = ⟨1, 0, false⟩ ∧
    (scanFieldRec [['a', rb, 'b']] [lb, 'a', lb, 'x', rb, 'b', rb] ⟨0, 0, false⟩).2.1 =
      [0] ∧
    occCount ['a', rb, 'b'] [lb, 'a', lb, 'x', rb, 'b', rb] = 0 := by
  decide

/-- The key-matching loop of `scan_field`, instrumented with the end position
(number of characters consumed since the scan started) of every handler
invocation.  Identical to `sfScan` except for the ghost position counter. -/
def sfScanPos (keys : List Ident) (bl bk : Nat) :
    List Char → ScanState → List Nat → Nat → List (Nat × Nat) →
    List (Nat × Nat) × List Char × ScanState
  | [], st, _, _, fires => (fires, [], st)
  | c :: rest, st, pos, n, fires =>
    if st.braces ≤ bl then (fires, c :: rest, st)
    else
      let st' := readc c st
      if bl + 1 < st'.braces ∨ bk < st'.brackets then
        sfScanPos keys bl bk rest st' pos (n + 1) fires
      else
        let pf := matchKeysGo keys pos 0 c
        sfScanPos keys bl bk rest st' pf.1 (n + 1)
          (fires ++ pf.2.map (fun i => (i, n + 1)))

/-- `scan_field` with instrumented invocation positions. -/
def scanFieldPos (keys : List Ident) (s : List Char) (st : ScanState) :
    Bool × List (Nat × Nat) × List Char × ScanState :=
  let bl := st.braces
  let bk := st.brackets
  match sfEnter bl bk s st with
  | (some false, rest, st') => (false, [], rest, st')
  | (some true, rest, st') =>
    let r := sfScanPos keys bl bk rest st' (List.replicate keys.length 0) 0 []
    (true, r.1, r.2.1, r.2.2)
  | (none, rest, st') => (false, [], rest, st')

/-- A candidate key in the class for which the matcher is sound: nonempty and
free of the four depth delimiters and of the C-string terminator. -/
def KeyOk (k : List Char) : Prop :=
  k ≠ [] ∧ lb ∉ k ∧ rb ∉ k ∧ lk ∉ k ∧ rk ∉ k ∧ nulc ∉ k

/-! Helper lemmas for the `scan_field` matcher analysis (claim C3). -/

lemma scanChars_snoc (l : List Char) (c : Char) (st : ScanState) :
    scanChars (l ++ [c]) st = readc c (scanChars l st) := by
  unfold scanChars
  rw [List.foldl_append]
  rfl

lemma readc_braces_eq {c : Char} (st : ScanState) (h1 : c ≠ lb) (h2 : c ≠ rb) :
    (readc c st).braces = st.braces := by
  unfold readc
  by_cases hq : c = qm
  · rw [if_pos hq]
  · rw [if_neg hq]
    by_cases hs : st.instring
    · rw [if_pos hs]
    · rw [if_neg hs, if_neg h1, if_neg h2]
      by_cases hk : c = lk
      · rw [if_pos hk]
      · rw [if_neg hk]
        by_cases hr : c = rk
        · rw [if_pos hr]
        · rw [if_neg hr]

lemma readc_brackets_eq {c : Char} (st : ScanState) (h1 : c ≠ lk) (h2 : c ≠ rk) :
    (readc c st).brackets = st.brackets := by
  unfold readc
  by_cases hq : c = qm
  · rw [if_pos hq]
  · rw [if_neg hq]
    by_cases hs : st.instring
    · rw [if_pos hs]
    · rw [if_neg hs]
      by_cases hlb : c = lb
      · rw [if_pos hlb]
      · rw [if_neg hlb]
        by_cases hrb : c = rb
        · rw [if_pos hrb]
        · rw [if_neg hrb, if_neg h1, if_neg h2]

lemma take_succ_getD {α : Type} : ∀ (l : List α) (p : Nat) (d : α), p < l.length →
    l.take (p + 1) = l.take p ++ [l.getD p d]
  | [], p, d, h => by simp at h
  | a :: l, 0, d, _ => rfl
  | a :: l, p + 1, d, h => by
    show a :: l.take (p + 1) = a :: (l.take p ++ [l.getD p d])
    rw [take_succ_getD l p d (by simpa using h)]

lemma matchKeysGo_len : ∀ (ks : List Ident) (ps : List Nat) (i0 : Nat) (c : Char),
    ps.length = ks.length → ((matchKeysGo ks ps i0 c).1).length = ks.length := by
  intro ks
  induction ks with
  | nil =>
    intro ps i0 c h
    cases ps with
    | nil => rfl
    | cons p ps => simp at h
  | cons k ks ih =>
    intro ps i0 c h
    cases ps with
    | nil => simp at h
    | cons p ps =>
      unfold matchKeysGo
      split
      · split
        · show _ + 1 = _
          rw [ih ps (i0 + 1) c (by simpa using h)]
          rfl
        · show _ + 1 = _
          rw [ih ps (i0 + 1) c (by simpa using h)]
          rfl
      · show _ + 1 = _
        rw [ih ps (i0 + 1) c (by simpa using h)]
        rfl

lemma matchKeysGo_pos_getD : ∀ (ks : List Ident) (ps : List Nat) (i0 : Nat) (c : Char)
    (j : Nat), ps.length = ks.length → j < ks.length →
    ((matchKeysGo ks ps i0 c).1).getD j 0 =
      (if c = ((ks.getD j []).getD (ps.getD j 0) nulc) then ps.getD j 0 + 1 else 0) := by
  intro ks
  induction ks with
  | nil => intro ps i0 c j _ hj; simp at hj
  | cons k ks ih =>
    intro ps i0 c j h hj
    cases ps with
    | nil => simp at h
    | cons p ps =>
      cases j with
      | zero =>
        show ((matchKeysGo (k :: ks) (p :: ps) i0 c).1).getD 0 0 =
          if c = (k.getD p nulc) then p + 1 else 0
        unfold matchKeysGo
        split
        · rename_i hc
          split
          · simp [hc]
          · simp [hc]
        · rename_i hc
          simp [hc]
      | succ j =>
        have hrec := ih ps (i0 + 1) c j (by simpa using h) (by simpa using hj)
        show ((matchKeysGo (k :: ks) (p :: ps) i0 c).1).getD (j + 1) 0 =
          if c = ((ks.getD j []).getD (ps.getD j 0) nulc) then ps.getD j 0 + 1 else 0
        unfold matchKeysGo
        split
        · split
          · exact hrec
          · exact hrec
        · exact hrec

lemma matchKeysGo_fires_spec : ∀ (ks : List Ident) (ps : List Nat) (i0 : Nat)
    (c : Char) (q : Nat), q ∈ (matchKeysGo ks ps i0 c).2 →
    i0 ≤ q ∧ q - i0 < ks.length ∧
    c = ((ks.getD (q - i0) []).getD (ps.getD (q - i0) 0) nulc) ∧
    ((ks.getD (q - i0) []).getD (ps.getD (q - i0) 0 + 1) nulc) = nulc := by
  intro ks
  induction ks with
  | nil =>
    intro ps i0 c q hq
    cases ps <;> simp [matchKeysGo] at hq
  | cons k ks ih =>
    intro ps i0 c q hq
    cases ps with
    | nil => simp [matchKeysGo] at hq
    | cons p ps =>
      unfold matchKeysGo at hq
      split at hq
      · rename_i hc
        split at hq
        · rename_i hfire
          rcases List.mem_cons.mp hq with rfl | hq
          · refine ⟨le_refl _, ?_, ?_, ?_⟩
            · simp
            · simpa using hc
            · simpa using hfire
          · obtain ⟨h1, h2, h3, h4⟩ := ih ps (i0 + 1) c q hq
            have hq0 : q - i0 = (q - (i0 + 1)) + 1 := by omega
            refine ⟨by omega, by rw [hq0]; simpa using h2, ?_, ?_⟩
            · rw [hq0]
              exact h3
            · rw [hq0]
              exact h4
        · obtain ⟨h1, h2, h3, h4⟩ := ih ps (i0 + 1) c q hq
          have hq0 : q - i0 = (q - (i0 + 1)) + 1 := by omega
          refine ⟨by omega, by rw [hq0]; simpa using h2, ?_, ?_⟩
          · rw [hq0]
            exact h3
          · rw [hq0]
            exact h4
      · obtain ⟨h1, h2, h3, h4⟩ := ih ps (i0 + 1) c q hq
        have hq0 : q - i0 = (q - (i0 + 1)) + 1 := by omega
        refine ⟨by omega, by rw [hq0]; simpa using h2, ?_, ?_⟩
        · rw [hq0]
          exact h3
        · rw [hq0]
          exact h4

lemma matchKeysGo_fires_nodup : ∀ (ks : List Ident) (ps : List Nat) (i0 : Nat)
    (c : Char), (matchKeysGo ks ps i0 c).2.Nodup := by
  intro ks
  induction ks with
  | nil => intro ps i0 c; cases ps <;> simp [matchKeysGo]
  | cons k ks ih =>
    intro ps i0 c
    cases ps with
    | nil => simp [matchKeysGo]
    | cons p ps =>
      unfold matchKeysGo
      split
      · split
        · refine List.Nodup.cons ?_ (ih ps (i0 + 1) c)
          intro hmem
          have := (matchKeysGo_fires_spec ks ps (i0 + 1) c i0 hmem).1
          omega
        · exact ih ps (i0 + 1) c
      · exact ih ps (i0 + 1) c


/-! ## List helpers -/

section ListHelpers

variable {α : Type}

lemma getD_set_self : ∀ (l : List α) (i : Nat) (x d : α), i < l.length →
    (l.set i x).getD i d = x
  | _ :: _, 0, _, _, _ => rfl
  | _ :: l, i + 1, x, d, h => getD_set_self l i x d (by simpa using h)

lemma getD_set_ne : ∀ (l : List α) (i j : Nat) (x d : α), i ≠ j →
    (l.set i x).getD j d = l.getD j d
  | [], _, _, _, _, _ => by simp
  | _ :: _, 0, 0, _, _, h => absurd rfl h
  | _ :: _, 0, _ + 1, _, _, _ => rfl
  | _ :: _, _ + 1, 0, _, _, _ => rfl
  | _ :: l, i + 1, j + 1, x, d, h =>
    getD_set_ne l i j x d (fun hc => h (by rw [hc]))

lemma set_oob : ∀ (l : List α) (i : Nat) (x : α), l.length ≤ i → l.set i x = l
  | [], _, _, _ => by simp
  | _ :: _, 0, _, h => by simp at h
  | a :: l, i + 1, x, h => by
    show a :: l.set i x = _
    rw [set_oob l i x (by simpa using h)]

lemma getD_append_lt (l l' : List α) (d : α) (i : Nat) (h : i < l.length) :
    (l ++ l').getD i d = l.getD i d :=
  List.getD_append l l' d i h

lemma getD_append_len (l : List α) (x d : α) :
    (l ++ [x]).getD l.length d = x := by
  rw [List.getD_append_right l [x] d l.length (le_refl _)]
  simp

lemma getD_append_gt (l : List α) (x d : α) (i : Nat) (h : l.length < i) :
    (l ++ [x]).getD i d = d := by
  rw [List.getD_append_right l [x] d i (le_of_lt h)]
  apply List.getD_eq_default
  simp only [List.length_singleton]
  omega

lemma getD_oob (l : List α) (d : α) (i : Nat) (h : l.length ≤ i) :
    l.getD i d = d :=
  List.getD_eq_default l d h

lemma getD_mem (l : List α) (d : α) (i : Nat) (h : i < l.length) :
    l.getD i d ∈ l := by
  rw [List.getD_eq_getElem l d h]
  exact List.getElem_mem h

end ListHelpers

/-- The depth condition under which a character is matched: object-depth
exactly one above the entry level, array-depth not above it. -/
def Allowed (bl bk : Nat) (st : ScanState) : Prop :=
  st.braces = bl + 1 ∧ st.brackets ≤ bk

/-- What an invocation record `(key-index, end-position)` guarantees for a
well-formed key: the key's text occurs contiguously ending at that position,
with the scanner then at object-depth exactly `bl + 1` and array-depth at
most `bk`. -/
def SoundFire (keys : List Ident) (bl bk : Nat) (st0 : ScanState) (s0 : List Char)
    (q : Nat × Nat) : Prop :=
  q.1 < keys.length → KeyOk (keys.getD q.1 []) →
  (keys.getD q.1 []).length ≤ q.2 ∧ q.2 ≤ s0.length ∧
  (s0.take q.2).drop (q.2 - (keys.getD q.1 []).length) = keys.getD q.1 [] ∧
  Allowed bl bk (scanChars (s0.take q.2) st0)

lemma sfScanPos_step_exit {keys : List Ident} {bl bk : Nat} {c : Char}
    {rest : List Char} {st : ScanState} {pos : List Nat} {n : Nat}
    {F : List (Nat × Nat)} (h : st.braces ≤ bl) :
    sfScanPos keys bl bk (c :: rest) st pos n F = (F, c :: rest, st) := by
  unfold sfScanPos
  rw [if_pos h]

lemma sfScanPos_step_skip {keys : List Ident} {bl bk : Nat} {c : Char}
    {rest : List Char} {st : ScanState} {pos : List Nat} {n : Nat}
    {F : List (Nat × Nat)} (h : ¬ st.braces ≤ bl)
    (h2 : bl + 1 < (readc c st).braces ∨ bk < (readc c st).brackets) :
    sfScanPos keys bl bk (c :: rest) st pos n F =
      sfScanPos keys bl bk rest (readc c st) pos (n + 1) F := by
  conv_lhs => unfold sfScanPos
  rw [if_neg h]
  dsimp only
  rw [if_pos h2]

lemma sfScanPos_step_match {keys : List Ident} {bl bk : Nat} {c : Char}
    {rest : List Char} {st : ScanState} {pos : List Nat} {n : Nat}
    {F : List (Nat × Nat)} (h : ¬ st.braces ≤ bl)
    (h2 : ¬ (bl + 1 < (readc c st).braces ∨ bk < (readc c st).brackets)) :
    sfScanPos keys bl bk (c :: rest) st pos n F =
      sfScanPos keys bl bk rest (readc c st) (matchKeysGo keys pos 0 c).1 (n + 1)
        (F ++ (matchKeysGo keys pos 0 c).2.map (fun i => (i, n + 1))) := by
  conv_lhs => unfold sfScanPos
  rw [if_neg h]
  dsimp only
  rw [if_neg h2]

lemma sfScan_step_exit {keys : List Ident} {bl bk : Nat} {c : Char}
    {rest : List Char} {st : ScanState} {pos fires : List Nat}
    (h : st.braces ≤ bl) :
    sfScan keys bl bk (c :: rest) st pos fires = (fires, c :: rest, st) := by
  unfold sfScan
  rw [if_pos h]

lemma sfScan_step_skip {keys : List Ident} {bl bk : Nat} {c : Char}
    {rest : List Char} {st : ScanState} {pos fires : List Nat}
    (h : ¬ st.braces ≤ bl)
    (h2 : bl + 1 < (readc c st).braces ∨ bk < (readc c st).brackets) :
    sfScan keys bl bk (c :: rest) st pos fires =
      sfScan keys bl bk rest (readc c st) pos fires := by
  conv_lhs => unfold sfScan
  rw [if_neg h]
  dsimp only
  rw [if_pos h2]

lemma sfScan_step_match {keys : List Ident} {bl bk : Nat} {c : Char}
    {rest : List Char} {st : ScanState} {pos fires : List Nat}
    (h : ¬ st.braces ≤ bl)
    (h2 : ¬ (bl + 1 < (readc c st).braces ∨ bk < (readc c st).brackets)) :
    sfScan keys bl bk (c :: rest) st pos fires =
      sfScan keys bl bk rest (readc c st) (matchKeysGo keys pos 0 c).1
        (fires ++ (matchKeysGo keys pos 0 c).2) := by
  conv_lhs => unfold sfScan
  rw [if_neg h]
  dsimp only
  rw [if_neg h2]

lemma getD_replicate (n i : Nat) : (List.replicate n (0 : Nat)).getD i 0 = 0 := by
  induction n generalizing i with
  | zero => cases i <;> rfl
  | succ n ih =>
    cases i with
    | zero => rfl
    | succ i => exact ih i

/-- Soundness of the instrumented matcher loop: every invocation it records
for a well-formed key marks a contiguous occurrence of the key's full text at
the allowed depth. -/
lemma sfScanPos_sound (keys : List Ident) (bl bk : Nat) (st0 : ScanState) :
    ∀ (s done : List Char) (pos : List Nat) (F : List (Nat × Nat)) (s0 : List Char),
    s0 = done ++ s → nulc ∉ s0 →
    pos.length = keys.length →
    (∀ i, i < keys.length → KeyOk (keys.getD i []) →
      pos.getD i 0 ≤ (keys.getD i []).length ∧
      (0 < pos.getD i 0 → Allowed bl bk (scanChars done st0) →
        done.drop (done.length - pos.getD i 0) =
          (keys.getD i []).take (pos.getD i 0))) →
    (∀ q ∈ F, SoundFire keys bl bk st0 s0 q) →
    ∀ q ∈ (sfScanPos keys bl bk s (scanChars done st0) pos done.length F).1,
      SoundFire keys bl bk st0 s0 q := by
  intro s
  induction s with
  | nil =>
    intro done pos F s0 _ _ _ _ hF q hq
    exact hF q hq
  | cons c rest ih =>
    intro done pos F s0 hs0 hnul hlen hinv hF
    by_cases hbl : (scanChars done st0).braces ≤ bl
    · rw [sfScanPos_step_exit hbl]
      exact hF
    · have hstate : readc c (scanChars done st0) = scanChars (done ++ [c]) st0 :=
        (scanChars_snoc done c st0).symm
      have hdone' : s0 = (done ++ [c]) ++ rest := by
        rw [hs0]
        simp
      have hc_ne_nul : c ≠ nulc := by
        intro hc
        apply hnul
        rw [hs0, ← hc]
        exact List.mem_append_right _ (List.mem_cons_self _ _)
      by_cases hskip : bl + 1 < (readc c (scanChars done st0)).braces ∨
          bk < (readc c (scanChars done st0)).brackets
      · rw [sfScanPos_step_skip hbl hskip]
        rw [hstate, show done.length + 1 = (done ++ [c]).length by simp]
        apply ih (done ++ [c]) pos F s0 hdone' hnul hlen ?_ hF
        intro i hi hOk
        obtain ⟨ha, _⟩ := hinv i hi hOk
        refine ⟨ha, ?_⟩
        intro _ hAll
        exfalso
        rw [← hstate] at hAll
        obtain ⟨hA1, hA2⟩ := hAll
        rcases hskip with h | h <;> omega
      · -- per-key facts when the current character matches key i
        have hkeyfact : ∀ i, i < keys.length → KeyOk (keys.getD i []) →
            c = (keys.getD i []).getD (pos.getD i 0) nulc →
            pos.getD i 0 < (keys.getD i []).length ∧
            Allowed bl bk (readc c (scanChars done st0)) ∧
            pos.getD i 0 ≤ done.length ∧
            (done ++ [c]).drop (done.length + 1 - (pos.getD i 0 + 1)) =
              (keys.getD i []).take (pos.getD i 0 + 1) := by
          intro i hi hOk hc
          obtain ⟨hknil, hklb, hkrb, hklk, hkrk, hknul⟩ := hOk
          have hplt : pos.getD i 0 < (keys.getD i []).length := by
            by_contra hge
            have hx : (keys.getD i []).getD (pos.getD i 0) nulc = nulc :=
              getD_oob _ _ _ (le_of_not_lt hge)
            exact hc_ne_nul (hc.trans hx)
          have hcmem : c ∈ keys.getD i [] := by
            rw [hc]
            exact getD_mem _ _ _ hplt
          have hbr : (readc c (scanChars done st0)).braces =
              (scanChars done st0).braces :=
            readc_braces_eq _ (fun h => hklb (h ▸ hcmem)) (fun h => hkrb (h ▸ hcmem))
          have hbk2 : (readc c (scanChars done st0)).brackets =
              (scanChars done st0).brackets :=
            readc_brackets_eq _ (fun h => hklk (h ▸ hcmem)) (fun h => hkrk (h ▸ hcmem))
          obtain ⟨hsk1, hsk2⟩ := not_or.mp hskip
          have hAllowed : Allowed bl bk (scanChars done st0) := ⟨by omega, by omega⟩
          have hAllowed' : Allowed bl bk (readc c (scanChars done st0)) :=
            ⟨by omega, by omega⟩
          have hcont : done.drop (done.length - pos.getD i 0) =
              (keys.getD i []).take (pos.getD i 0) := by
            rcases Nat.eq_zero_or_pos (pos.getD i 0) with hp0 | hppos
            · rw [hp0]
              simp
            · exact (hinv i hi ⟨hknil, hklb, hkrb, hklk, hkrk, hknul⟩).2 hppos hAllowed
          have hple : pos.getD i 0 ≤ done.length := by
            have hlencont := congrArg List.length hcont
            rw [List.length_drop, List.length_take] at hlencont
            have hmin : min (pos.getD i 0) (keys.getD i []).length = pos.getD i 0 :=
              min_eq_left (le_of_lt hplt)
            omega
          refine ⟨hplt, hAllowed', hple, ?_⟩
          have harith : done.length + 1 - (pos.getD i 0 + 1) =
              done.length - pos.getD i 0 := by omega
          rw [harith, List.drop_append_of_le_length (by omega), hcont,
            take_succ_getD _ _ nulc hplt, ← hc]
        rw [sfScanPos_step_match hbl hskip]
        rw [hstate, show done.length + 1 = (done ++ [c]).length by simp]
        apply ih (done ++ [c]) _ _ s0 hdone' hnul
          (matchKeysGo_len keys pos 0 c hlen) ?_ ?_
        · -- the invariant for the updated positions
          intro i hi hOk
          rw [matchKeysGo_pos_getD keys pos 0 c i hlen hi]
          by_cases hc : c = (keys.getD i []).getD (pos.getD i 0) nulc
          · rw [if_pos hc]
            obtain ⟨hplt, _, _, hdrop⟩ := hkeyfact i hi hOk hc
            refine ⟨hplt, ?_⟩
            intro _ _
            rw [show (done ++ [c]).length = done.length + 1 by simp]
            exact hdrop
          · rw [if_neg hc]
            exact ⟨Nat.zero_le _, fun h _ => absurd h (by omega)⟩
        · -- soundness of the newly recorded invocations
          intro q hq
          rcases List.mem_append.mp hq with hq | hq
          · exact hF q hq
          · obtain ⟨j, hj, rfl⟩ := List.mem_map.mp hq
            obtain ⟨_, hjlt, hcj, hfire⟩ := matchKeysGo_fires_spec keys pos 0 c j hj
            rw [Nat.sub_zero] at hjlt hcj hfire
            intro _ hOk
            obtain ⟨hplt, hAllowed', hple, hdrop⟩ := hkeyfact j hjlt hOk hcj
            obtain ⟨hknil, hklb, hkrb, hklk, hkrk, hknul⟩ := hOk
            have hklen : pos.getD j 0 + 1 = (keys.getD j []).length := by
              by_contra hne
              have hlt : pos.getD j 0 + 1 < (keys.getD j []).length := by omega
              exact hknul (hfire ▸ getD_mem _ nulc _ hlt)
            have htake : s0.take (done.length + 1) = done ++ [c] := by
              rw [hdone']
              exact List.take_left' (by simp)
            have hlc : (done ++ [c]).length = done.length + 1 := by simp
            refine ⟨?_, ?_, ?_, ?_⟩
            · show (keys.getD j []).length ≤ (done ++ [c]).length
              omega
            · show (done ++ [c]).length ≤ s0.length
              have hlen0 := congrArg List.length hs0
              simp only [List.length_append, List.length_cons] at hlen0
              omega
            · show (s0.take (done ++ [c]).length).drop
                ((done ++ [c]).length - (keys.getD j []).length) = keys.getD j []
              rw [hlc, htake, ← hklen, hdrop, hklen, List.take_length]
            · show Allowed bl bk (scanChars (s0.take (done ++ [c]).length) st0)
              rw [hlc, htake, ← hstate]
              exact hAllowed'

/-- The instrumented invocation list never records the same key twice at the
same position. -/
lemma sfScanPos_nodup (keys : List Ident) (bl bk : Nat) :
    ∀ (s : List Char) (st : ScanState) (pos : List Nat) (n : Nat)
      (F : List (Nat × Nat)),
    (∀ q ∈ F, q.2 ≤ n) → F.Nodup →
    (sfScanPos keys bl bk s st pos n F).1.Nodup := by
  intro s
  induction s with
  | nil => intro st pos n F _ hN; exact hN
  | cons c rest ih =>
    intro st pos n F hB hN
    by_cases hbl : st.braces ≤ bl
    · rw [sfScanPos_step_exit hbl]
      exact hN
    · by_cases hskip : bl + 1 < (readc c st).braces ∨ bk < (readc c st).brackets
      · rw [sfScanPos_step_skip hbl hskip]
        exact ih _ _ _ _ (fun q hq => Nat.le_succ_of_le (hB q hq)) hN
      · rw [sfScanPos_step_match hbl hskip]
        apply ih
        · intro q hq
          rcases List.mem_append.mp hq with hq | hq
          · exact Nat.le_succ_of_le (hB q hq)
          · obtain ⟨j, _, rfl⟩ := List.mem_map.mp hq
            exact le_refl _
        · apply List.Nodup.append hN
          · exact (matchKeysGo_fires_nodup keys pos 0 c).map
              (fun a b hab => by injection hab)
          · intro q hq1 hq2
            obtain ⟨j, _, rfl⟩ := List.mem_map.mp hq2
            have := hB _ hq1
            simp only at this
            omega

/-- Bridge: the handler-invocation list of the code's `scan_field` matcher is
the first projection of the instrumented one. -/
lemma sfScan_eq_pos (keys : List Ident) (bl bk : Nat) :
    ∀ (s : List Char) (st : ScanState) (pos : List Nat) (n : Nat)
      (F : List (Nat × Nat)),
    (sfScan keys bl bk s st pos (F.map Prod.fst)).1 =
      ((sfScanPos keys bl bk s st pos n F).1).map Prod.fst := by
  intro s
  induction s with
  | nil => intro st pos n F; rfl
  | cons c rest ih =>
    intro st pos n F
    by_cases hbl : st.braces ≤ bl
    · rw [sfScanPos_step_exit hbl, sfScan_step_exit hbl]
    · by_cases hskip : bl + 1 < (readc c st).braces ∨ bk < (readc c st).brackets
      · rw [sfScanPos_step_skip hbl hskip, sfScan_step_skip hbl hskip]
        exact ih _ _ (n + 1) F
      · rw [sfScanPos_step_match hbl hskip, sfScan_step_match hbl hskip]
        have hmap : (F ++ (matchKeysGo keys pos 0 c).2.map
            (fun i => (i, n + 1))).map Prod.fst =
            F.map Prod.fst ++ (matchKeysGo keys pos 0 c).2 := by
          rw [List.map_append, List.map_map,
            show (Prod.fst ∘ fun i : Nat => (i, n + 1)) = id from rfl, List.map_id]
        rw [← hmap]
        exact ih _ _ (n + 1) _

/-- The entry loop consumes a prefix: its unread stream is a suffix of the
input. -/
lemma sfEnter_suffix (bl bk : Nat) : ∀ (s : List Char) (st : ScanState),
    ∃ pre, s = pre ++ (sfEnter bl bk s st).2.1 := by
  intro s
  induction s with
  | nil => intro st; exact ⟨[], rfl⟩
  | cons c rest ih =>
    intro st
    show ∃ pre, c :: rest = pre ++ (sfEnter bl bk (c :: rest) st).2.1
    unfold sfEnter
    by_cases h1 : bk > (readc c st).brackets
    · rw [if_pos h1]
      exact ⟨[c], rfl⟩
    · rw [if_neg h1]
      by_cases h2 : (readc c st).braces = bl
      · rw [if_pos h2]
        obtain ⟨pre, hpre⟩ := ih (readc c st)
        exact ⟨c :: pre, by rw [List.cons_append, ← hpre]⟩
      · rw [if_neg h2]
        exact ⟨[c], rfl⟩

/-- **C3 (amended).** Once `scan_field` has entered a field, its handler
invocations coincide with the position-instrumented matcher's; no key is
invoked twice at the same end position; and, for every candidate key that is
nonempty and free of the depth delimiters and of the terminator, every
invocation marks the end of a contiguous occurrence of the key's full text in
the post-entry stream, occurring at object-depth exactly one greater than the
entry depth and at array-depth not above it.  (Occurrences broken off by the
reset-on-mismatch matcher may still be missed, and keys containing delimiter
characters may fire without an occurrence.) -/
theorem scan_field_amended (keys : List Ident) (s : List Char) (st : ScanState)
    (hnul : nulc ∉ s) :
    (scanFieldRec keys s st).1 = (scanFieldPos keys s st).1 ∧
    (scanFieldRec keys s st).2.1 = ((scanFieldPos keys s st).2.1).map Prod.fst ∧
    (scanFieldPos keys s st).2.1.Nodup ∧
    ∀ q ∈ (scanFieldPos keys s st).2.1,
      SoundFire keys st.braces st.brackets
        (sfEnter st.braces st.brackets s st).2.2
        (sfEnter st.braces st.brackets s st).2.1 q := by
  obtain ⟨pre, hpre⟩ := sfEnter_suffix st.braces st.brackets s st
  have hnul' : nulc ∉ (sfEnter st.braces st.brackets s st).2.1 := by
    intro hmem
    exact hnul (hpre ▸ List.mem_append_right pre hmem)
  unfold scanFieldRec scanFieldPos
  rcases hE : sfEnter st.braces st.brackets s st with ⟨ob, rest, st'⟩
  simp only [hE] at hnul' ⊢
  rcases ob with _ | b
  · exact ⟨rfl, rfl, List.nodup_nil, fun q hq => absurd hq (List.not_mem_nil q)⟩
  · rcases b with _ | _
    · exact ⟨rfl, rfl, List.nodup_nil, fun q hq => absurd hq (List.not_mem_nil q)⟩
    · refine ⟨rfl, ?_, ?_, ?_⟩
      · exact sfScan_eq_pos keys st.braces st.brackets rest st'
          (List.replicate keys.length 0) 0 []
      · exact sfScanPos_nodup keys st.braces st.brackets rest st'
          (List.replicate keys.length 0) 0 []
          (fun q hq => absurd hq (List.not_mem_nil q)) List.nodup_nil
      · intro q hq
        apply sfScanPos_sound keys st.braces st.brackets st' rest []
          (List.replicate keys.length 0) [] rest rfl hnul'
          (by simp) ?_ (fun p hp => absurd hp (List.not_mem_nil p)) q hq
        intro i hi _
        rw [getD_replicate]
        exact ⟨Nat.zero_le _, fun h => absurd h (by omega)⟩

/-- Witness for the amended C3 theorem: the field `{"ab":[]}` scanned for the
single key `ab` from the initial state. -/
theorem scan_field_amended_witness :
    nulc ∉ ([lb, qm, 'a', 'b', qm, cl, lk, rk, rb] : List Char) ∧
    ((scanFieldRec [['a', 'b']] [lb, qm, 'a', 'b', qm, cl, lk, rk, rb]
        ⟨0, 0, false⟩).1 =
      (scanFieldPos [['a', 'b']] [lb, qm, 'a', 'b', qm, cl, lk, rk, rb]
        ⟨0, 0, false⟩).1 ∧
    (scanFieldRec [['a', 'b']] [lb, qm, 'a', 'b', qm, cl, lk, rk, rb]
        ⟨0, 0, false⟩).2.1 =
      ((scanFieldPos [['a', 'b']] [lb, qm, 'a', 'b', qm, cl, lk, rk, rb]
        ⟨0, 0, false⟩).2.1).map Prod.fst ∧
    (scanFieldPos [['a', 'b']] [lb, qm, 'a', 'b', qm, cl, lk, rk, rb]
        ⟨0, 0, false⟩).2.1.Nodup ∧
    ∀ q ∈ (scanFieldPos [['a', 'b']] [lb, qm, 'a', 'b', qm, cl, lk, rk, rb]
        ⟨0, 0, false⟩).2.1,
      SoundFire [['a', 'b']] (ScanState.mk 0 0 false).braces
        (ScanState.mk 0 0 false).brackets
        (sfEnter (ScanState.mk 0 0 false).braces (ScanState.mk 0 0 false).brackets
          [lb, qm, 'a', 'b', qm, cl, lk, rk, rb] ⟨0, 0, false⟩).2.2
        (sfEnter (ScanState.mk 0 0 false).braces (ScanState.mk 0 0 false).brackets
          [lb, qm, 'a', 'b', qm, cl, lk, rk, rb] ⟨0, 0, false⟩).2.1 q) :=
  ⟨by decide, scan_field_amended [['a', 'b']]
    [lb, qm, 'a', 'b', qm, cl, lk, rk, rb] ⟨0, 0, false⟩ (by decide)⟩


/-! ## The adjacency-symmetry invariant (claim C5) -/

/-- Count-level symmetry of the adjacency structure: `(b, e)` occurs in
`graph[a]` exactly as often as `(a, e)` occurs in `graph[b]`. -/
def Sym (g : List (List (Nat × Nat))) : Prop :=
  ∀ a b e, ((g.getD a []).count (b, e)) = ((g.getD b []).count (a, e))

lemma wire_getD (g : List (List (Nat × Nat))) (u v e : Nat)
    (hu : u < g.length) (hv : v < g.length) (w : Nat) :
    (wire g u v e).getD w [] =
      (g.getD w []) ++ (if w = u then [(v, e)] else []) ++
        (if w = v then [(u, e)] else []) := by
  unfold wire gput
  by_cases hwv : w = v
  · subst hwv
    by_cases hwu : w = u
    · subst hwu
      rw [getD_set_self _ _ _ _ (by simpa using hu),
          getD_set_self _ _ _ _ hu]
      simp
    · rw [getD_set_self _ _ _ _ (by simpa using hv),
          getD_set_ne _ _ _ _ _ (fun h => hwu h.symm)]
      simp [hwu]
  · rw [getD_set_ne _ _ _ _ _ (fun h => hwv h.symm)]
    by_cases hwu : w = u
    · subst hwu
      rw [getD_set_self _ _ _ _ hu]
      simp [hwv]
    · rw [getD_set_ne _ _ _ _ _ (fun h => hwu h.symm)]
      simp [hwu, hwv]

lemma count_pair_if (w u v e : Nat) (b f : Nat) :
    ((if w = u then ([(v, e)] : List (Nat × Nat)) else []).count (b, f)) =
      if w = u ∧ b = v ∧ f = e then 1 else 0 := by
  by_cases h : w = u
  · rw [if_pos h]
    simp only [h, true_and, List.count_cons, List.count_nil, beq_iff_eq, Nat.zero_add]
    by_cases hbf : (v, e) = (b, f)
    · rw [if_pos hbf]
      injection hbf with h2 h3
      rw [if_pos ⟨h2.symm, h3.symm⟩]
    · rw [if_neg hbf, if_neg]
      rintro ⟨h2, h3⟩
      exact hbf (by rw [h2, h3])
  · rw [if_neg h, List.count_nil, if_neg]
    rintro ⟨h2, _⟩
    exact h h2

lemma sym_wire {g : List (List (Nat × Nat))} (u v e : Nat)
    (hu : u < g.length) (hv : v < g.length) (hsym : Sym g) :
    Sym (wire g u v e) := by
  intro a b f
  rw [wire_getD g u v e hu hv a, wire_getD g u v e hu hv b]
  simp only [List.count_append, count_pair_if]
  have hs := hsym a b f
  have h1 : ((a = u ∧ b = v ∧ f = e) ↔ (b = v ∧ a = u ∧ f = e)) := by tauto
  have h2 : ((a = v ∧ b = u ∧ f = e) ↔ (b = u ∧ a = v ∧ f = e)) := by tauto
  rw [if_congr h1 rfl rfl, if_congr h2 rfl rfl, hs]
  omega

lemma count_oob_pair {g : List (List (Nat × Nat))}
    (hub : ∀ l ∈ g, ∀ p ∈ l, p.1 < g.length) (a b f : Nat) (hb : g.length ≤ b) :
    ((g.getD a []).count (b, f)) = 0 := by
  by_cases ha : a < g.length
  · rw [List.count_eq_zero]
    intro hmem
    have := hub _ (getD_mem g [] a ha) _ hmem
    simp only at this
    omega
  · rw [getD_oob _ _ _ (le_of_not_lt ha)]
    rfl

lemma sym_extend {g : List (List (Nat × Nat))} (hsym : Sym g)
    (hub : ∀ l ∈ g, ∀ p ∈ l, p.1 < g.length) :
    Sym (g ++ [[]]) := by
  have key : ∀ w, (g ++ [[]]).getD w [] = if w < g.length then g.getD w [] else [] := by
    intro w
    by_cases hw : w < g.length
    · rw [getD_append_lt _ _ _ _ hw, if_pos hw]
    · rcases Nat.lt_trichotomy w g.length with h | h | h
      · omega
      · subst h
        rw [getD_append_len, if_neg hw]
      · rw [getD_append_gt _ _ _ _ h, if_neg hw]
  intro a b f
  rw [key a, key b]
  by_cases ha : a < g.length
  · by_cases hb : b < g.length
    · rw [if_pos ha, if_pos hb]
      exact hsym a b f
    · rw [if_pos ha, if_neg hb, List.count_nil]
      exact count_oob_pair hub a b f (le_of_not_lt hb)
  · by_cases hb : b < g.length
    · rw [if_neg ha, if_pos hb, List.count_nil]
      exact (count_oob_pair hub b a f (le_of_not_lt ha)).symm
    · rw [if_neg ha, if_neg hb]
      rfl

/-! ## Association-list lemmas -/

section ALookup

variable {α β : Type} [DecidableEq α]

lemma alookup_mem : ∀ {m : List (α × β)} {k : α} {v : β},
    alookup m k = some v → (k, v) ∈ m := by
  intro m
  induction m with
  | nil => intro k v h; simp [alookup] at h
  | cons p rest ih =>
    obtain ⟨a, b⟩ := p
    intro k v h
    unfold alookup at h
    by_cases hk : a = k
    · rw [if_pos hk] at h
      injection h with h
      subst hk
      subst h
      exact List.mem_cons_self _ _
    · rw [if_neg hk] at h
      exact List.mem_cons_of_mem _ (ih h)

lemma alookup_append_some {m' : List (α × β)} : ∀ {m : List (α × β)} {k : α} {v : β},
    alookup m k = some v → alookup (m ++ m') k = some v := by
  intro m
  induction m with
  | nil => intro k v h; simp [alookup] at h
  | cons p rest ih =>
    obtain ⟨a, b⟩ := p
    intro k v h
    simp only [alookup, List.cons_append] at h ⊢
    by_cases hk : a = k
    · rwa [if_pos hk] at h ⊢
    · rw [if_neg hk] at h ⊢
      exact ih h

lemma alookup_append_none {m' : List (α × β)} : ∀ {m : List (α × β)} {k : α},
    alookup m k = none → alookup (m ++ m') k = alookup m' k := by
  intro m
  induction m with
  | nil => intro k _; rfl
  | cons p rest ih =>
    obtain ⟨a, b⟩ := p
    intro k h
    simp only [alookup, List.cons_append] at h ⊢
    by_cases hk : a = k
    · rw [if_pos hk] at h
      exact absurd h (by simp)
    · rw [if_neg hk] at h ⊢
      exact ih h

lemma alookup_none_of_forbidden : ∀ {m : List (α × β)} {k : α},
    (∀ p ∈ m, p.1 ≠ k) → alookup m k = none := by
  intro m
  induction m with
  | nil => intro k _; rfl
  | cons p rest ih =>
    obtain ⟨a, b⟩ := p
    intro k h
    unfold alookup
    rw [if_neg (h (a, b) (List.mem_cons_self _ _))]
    exact ih (fun q hq => h q (List.mem_cons_of_mem _ hq))

end ALookup

lemma avput_mem : ∀ {m : List (Nat × List Nat)} {e v : Nat} {q},
    q ∈ avput m e v → q ∈ m ∨ ∃ vs, (e, vs) ∈ m ∧ q = (e, vs ++ [v]) := by
  intro m
  induction m with
  | nil => intro e v q h; simp [avput] at h
  | cons p rest ih =>
    obtain ⟨a, b⟩ := p
    intro e v q h
    unfold avput at h
    by_cases hk : a = e
    · rw [if_pos hk] at h
      rcases List.mem_cons.mp h with h | h
      · right
        subst hk
        exact ⟨b, List.mem_cons_self _ _, h⟩
      · left
        exact List.mem_cons_of_mem _ h
    · rw [if_neg hk] at h
      rcases List.mem_cons.mp h with h | h
      · left
        rw [h]
        exact List.mem_cons_self _ _
      · rcases ih h with h | ⟨vs, hm, hq⟩
        · exact Or.inl (List.mem_cons_of_mem _ h)
        · exact Or.inr ⟨vs, List.mem_cons_of_mem _ hm, hq⟩

lemma alookup_avput_self : ∀ (m : List (Nat × List Nat)) (e v : Nat),
    alookup (avput m e v) e = (alookup m e).map (· ++ [v]) := by
  intro m
  induction m with
  | nil => intro e v; rfl
  | cons p rest ih =>
    obtain ⟨a, b⟩ := p
    intro e v
    by_cases hk : a = e
    · unfold avput
      rw [if_pos hk]
      unfold alookup
      simp only [hk, if_pos rfl]
      rfl
    · unfold avput
      rw [if_neg hk]
      unfold alookup
      simp only [hk, if_false]
      exact ih e v

lemma alookup_avput_ne : ∀ (m : List (Nat × List Nat)) (e v k : Nat), k ≠ e →
    alookup (avput m e v) k = alookup m k := by
  intro m
  induction m with
  | nil => intro e v k _; rfl
  | cons p rest ih =>
    obtain ⟨a, b⟩ := p
    intro e v k hne
    by_cases hk : a = e
    · unfold avput
      rw [if_pos hk]
      unfold alookup
      have hak : ¬ (a = k) := by rw [hk]; exact fun h => hne h.symm
      simp only [hak, if_false]
    · unfold avput
      rw [if_neg hk]
      unfold alookup
      by_cases hpk : a = k
      · simp [hpk]
      · simp only [hpk, if_false]
        exact ih e v k hne

/-! ## The construction invariant -/

/-- The core well-formedness bundle maintained throughout `read_graph`. -/
structure GB (s : GState) : Prop where
  graph_len : s.graph.length = s.nodes
  name_len : s.name.length = s.nodes
  idx_lb : ∀ p ∈ s.idx, 2 ≤ p.2
  idx_ub : ∀ p ∈ s.idx, p.2 < s.nodes
  enodes_ub : ∀ l ∈ s.edgenodes, ∀ p ∈ l, p.1 < s.nodes ∧ p.2 < s.nodes
  adj_ub : ∀ l ∈ s.graph, ∀ p ∈ l, p.1 < s.nodes ∧ p.2 ≤ s.edges
  sym : Sym s.graph
  evtx_ub : ∀ q ∈ s.edgevtx, ∀ v ∈ q.2, v < s.nodes
  two_le : 2 ≤ s.nodes
  head_name : s.name.getD HEAD [] = []
  tail_name : s.name.getD TAIL [] = []

/-- The additional invariants of the rows phase (before the dummy edge is
appended): the edge tables have exactly `edges` entries, and every adjacency
entry names a real edge. -/
structure RPhase (s : GState) : Prop where
  gb : GB s
  ename_len : s.edgename.length = s.edges
  bad_len : s.badedge.length = s.edges
  enodes_len : s.edgenodes.length = s.edges
  eidx_ub : ∀ p ∈ s.edgeidx, p.2 < s.edges
  adj_lt : ∀ l ∈ s.graph, ∀ p ∈ l, p.2 < s.edges
  evtx_nil : s.edgevtx = []

/-- The additional invariants of the designation phase (after the dummy edge):
the edge tables have `edges + 1` entries, the dummy edge has an empty name, is
never in `edgeidx` and is never deleted, and every `edgevtx` key denotes a
deleted real edge. -/
structure DPhase (s : GState) : Prop where
  gb : GB s
  ename_len : s.edgename.length = s.edges + 1
  bad_len : s.badedge.length = s.edges + 1
  enodes_len : s.edgenodes.length = s.edges
  eidx_ub : ∀ p ∈ s.edgeidx, p.2 < s.edges
  dummy_bad : s.badedge.getD s.edges false = false
  dummy_name : s.edgename.getD s.edges [] = []
  evtx_bad : ∀ q ∈ s.edgevtx, s.badedge.getD q.1 false = true
  evtx_key : ∀ q ∈ s.edgevtx, q.1 < s.edges

lemma forall_getD {g : List (List (Nat × Nat))} {Q : Nat × Nat → Prop}
    (hg : ∀ l ∈ g, ∀ p ∈ l, Q p) (u : Nat) : ∀ p ∈ g.getD u [], Q p := by
  by_cases hu : u < g.length
  · exact hg _ (getD_mem g [] u hu)
  · rw [getD_oob _ _ _ (le_of_not_lt hu)]
    intro p hp
    simp at hp

lemma wire_forall {g : List (List (Nat × Nat))} {u v e : Nat} {Q : Nat × Nat → Prop}
    (hg : ∀ l ∈ g, ∀ p ∈ l, Q p) (h1 : Q (v, e)) (h2 : Q (u, e)) :
    ∀ l ∈ wire g u v e, ∀ p ∈ l, Q p := by
  have hg1 : ∀ l ∈ gput g u (v, e), ∀ p ∈ l, Q p := by
    intro l hl p hp
    rcases List.mem_or_eq_of_mem_set hl with hl | rfl
    · exact hg l hl p hp
    · rcases List.mem_append.mp hp with hp | hp
      · exact forall_getD hg u p hp
      · rw [List.mem_singleton.mp hp]
        exact h1
  intro l hl p hp
  rcases List.mem_or_eq_of_mem_set hl with hl | rfl
  · exact hg1 l hl p hp
  · rcases List.mem_append.mp hp with hp | hp
    · exact forall_getD hg1 v p hp
    · rw [List.mem_singleton.mp hp]
      exact h2

lemma wire_length (g : List (List (Nat × Nat))) (u v e : Nat) :
    (wire g u v e).length = g.length := by
  simp [wire, gput]

lemma extend_forall {g : List (List (Nat × Nat))} {Q : Nat × Nat → Prop}
    (hg : ∀ l ∈ g, ∀ p ∈ l, Q p) :
    ∀ l ∈ g ++ [[]], ∀ p ∈ l, Q p := by
  intro l hl p hp
  rcases List.mem_append.mp hl with hl | hl
  · exact hg l hl p hp
  · rw [List.mem_singleton.mp hl] at hp
    simp at hp

lemma rphase_init : RPhase initState := by
  refine ⟨⟨?_, ?_, ?_, ?_, ?_, ?_, ?_, ?_, ?_, ?_, ?_⟩, ?_, ?_, ?_, ?_, ?_, ?_⟩ <;>
    simp [initState, Sym, alookup, HEAD, TAIL]
  intro a b e
  rcases a with _ | _ | a <;> rcases b with _ | _ | b <;> rfl

lemma HEAD_lt {n : Nat} (h : 2 ≤ n) : HEAD < n := by
  unfold HEAD
  omega

lemma TAIL_lt {n : Nat} (h : 2 ≤ n) : TAIL < n := by
  unfold TAIL
  omega

/-- Behaviour of `resolveVertex`: the rows-phase invariant is preserved, the
returned index is a real vertex below the (possibly grown) node count, and no
edge table is touched. -/
lemma resolveVertex_spec (s : GState) (id : Ident) (h : RPhase s) :
    RPhase (resolveVertex s id).1 ∧
    s.nodes ≤ (resolveVertex s id).1.nodes ∧
    2 ≤ (resolveVertex s id).2 ∧
    (resolveVertex s id).2 < (resolveVertex s id).1.nodes ∧
    (resolveVertex s id).1.edges = s.edges ∧
    (resolveVertex s id).1.edgename = s.edgename ∧
    (resolveVertex s id).1.badedge = s.badedge ∧
    (resolveVertex s id).1.edgenodes = s.edgenodes ∧
    (resolveVertex s id).1.edgeidx = s.edgeidx ∧
    (resolveVertex s id).1.edgevtx = s.edgevtx := by
  unfold resolveVertex
  cases hl : alookup s.idx id with
  | some k =>
    have hk := alookup_mem hl
    exact ⟨h, le_refl _, h.gb.idx_lb _ hk, h.gb.idx_ub _ hk,
      rfl, rfl, rfl, rfl, rfl, rfl⟩
  | none =>
    refine ⟨⟨⟨?_, ?_, ?_, ?_, ?_, ?_, ?_, ?_, ?_, ?_, ?_⟩, ?_, ?_, ?_, ?_, ?_, ?_⟩,
      Nat.le_succ _, h.gb.two_le, Nat.lt_succ_self _, rfl, rfl, rfl, rfl, rfl, rfl⟩
    · simp [h.gb.graph_len]
    · simp [h.gb.name_len]
    · intro p hp
      rcases List.mem_append.mp hp with hp | hp
      · exact h.gb.idx_lb p hp
      · rw [List.mem_singleton.mp hp]
        exact h.gb.two_le
    · intro p hp
      rcases List.mem_append.mp hp with hp | hp
      · exact Nat.lt_succ_of_lt (h.gb.idx_ub p hp)
      · rw [List.mem_singleton.mp hp]
        exact Nat.lt_succ_self _
    · intro l hl p hp
      have := h.gb.enodes_ub l hl p hp
      exact ⟨Nat.lt_succ_of_lt this.1, Nat.lt_succ_of_lt this.2⟩
    · exact extend_forall (fun l hl p hp =>
        ⟨Nat.lt_succ_of_lt (h.gb.adj_ub l hl p hp).1, (h.gb.adj_ub l hl p hp).2⟩)
    · exact sym_extend h.gb.sym (fun l hl p hp => by
        rw [h.gb.graph_len]
        exact (h.gb.adj_ub l hl p hp).1)
    · intro q hq v hv
      exact Nat.lt_succ_of_lt (h.gb.evtx_ub q hq v hv)
    · exact Nat.le_succ_of_le h.gb.two_le
    · show (s.name ++ [id]).getD HEAD [] = []
      rw [getD_append_lt _ _ _ _ (by rw [h.gb.name_len]; exact HEAD_lt h.gb.two_le)]
      exact h.gb.head_name
    · show (s.name ++ [id]).getD TAIL [] = []
      rw [getD_append_lt _ _ _ _ (by rw [h.gb.name_len]; exact TAIL_lt h.gb.two_le)]
      exact h.gb.tail_name
    · exact h.ename_len
    · exact h.bad_len
    · exact h.enodes_len
    · exact h.eidx_ub
    · exact extend_forall h.adj_lt
    · exact h.evtx_nil

/-- Behaviour of `resolveEdge`: the rows-phase invariant is preserved, the
returned index is below the (possibly grown) edge count, and the vertex
tables, the graph and the node count are untouched. -/
lemma resolveEdge_spec (s : GState) (id : Ident) (h : RPhase s) :
    RPhase (resolveEdge s id).1 ∧
    s.edges ≤ (resolveEdge s id).1.edges ∧
    (resolveEdge s id).2 < (resolveEdge s id).1.edges ∧
    (resolveEdge s id).1.nodes = s.nodes ∧
    (resolveEdge s id).1.name = s.name ∧
    (resolveEdge s id).1.graph = s.graph ∧
    (resolveEdge s id).1.idx = s.idx ∧
    (resolveEdge s id).1.edgevtx = s.edgevtx := by
  unfold resolveEdge
  cases hl : alookup s.edgeidx id with
  | some k =>
    have hk := alookup_mem hl
    exact ⟨h, le_refl _, h.eidx_ub _ hk, rfl, rfl, rfl, rfl, rfl⟩
  | none =>
    refine ⟨⟨⟨?_, ?_, ?_, ?_, ?_, ?_, ?_, ?_, ?_, ?_, ?_⟩, ?_, ?_, ?_, ?_, ?_, ?_⟩,
      Nat.le_succ _, Nat.lt_succ_self _, rfl, rfl, rfl, rfl, rfl⟩
    · exact h.gb.graph_len
    · exact h.gb.name_len
    · exact h.gb.idx_lb
    · exact h.gb.idx_ub
    · intro l hl p hp
      rcases List.mem_append.mp hl with hl | hl
      · exact h.gb.enodes_ub l hl p hp
      · rw [List.mem_singleton.mp hl] at hp
        simp at hp
    · intro l hl p hp
      exact ⟨(h.gb.adj_ub l hl p hp).1, Nat.le_succ_of_le (h.gb.adj_ub l hl p hp).2⟩
    · exact h.gb.sym
    · exact h.gb.evtx_ub
    · exact h.gb.two_le
    · exact h.gb.head_name
    · exact h.gb.tail_name
    · simp [h.ename_len]
    · simp [h.bad_len]
    · simp [h.enodes_len]
    · intro p hp
      rcases List.mem_append.mp hp with hp | hp
      · exact Nat.lt_succ_of_lt (h.eidx_ub p hp)
      · rw [List.mem_singleton.mp hp]
        exact Nat.lt_succ_self _
    · intro l hl p hp
      exact Nat.lt_succ_of_lt (h.adj_lt l hl p hp)
    · exact h.evtx_nil

/-- `addRow` preserves the rows-phase invariant. -/
lemma addRow_rphase (s : GState) (via source target : Ident) (h : RPhase s) :
    RPhase (addRow s via source target) := by
  obtain ⟨ha, han, _, hav, hae, _, _, _, _, _⟩ := resolveVertex_spec s source h
  obtain ⟨hb, hbn, _, hbv, hbe, _, _, _, _, _⟩ :=
    resolveVertex_spec (resolveVertex s source).1 target ha
  obtain ⟨hc, hce, hcv, hcn, _, hcg, _, _⟩ :=
    resolveEdge_spec (resolveVertex (resolveVertex s source).1 target).1 via hb
  unfold addRow
  set a := resolveVertex s source with hadef
  set b := resolveVertex a.1 target with hbdef
  set c := resolveEdge b.1 via with hcdef
  -- the two resolved vertices are real vertices of c.1
  have hsv : a.2 < c.1.nodes := by
    rw [hcn]
    exact Nat.lt_of_lt_of_le hav hbn
  have htv : b.2 < c.1.nodes := by
    rw [hcn]
    exact hbv
  have hev : c.2 < c.1.edges := hcv
  -- the segment-recording step
  have hmid : RPhase { c.1 with edgenodes :=
      (c.1.edgenodes.set c.2 (c.1.edgenodes.getD c.2 [] ++ [(a.2, b.2)])) } := by
    refine ⟨⟨hc.gb.graph_len, hc.gb.name_len, hc.gb.idx_lb, hc.gb.idx_ub, ?_,
      hc.gb.adj_ub, hc.gb.sym, hc.gb.evtx_ub, hc.gb.two_le, hc.gb.head_name,
      hc.gb.tail_name⟩, hc.ename_len, hc.bad_len, ?_, hc.eidx_ub, hc.adj_lt,
      hc.evtx_nil⟩
    · intro l hl p hp
      rcases List.mem_or_eq_of_mem_set hl with hl | rfl
      · exact hc.gb.enodes_ub l hl p hp
      · rcases List.mem_append.mp hp with hp | hp
        · exact forall_getD hc.gb.enodes_ub c.2 p hp
        · rw [List.mem_singleton.mp hp]
          exact ⟨hsv, htv⟩
    · simp [hc.enodes_len]
  -- the wiring step
  set m := { c.1 with edgenodes :=
      (c.1.edgenodes.set c.2 (c.1.edgenodes.getD c.2 [] ++ [(a.2, b.2)])) } with hmdef
  refine ⟨⟨?_, hmid.gb.name_len, hmid.gb.idx_lb, hmid.gb.idx_ub, hmid.gb.enodes_ub,
    ?_, ?_, hmid.gb.evtx_ub, hmid.gb.two_le, hmid.gb.head_name, hmid.gb.tail_name⟩,
    hmid.ename_len, hmid.bad_len, hmid.enodes_len, hmid.eidx_ub, ?_, hmid.evtx_nil⟩
  · show (wire m.graph a.2 b.2 c.2).length = m.nodes
    rw [wire_length]
    exact hmid.gb.graph_len
  · exact wire_forall hmid.gb.adj_ub ⟨htv, le_of_lt hev⟩ ⟨hsv, le_of_lt hev⟩
  · exact sym_wire _ _ _ (by rw [hmid.gb.graph_len]; exact hsv)
      (by rw [hmid.gb.graph_len]; exact htv) hmid.gb.sym
  · exact wire_forall hmid.adj_lt hev hev

/-- The rows loop preserves the rows-phase invariant. -/
lemma foldRows_rphase (rows : List (Ident × Ident × Ident)) :
    ∀ s : GState, RPhase s →
    RPhase (rows.foldl (fun t r => addRow t r.1 r.2.1 r.2.2) s) := by
  induction rows with
  | nil => intro s h; exact h
  | cons r rest ih =>
    intro s h
    exact ih _ (addRow_rphase s r.1 r.2.1 r.2.2 h)

/-- Appending the dummy edge turns the rows-phase invariant into the
designation-phase invariant. -/
lemma pushDummy_dphase (s : GState) (h : RPhase s) : DPhase (pushDummy s) := by
  refine ⟨⟨h.gb.graph_len, h.gb.name_len, h.gb.idx_lb, h.gb.idx_ub, h.gb.enodes_ub,
    h.gb.adj_ub, h.gb.sym, h.gb.evtx_ub, h.gb.two_le, h.gb.head_name,
    h.gb.tail_name⟩, ?_, ?_, h.enodes_len, h.eidx_ub, ?_, ?_, ?_, ?_⟩
  · simp [pushDummy, h.ename_len]
  · simp [pushDummy, h.bad_len]
  · show (s.badedge ++ [false]).getD s.edges false = false
    rw [← h.bad_len, getD_append_len]
  · show (s.edgename ++ [[]]).getD s.edges [] = []
    rw [← h.ename_len, getD_append_len]
  · intro q hq
    have hq' : q ∈ s.edgevtx := hq
    rw [h.evtx_nil] at hq'
    simp at hq'
  · intro q hq
    have hq' : q ∈ s.edgevtx := hq
    rw [h.evtx_nil] at hq'
    simp at hq'

/-- Wiring the sentinel to a real vertex via the dummy edge preserves the
designation-phase invariant (and changes only `graph`). -/
lemma wire_dphase (s : GState) (u v : Nat) (h : DPhase s)
    (hu : u < s.nodes) (hv : v < s.nodes) :
    DPhase { s with graph := wire s.graph u v s.edges } := by
  refine ⟨⟨?_, h.gb.name_len, h.gb.idx_lb, h.gb.idx_ub, h.gb.enodes_ub, ?_, ?_,
    h.gb.evtx_ub, h.gb.two_le, h.gb.head_name, h.gb.tail_name⟩, h.ename_len,
    h.bad_len, h.enodes_len, h.eidx_ub, h.dummy_bad, h.dummy_name, h.evtx_bad,
    h.evtx_key⟩
  · show (wire s.graph u v s.edges).length = s.nodes
    rw [wire_length]
    exact h.gb.graph_len
  · exact wire_forall h.gb.adj_ub ⟨hv, le_refl _⟩ ⟨hu, le_refl _⟩
  · exact sym_wire _ _ _ (by rw [h.gb.graph_len]; exact hu)
      (by rw [h.gb.graph_len]; exact hv) h.gb.sym

/-- `explodeSeg` preserves the designation-phase invariant, increments the
node count, and leaves every table other than `name`, `graph`, `nodes` and
`edgevtx` unchanged. -/
lemma explodeSeg_dphase (sent e : Nat) (id : Ident) (t : GState) (p : Nat × Nat)
    (h : DPhase t) (hsent : sent < t.nodes) (hp1 : p.1 < t.nodes)
    (hp2 : p.2 < t.nodes) (he : e < t.edges)
    (hbe : t.badedge.getD e false = true) :
    DPhase (explodeSeg sent e id t p) ∧
    (explodeSeg sent e id t p).nodes = t.nodes + 1 ∧
    (explodeSeg sent e id t p).edges = t.edges ∧
    (explodeSeg sent e id t p).badedge = t.badedge ∧
    (explodeSeg sent e id t p).edgename = t.edgename ∧
    (explodeSeg sent e id t p).edgenodes = t.edgenodes ∧
    (explodeSeg sent e id t p).idx = t.idx ∧
    (explodeSeg sent e id t p).edgeidx = t.edgeidx ∧
    (explodeSeg sent e id t p).edgevtx = avput t.edgevtx e t.nodes := by
  -- the state after the allocation of the substitute vertex
  have h1 : DPhase
      { t with name := t.name ++ [id], graph := t.graph ++ [[]],
               nodes := t.nodes + 1, edgevtx := avput t.edgevtx e t.nodes } := by
    refine ⟨⟨?_, ?_, h.gb.idx_lb, ?_, ?_, ?_, ?_, ?_, ?_, ?_, ?_⟩, h.ename_len,
      h.bad_len, h.enodes_len, h.eidx_ub, h.dummy_bad, h.dummy_name, ?_, ?_⟩
    · simp [h.gb.graph_len]
    · simp [h.gb.name_len]
    · intro q hq
      exact Nat.lt_succ_of_lt (h.gb.idx_ub q hq)
    · intro l hl q hq
      exact ⟨Nat.lt_succ_of_lt (h.gb.enodes_ub l hl q hq).1,
        Nat.lt_succ_of_lt (h.gb.enodes_ub l hl q hq).2⟩
    · exact extend_forall (fun l hl q hq =>
        ⟨Nat.lt_succ_of_lt (h.gb.adj_ub l hl q hq).1, (h.gb.adj_ub l hl q hq).2⟩)
    · exact sym_extend h.gb.sym (fun l hl q hq => by
        rw [h.gb.graph_len]
        exact (h.gb.adj_ub l hl q hq).1)
    · intro q hq v hv
      rcases avput_mem hq with hq | ⟨vs, hm, rfl⟩
      · exact Nat.lt_succ_of_lt (h.gb.evtx_ub q hq v hv)
      · rcases List.mem_append.mp hv with hv | hv
        · exact Nat.lt_succ_of_lt (h.gb.evtx_ub _ hm v hv)
        · rw [List.mem_singleton.mp hv]
          exact Nat.lt_succ_self _
    · exact Nat.le_succ_of_le h.gb.two_le
    · show (t.name ++ [id]).getD HEAD [] = []
      rw [getD_append_lt _ _ _ _ (by rw [h.gb.name_len]; exact HEAD_lt h.gb.two_le)]
      exact h.gb.head_name
    · show (t.name ++ [id]).getD TAIL [] = []
      rw [getD_append_lt _ _ _ _ (by rw [h.gb.name_len]; exact TAIL_lt h.gb.two_le)]
      exact h.gb.tail_name
    · intro q hq
      rcases avput_mem hq with hq | ⟨vs, hm, rfl⟩
      · exact h.evtx_bad q hq
      · exact hbe
    · intro q hq
      rcases avput_mem hq with hq | ⟨vs, hm, rfl⟩
      · exact h.evtx_key q hq
      · exact he
  -- three wiring steps on top of the allocation
  have h2 := wire_dphase _ sent t.nodes h1 (Nat.lt_succ_of_lt hsent) (Nat.lt_succ_self _)
  have h3 := wire_dphase _ t.nodes p.1 h2 (Nat.lt_succ_self _) (Nat.lt_succ_of_lt hp1)
  have h4 := wire_dphase _ t.nodes p.2 h3 (Nat.lt_succ_self _) (Nat.lt_succ_of_lt hp2)
  exact ⟨h4, rfl, rfl, rfl, rfl, rfl, rfl, rfl, rfl⟩

/-- The explosion loop preserves the designation-phase invariant, with the
edge tables untouched. -/
lemma foldExplode_dphase (sent e : Nat) (id : Ident) :
    ∀ (segs : List (Nat × Nat)) (t : GState), DPhase t → sent < t.nodes →
    e < t.edges → t.badedge.getD e false = true →
    (∀ p ∈ segs, p.1 < t.nodes ∧ p.2 < t.nodes) →
    DPhase (segs.foldl (explodeSeg sent e id) t) ∧
    (segs.foldl (explodeSeg sent e id) t).edges = t.edges ∧
    (segs.foldl (explodeSeg sent e id) t).badedge = t.badedge ∧
    (segs.foldl (explodeSeg sent e id) t).edgename = t.edgename ∧
    (segs.foldl (explodeSeg sent e id) t).edgenodes = t.edgenodes ∧
    (segs.foldl (explodeSeg sent e id) t).idx = t.idx ∧
    (segs.foldl (explodeSeg sent e id) t).edgeidx = t.edgeidx := by
  intro segs
  induction segs with
  | nil =>
    intro t h _ _ _ _
    exact ⟨h, rfl, rfl, rfl, rfl, rfl, rfl⟩
  | cons p rest ih =>
    intro t h hsent he hbe hb
    obtain ⟨h', hn, hedg, hbad, hen, henn, hidx, heidx, _⟩ :=
      explodeSeg_dphase sent e id t p h hsent (hb p (List.mem_cons_self _ _)).1
        (hb p (List.mem_cons_self _ _)).2 he hbe
    obtain ⟨hf, hf1, hf2, hf3, hf4, hf5, hf6⟩ := ih (explodeSeg sent e id t p) h'
      (by rw [hn]; exact Nat.lt_succ_of_lt hsent)
      (by rw [hedg]; exact he)
      (by rw [hbad]; exact hbe)
      (fun q hq => by
        rw [hn]
        exact ⟨Nat.lt_succ_of_lt (hb q (List.mem_cons_of_mem p hq)).1,
          Nat.lt_succ_of_lt (hb q (List.mem_cons_of_mem p hq)).2⟩)
    refine ⟨hf, ?_, ?_, ?_, ?_, ?_, ?_⟩ <;> simp only [List.foldl_cons] at *
    · rw [hf1, hedg]
    · rw [hf2, hbad]
    · rw [hf3, hen]
    · rw [hf4, henn]
    · rw [hf5, hidx]
    · rw [hf6, heidx]

/-- The sentinel-wiring loop over the substitute vertices preserves the
designation-phase invariant and changes only `graph`. -/
lemma foldWire_dphase (sent : Nat) :
    ∀ (vs : List Nat) (t : GState), DPhase t → sent < t.nodes →
    (∀ v ∈ vs, v < t.nodes) →
    DPhase (vs.foldl (fun t v => { t with graph := wire t.graph sent v t.edges }) t) ∧
    (vs.foldl (fun t v => { t with graph := wire t.graph sent v t.edges }) t).nodes =
      t.nodes ∧
    (vs.foldl (fun t v => { t with graph := wire t.graph sent v t.edges }) t).name =
      t.name ∧
    (vs.foldl (fun t v => { t with graph := wire t.graph sent v t.edges }) t).badedge =
      t.badedge ∧
    (vs.foldl (fun t v => { t with graph := wire t.graph sent v t.edges }) t).edgevtx =
      t.edgevtx ∧
    (vs.foldl (fun t v => { t with graph := wire t.graph sent v t.edges }) t).edgenodes =
      t.edgenodes ∧
    (vs.foldl (fun t v => { t with graph := wire t.graph sent v t.edges }) t).edges =
      t.edges := by
  intro vs
  induction vs with
  | nil =>
    intro t h _ _
    exact ⟨h, rfl, rfl, rfl, rfl, rfl, rfl⟩
  | cons v rest ih =>
    intro t h hsent hb
    obtain ⟨hf, hf1, hf2, hf3, hf4, hf5, hf6⟩ :=
      ih { t with graph := wire t.graph sent v t.edges }
        (wire_dphase t sent v h hsent (hb v (List.mem_cons_self _ _)))
        hsent (fun w hw => hb w (List.mem_cons_of_mem v hw))
    exact ⟨hf, hf1, hf2, hf3, hf4, hf5, hf6⟩

/-- `designateVertexPart` preserves the designation-phase invariant and
changes only `graph`. -/
lemma designateVertexPart_dphase (sent : Nat) (s : GState) (id : Ident)
    (h : DPhase s) (hsent : sent < 2) :
    DPhase (designateVertexPart sent s id) ∧
    (designateVertexPart sent s id).nodes = s.nodes ∧
    (designateVertexPart sent s id).edges = s.edges ∧
    (designateVertexPart sent s id).name = s.name ∧
    (designateVertexPart sent s id).badedge = s.badedge ∧
    (designateVertexPart sent s id).edgename = s.edgename ∧
    (designateVertexPart sent s id).edgenodes = s.edgenodes ∧
    (designateVertexPart sent s id).idx = s.idx ∧
    (designateVertexPart sent s id).edgeidx = s.edgeidx ∧
    (designateVertexPart sent s id).edgevtx = s.edgevtx := by
  have hsn : sent < s.nodes := Nat.lt_of_lt_of_le hsent h.gb.two_le
  unfold designateVertexPart
  cases hl : alookup s.idx id with
  | some v =>
    exact ⟨wire_dphase s sent v h hsn (h.gb.idx_ub _ (alookup_mem hl)),
      rfl, rfl, rfl, rfl, rfl, rfl, rfl, rfl, rfl⟩
  | none => exact ⟨h, rfl, rfl, rfl, rfl, rfl, rfl, rfl, rfl, rfl⟩

/-- `designateEdgePart` preserves the designation-phase invariant. -/
lemma designateEdgePart_dphase (sent : Nat) (s : GState) (id : Ident)
    (h : DPhase s) (hsent : sent < 2) :
    DPhase (designateEdgePart sent s id) := by
  have hsn : sent < s.nodes := Nat.lt_of_lt_of_le hsent h.gb.two_le
  unfold designateEdgePart
  split
  · exact h
  · rename_i e hl
    have he : e < s.edges := h.eidx_ub _ (alookup_mem hl)
    by_cases hbad : s.badedge.getD e false = true
    · rw [if_pos hbad]
      refine (foldWire_dphase sent _ s h hsn ?_).1
      intro v hv
      cases hod : alookup s.edgevtx e with
      | none => rw [hod] at hv; simp at hv
      | some vs =>
        rw [hod] at hv
        exact h.gb.evtx_ub _ (alookup_mem hod) v (by simpa using hv)
    · rw [if_neg hbad]
      have hbad' : s.badedge.getD e false = false := by
        cases hx : s.badedge.getD e false
        · rfl
        · exact absurd hx hbad
      show DPhase ((({ s with badedge := s.badedge.set e true,
                              edgevtx := avemplace s.edgevtx e } :
        GState).edgenodes.getD e []).foldl (explodeSeg sent e id) _)
      have hmem2 : ∀ q, q ∈ avemplace s.edgevtx e → q ∈ s.edgevtx ∨ q = (e, []) := by
        intro q hq
        unfold avemplace at hq
        cases hod : alookup s.edgevtx e with
        | some vs =>
          rw [hod] at hq
          exact Or.inl hq
        | none =>
          rw [hod] at hq
          rcases List.mem_append.mp hq with hq | hq
          · exact Or.inl hq
          · exact Or.inr (List.mem_singleton.mp hq)
      have h2 : DPhase
          { s with badedge := s.badedge.set e true,
                   edgevtx := avemplace s.edgevtx e } := by
        refine ⟨⟨h.gb.graph_len, h.gb.name_len, h.gb.idx_lb, h.gb.idx_ub,
          h.gb.enodes_ub, h.gb.adj_ub, h.gb.sym, ?_, h.gb.two_le,
          h.gb.head_name, h.gb.tail_name⟩, h.ename_len, ?_, h.enodes_len,
          h.eidx_ub, ?_, h.dummy_name, ?_, ?_⟩
        · intro q hq v hv
          rcases hmem2 q hq with hq | rfl
          · exact h.gb.evtx_ub q hq v hv
          · simp at hv
        · simp [h.bad_len]
        · show (s.badedge.set e true).getD s.edges false = false
          rw [getD_set_ne _ _ _ _ _ (Nat.ne_of_lt he)]
          exact h.dummy_bad
        · intro q hq
          show (s.badedge.set e true).getD q.1 false = true
          rcases hmem2 q hq with hq' | rfl
          · by_cases hqe : q.1 = e
            · rw [hqe]
              rw [getD_set_self _ _ _ _ (by rw [h.bad_len]; omega)]
            · rw [getD_set_ne _ _ _ _ _ (fun hc => hqe hc.symm)]
              exact h.evtx_bad q hq'
          · show (s.badedge.set e true).getD e false = true
            rw [getD_set_self _ _ _ _ (by rw [h.bad_len]; omega)]
        · intro q hq
          rcases hmem2 q hq with hq' | rfl
          · exact h.evtx_key q hq'
          · exact he
      have hbe2 : ({ s with badedge := s.badedge.set e true,
                            edgevtx := avemplace s.edgevtx e } :
          GState).badedge.getD e false = true := by
        show (s.badedge.set e true).getD e false = true
        rw [getD_set_self _ _ _ _ (by rw [h.bad_len]; omega)]
      exact (foldExplode_dphase sent e id _ _ h2 hsn he hbe2
        (fun p hp => forall_getD h2.gb.enodes_ub e p hp)).1

/-- `designate` preserves the designation-phase invariant. -/
lemma designate_dphase (sent : Nat) (s : GState) (id : Ident) (h : DPhase s)
    (hsent : sent < 2) : DPhase (designate sent s id) :=
  designateEdgePart_dphase sent _ id
    (designateVertexPart_dphase sent s id h hsent).1 hsent

/-- The full record-level `read_graph` establishes the designation-phase
invariant.  This is the master well-formedness fact behind several claims. -/
lemma readGraph_dphase (rows : List (Ident × Ident × Ident))
    (ctrls starts : List Ident) : DPhase (readGraphRecords rows ctrls starts) := by
  have h1 := foldRows_rphase rows initState rphase_init
  have h2 := pushDummy_dphase _ h1
  have h3 : ∀ (l : List Ident) (s : GState), DPhase s →
      DPhase (l.foldl (designate TAIL) s) := by
    intro l
    induction l with
    | nil => intro s h; exact h
    | cons x rest ih =>
      intro s h
      exact ih _ (designate_dphase TAIL s x h (by unfold TAIL; omega))
  have h4 : ∀ (l : List Ident) (s : GState), DPhase s →
      DPhase (l.foldl (designate HEAD) s) := by
    intro l
    induction l with
    | nil => intro s h; exact h
    | cons x rest ih =>
      intro s h
      exact ih _ (designate_dphase HEAD s x h (by unfold HEAD; omega))
  exact h4 starts _ (h3 ctrls _ h2)

/-- **C5.** After `read_graph` returns, the adjacency structure is symmetric
as a multiset: for all vertex indices `u`, `v` and edge index `e`, the pair
`(v, e)` occurs in `graph[u]` exactly as many times as `(u, e)` occurs in
`graph[v]` — for row edges, reduction-1 substitute wiring and sentinel wiring
alike. -/
theorem adjacency_undirected (rows : List (Ident × Ident × Ident))
    (ctrls starts : List Ident) (u v e : Nat) :
    (((readGraphRecords rows ctrls starts).graph.getD u []).count (v, e)) =
    (((readGraphRecords rows ctrls starts).graph.getD v []).count (u, e)) :=
  (readGraph_dphase rows ctrls starts).gb.sym u v e

/-- **C9.** After `read_graph` returns, all tables are consistently sized and
all stored indices are in range: `name` and `graph` have `nodes` entries,
`edgename` and `badedge` have `edges + 1` entries with the last `edgename`
entry the dummy edge's empty name, and every adjacency entry `(u, e)`
satisfies `u < nodes` and `e ≤ edges`. -/
theorem tables_sized_and_in_range (rows : List (Ident × Ident × Ident))
    (ctrls starts : List Ident) :
    (readGraphRecords rows ctrls starts).name.length =
      (readGraphRecords rows ctrls starts).nodes ∧
    (readGraphRecords rows ctrls starts).graph.length =
      (readGraphRecords rows ctrls starts).nodes ∧
    (readGraphRecords rows ctrls starts).edgename.length =
      (readGraphRecords rows ctrls starts).edges + 1 ∧
    (readGraphRecords rows ctrls starts).badedge.length =
      (readGraphRecords rows ctrls starts).edges + 1 ∧
    (readGraphRecords rows ctrls starts).edgename.getD
      (readGraphRecords rows ctrls starts).edges [] = [] ∧
    ∀ l ∈ (readGraphRecords rows ctrls starts).graph,
      ∀ p ∈ l, p.1 < (readGraphRecords rows ctrls starts).nodes ∧
        p.2 ≤ (readGraphRecords rows ctrls starts).edges := by
  have h := readGraph_dphase rows ctrls starts
  exact ⟨h.gb.name_len, h.gb.graph_len, h.ename_len, h.bad_len, h.dummy_name,
    h.gb.adj_ub⟩

/-! ## Reduction-1 idempotence (claim C4) -/

/-- The sentinel-wiring fold changes only `graph`. -/
lemma foldWire_fields (sent : Nat) : ∀ (vs : List Nat) (t : GState),
    (vs.foldl (fun t v => { t with graph := wire t.graph sent v t.edges }) t).nodes =
      t.nodes ∧
    (vs.foldl (fun t v => { t with graph := wire t.graph sent v t.edges }) t).name =
      t.name ∧
    (vs.foldl (fun t v => { t with graph := wire t.graph sent v t.edges }) t).badedge =
      t.badedge ∧
    (vs.foldl (fun t v => { t with graph := wire t.graph sent v t.edges }) t).edgevtx =
      t.edgevtx ∧
    (vs.foldl (fun t v => { t with graph := wire t.graph sent v t.edges }) t).edgenodes =
      t.edgenodes ∧
    (vs.foldl (fun t v => { t with graph := wire t.graph sent v t.edges }) t).edges =
      t.edges ∧
    (vs.foldl (fun t v => { t with graph := wire t.graph sent v t.edges }) t).idx =
      t.idx ∧
    (vs.foldl (fun t v => { t with graph := wire t.graph sent v t.edges }) t).edgeidx =
      t.edgeidx ∧
    (vs.foldl (fun t v => { t with graph := wire t.graph sent v t.edges }) t).edgename =
      t.edgename := by
  intro vs
  induction vs with
  | nil => intro t; exact ⟨rfl, rfl, rfl, rfl, rfl, rfl, rfl, rfl, rfl⟩
  | cons v rest ih =>
    intro t
    exact ih { t with graph := wire t.graph sent v t.edges }

/-- Content of the explosion loop: starting from a state whose `edgevtx`
entry for `e` holds `vs`, folding over `segs` appends exactly the fresh
vertex indices `t.nodes, …, t.nodes + segs.length - 1` to that entry, grows
`nodes` by `segs.length`, appends one copy of the name per segment, and keeps
the edge tables unchanged. -/
lemma foldExplode_content (sent e : Nat) (id : Ident) :
    ∀ (segs : List (Nat × Nat)) (t : GState) (vs : List Nat),
    alookup t.edgevtx e = some vs →
    (segs.foldl (explodeSeg sent e id) t).nodes = t.nodes + segs.length ∧
    (segs.foldl (explodeSeg sent e id) t).name =
      t.name ++ List.replicate segs.length id ∧
    (segs.foldl (explodeSeg sent e id) t).badedge = t.badedge ∧
    (segs.foldl (explodeSeg sent e id) t).edgenodes = t.edgenodes ∧
    (segs.foldl (explodeSeg sent e id) t).edgeidx = t.edgeidx ∧
    (segs.foldl (explodeSeg sent e id) t).idx = t.idx ∧
    (segs.foldl (explodeSeg sent e id) t).edges = t.edges ∧
    alookup (segs.foldl (explodeSeg sent e id) t).edgevtx e =
      some (vs ++ List.range' t.nodes segs.length) := by
  intro segs
  induction segs with
  | nil =>
    intro t vs hvs
    refine ⟨by simp, by simp, rfl, rfl, rfl, rfl, rfl, ?_⟩
    simpa using hvs
  | cons p rest ih =>
    intro t vs hvs
    have hstep : (explodeSeg sent e id t p).edgevtx = avput t.edgevtx e t.nodes := rfl
    have hvs' : alookup (explodeSeg sent e id t p).edgevtx e = some (vs ++ [t.nodes]) := by
      rw [hstep, alookup_avput_self, hvs]
      rfl
    obtain ⟨h1, h2, h3, h4, h5, h6, h7, h8⟩ := ih (explodeSeg sent e id t p) _ hvs'
    simp only [List.foldl_cons]
    refine ⟨?_, ?_, ?_, ?_, ?_, ?_, ?_, ?_⟩
    · rw [h1]
      show t.nodes + 1 + rest.length = t.nodes + (rest.length + 1)
      omega
    · rw [h2]
      show (t.name ++ [id]) ++ List.replicate rest.length id = _
      rw [List.append_assoc]
      rfl
    · rw [h3]
      rfl
    · rw [h4]
      rfl
    · rw [h5]
      rfl
    · rw [h6]
      rfl
    · rw [h7]
      rfl
    · rw [h8]
      show some ((vs ++ [t.nodes]) ++ List.range' (t.nodes + 1) rest.length) = _
      rw [List.append_assoc]
      rfl

/-- `designateVertexPart` changes only `graph`, whatever the state. -/
lemma designateVertexPart_fields (sent : Nat) (s : GState) (id : Ident) :
    (designateVertexPart sent s id).nodes = s.nodes ∧
    (designateVertexPart sent s id).name = s.name ∧
    (designateVertexPart sent s id).badedge = s.badedge ∧
    (designateVertexPart sent s id).edgename = s.edgename ∧
    (designateVertexPart sent s id).edgenodes = s.edgenodes ∧
    (designateVertexPart sent s id).idx = s.idx ∧
    (designateVertexPart sent s id).edgeidx = s.edgeidx ∧
    (designateVertexPart sent s id).edgevtx = s.edgevtx ∧
    (designateVertexPart sent s id).edges = s.edges := by
  unfold designateVertexPart
  cases alookup s.idx id <;> exact ⟨rfl, rfl, rfl, rfl, rfl, rfl, rfl, rfl, rfl⟩

/-- Designating an already-deleted edge touches only `graph`: no new
vertices, no table changes. -/
lemma designateEdgePart_reuse (sent : Nat) (s : GState) (id : Ident) (e : Nat)
    (hl : alookup s.edgeidx id = some e) (hbad : s.badedge.getD e false = true) :
    (designateEdgePart sent s id).nodes = s.nodes ∧
    (designateEdgePart sent s id).name = s.name ∧
    (designateEdgePart sent s id).badedge = s.badedge ∧
    (designateEdgePart sent s id).edgevtx = s.edgevtx ∧
    (designateEdgePart sent s id).edgenodes = s.edgenodes ∧
    (designateEdgePart sent s id).edges = s.edges := by
  unfold designateEdgePart
  split
  · rename_i heq
    rw [hl] at heq
    exact absurd heq (by simp)
  · rename_i e' hl'
    rw [hl] at hl'
    injection hl' with he'
    subst he'
    rw [if_pos hbad]
    obtain ⟨f1, f2, f3, f4, f5, f6, _, _, _⟩ :=
      foldWire_fields sent ((alookup s.edgevtx e).getD []) s
    exact ⟨f1, f2, f3, f4, f5, f6⟩

lemma alookup_avemplace_of_some {m : List (Nat × List Nat)} {k k' : Nat}
    {v : List Nat} (h : alookup m k = some v) :
    alookup (avemplace m k') k = some v := by
  unfold avemplace
  cases hx : alookup m k' with
  | some _ => exact h
  | none => exact alookup_append_some h

/-- Designating a not-yet-deleted edge explodes it: the deleted flag is set,
one substitute vertex (named after the identifier) is created per recorded
segment, and `edgevtx[e]` records exactly the fresh indices. -/
lemma designateEdgePart_explode (sent : Nat) (s : GState) (id : Ident) (e : Nat)
    (h : DPhase s) (hl : alookup s.edgeidx id = some e)
    (hbad : s.badedge.getD e false = false) :
    (designateEdgePart sent s id).badedge.getD e false = true ∧
    (designateEdgePart sent s id).nodes =
      s.nodes + (s.edgenodes.getD e []).length ∧
    (designateEdgePart sent s id).name =
      s.name ++ List.replicate (s.edgenodes.getD e []).length id ∧
    alookup (designateEdgePart sent s id).edgevtx e =
      some (List.range' s.nodes (s.edgenodes.getD e []).length) ∧
    (designateEdgePart sent s id).edges = s.edges ∧
    (designateEdgePart sent s id).edgenodes = s.edgenodes ∧
    (designateEdgePart sent s id).edgeidx = s.edgeidx := by
  have he : e < s.edges := h.eidx_ub _ (alookup_mem hl)
  unfold designateEdgePart
  split
  · rename_i heq
    rw [hl] at heq
    exact absurd heq (by simp)
  · rename_i e' hl'
    rw [hl] at hl'
    injection hl' with he'
    subst he'
    rw [if_neg (by rw [hbad]; simp)]
    have hkey : alookup s.edgevtx e = none := by
      cases hx : alookup s.edgevtx e with
      | none => rfl
      | some vs =>
        have hb := h.evtx_bad _ (alookup_mem hx)
        simp only at hb
        rw [hbad] at hb
        exact absurd hb (by simp)
    have hvs2 : alookup (avemplace s.edgevtx e) e = some [] := by
      unfold avemplace
      rw [hkey, alookup_append_none hkey]
      simp [alookup]
    obtain ⟨c1, c2, c3, c4, c5, c6, c7, c8⟩ := foldExplode_content sent e id
      ((({ s with badedge := s.badedge.set e true,
                  edgevtx := avemplace s.edgevtx e } : GState)).edgenodes.getD e [])
      { s with badedge := s.badedge.set e true, edgevtx := avemplace s.edgevtx e }
      [] hvs2
    refine ⟨?_, ?_, ?_, ?_, ?_, ?_, ?_⟩
    · rw [c3]
      show (s.badedge.set e true).getD e false = true
      rw [getD_set_self _ _ _ _ (by rw [h.bad_len]; omega)]
    · exact c1
    · exact c2
    · rw [c8]
      simp
    · exact c7
    · exact c4
    · exact c5

/-- The explosion loop leaves `edgevtx` entries for other keys and `badedge`
unchanged. -/
lemma foldExplode_other (sent e : Nat) (id : Ident) :
    ∀ (segs : List (Nat × Nat)) (t : GState) (k : Nat), k ≠ e →
    alookup (segs.foldl (explodeSeg sent e id) t).edgevtx k = alookup t.edgevtx k := by
  intro segs
  induction segs with
  | nil => intro t k _; rfl
  | cons p rest ih =>
    intro t k hk
    simp only [List.foldl_cons]
    rw [ih _ k hk]
    show alookup (avput t.edgevtx e t.nodes) k = _
    exact alookup_avput_ne _ _ _ _ hk

/-- The explosion loop never touches the two lookup tables. -/
lemma foldExplode_fields (sent e : Nat) (id : Ident) :
    ∀ (segs : List (Nat × Nat)) (t : GState),
    (segs.foldl (explodeSeg sent e id) t).idx = t.idx ∧
    (segs.foldl (explodeSeg sent e id) t).edgeidx = t.edgeidx := by
  intro segs
  induction segs with
  | nil => intro t; exact ⟨rfl, rfl⟩
  | cons p rest ih =>
    intro t
    simp only [List.foldl_cons]
    obtain ⟨h1, h2⟩ := ih (explodeSeg sent e id t p)
    exact ⟨h1, h2⟩

/-- `designate` never touches the two lookup tables: only the rows loop
inserts identifiers. -/
lemma designate_tables (sent : Nat) (s : GState) (id : Ident) :
    (designate sent s id).idx = s.idx ∧ (designate sent s id).edgeidx = s.edgeidx := by
  obtain ⟨_, _, _, _, _, fidx, feidx, _, _⟩ := designateVertexPart_fields sent s id
  set s1 := designateVertexPart sent s id with hs1
  show (designateEdgePart sent s1 id).idx = s.idx ∧
    (designateEdgePart sent s1 id).edgeidx = s.edgeidx
  unfold designateEdgePart
  split
  · exact ⟨fidx, feidx⟩
  · rename_i e hl
    split
    · obtain ⟨_, _, _, _, _, _, f7, f8, _⟩ :=
        foldWire_fields sent ((alookup s1.edgevtx e).getD []) s1
      rw [f7, f8]
      exact ⟨fidx, feidx⟩
    · obtain ⟨h1, h2⟩ := foldExplode_fields sent e id
        ((({ s1 with badedge := s1.badedge.set e true,
                     edgevtx := avemplace s1.edgevtx e } : GState)).edgenodes.getD e [])
        { s1 with badedge := s1.badedge.set e true, edgevtx := avemplace s1.edgevtx e }
      exact ⟨h1.trans fidx, h2.trans feidx⟩

/-! ## Identifier provenance (claim C10) -/

/-- An identifier in canonical stored form: nonempty, ending in the `'\n'`
terminator (the form `extract_string` and the starting-points reader
produce). -/
def TermId (l : Ident) : Prop := l ≠ [] ∧ l.getLast? = some nl

instance (l : Ident) : Decidable (TermId l) := by
  unfold TermId
  infer_instance

lemma resolveVertex_keys {P : Ident → Prop} (s : GState) (id : Ident)
    (h : ∀ p ∈ s.idx, P p.1) (hid : P id) :
    ∀ p ∈ (resolveVertex s id).1.idx, P p.1 := by
  unfold resolveVertex
  cases alookup s.idx id with
  | some k => exact h
  | none =>
    intro p hp
    rcases List.mem_append.mp hp with hp | hp
    · exact h p hp
    · rw [List.mem_singleton.mp hp]
      exact hid

lemma resolveVertex_eidx (s : GState) (id : Ident) :
    (resolveVertex s id).1.edgeidx = s.edgeidx := by
  unfold resolveVertex
  cases alookup s.idx id <;> rfl

lemma resolveEdge_keys {Q : Ident → Prop} (s : GState) (id : Ident)
    (h : ∀ p ∈ s.edgeidx, Q p.1) (hid : Q id) :
    ∀ p ∈ (resolveEdge s id).1.edgeidx, Q p.1 := by
  unfold resolveEdge
  cases alookup s.edgeidx id with
  | some k => exact h
  | none =>
    intro p hp
    rcases List.mem_append.mp hp with hp | hp
    · exact h p hp
    · rw [List.mem_singleton.mp hp]
      exact hid

lemma resolveEdge_idx (s : GState) (id : Ident) :
    (resolveEdge s id).1.idx = s.idx := by
  unfold resolveEdge
  cases alookup s.edgeidx id <;> rfl

lemma addRow_keys {P Q : Ident → Prop} (s : GState) (via source target : Ident)
    (hidx : ∀ p ∈ s.idx, P p.1) (heidx : ∀ p ∈ s.edgeidx, Q p.1)
    (hsrc : P source) (htgt : P target) (hvia : Q via) :
    (∀ p ∈ (addRow s via source target).idx, P p.1) ∧
    (∀ p ∈ (addRow s via source target).edgeidx, Q p.1) := by
  have h1 := resolveVertex_keys s source hidx hsrc
  have h1e : (resolveVertex s source).1.edgeidx = s.edgeidx := resolveVertex_eidx s source
  have h2 := resolveVertex_keys (resolveVertex s source).1 target h1 htgt
  have h2e : (resolveVertex (resolveVertex s source).1 target).1.edgeidx = s.edgeidx := by
    rw [resolveVertex_eidx, h1e]
  have h3 := resolveEdge_keys (resolveVertex (resolveVertex s source).1 target).1 via
    (by rw [h2e]; exact heidx) hvia
  have hax : (addRow s via source target).idx =
      (resolveEdge (resolveVertex (resolveVertex s source).1 target).1 via).1.idx := rfl
  have hex : (addRow s via source target).edgeidx =
      (resolveEdge (resolveVertex (resolveVertex s source).1 target).1 via).1.edgeidx := rfl
  constructor
  · intro p hp
    rw [hax, resolveEdge_idx] at hp
    exact h2 p hp
  · intro p hp
    rw [hex] at hp
    exact h3 p hp

/-- Key provenance through the rows loop. -/
lemma rgk_fold {P Q : Ident → Prop} : ∀ (rs : List (Ident × Ident × Ident)) (s : GState),
    (∀ r ∈ rs, Q r.1 ∧ P r.2.1 ∧ P r.2.2) →
    (∀ p ∈ s.idx, P p.1) → (∀ p ∈ s.edgeidx, Q p.1) →
    (∀ p ∈ (rs.foldl (fun t r => addRow t r.1 r.2.1 r.2.2) s).idx, P p.1) ∧
    (∀ p ∈ (rs.foldl (fun t r => addRow t r.1 r.2.1 r.2.2) s).edgeidx, Q p.1) := by
  intro rs
  induction rs with
  | nil => intro s _ h1 h2; exact ⟨h1, h2⟩
  | cons r rest ih =>
    intro s hr h1 h2
    have hr1 := hr r (List.mem_cons_self _ _)
    obtain ⟨g1, g2⟩ := addRow_keys s r.1 r.2.1 r.2.2 h1 h2 hr1.2.1 hr1.2.2 hr1.1
    exact ih _ (fun q hq => hr q (List.mem_cons_of_mem r hq)) g1 g2

/-- Key preservation through a designation loop. -/
lemma rgk_des {P Q : Ident → Prop} (sent : Nat) : ∀ (ids : List Ident) (s : GState),
    (∀ p ∈ s.idx, P p.1) → (∀ p ∈ s.edgeidx, Q p.1) →
    (∀ p ∈ (ids.foldl (designate sent) s).idx, P p.1) ∧
    (∀ p ∈ (ids.foldl (designate sent) s).edgeidx, Q p.1) := by
  intro ids
  induction ids with
  | nil => intro s h1 h2; exact ⟨h1, h2⟩
  | cons x rest ih =>
    intro s h1 h2
    obtain ⟨t1, t2⟩ := designate_tables sent s x
    exact ih _ (by rw [t1]; exact h1) (by rw [t2]; exact h2)

/-- Only the rows loop inserts identifiers into the lookup tables, so every
stored key is one of the row field strings. -/
lemma readGraph_keys {P Q : Ident → Prop} (rows : List (Ident × Ident × Ident))
    (ctrls starts : List Ident)
    (hrows : ∀ r ∈ rows, Q r.1 ∧ P r.2.1 ∧ P r.2.2) :
    (∀ p ∈ (readGraphRecords rows ctrls starts).idx, P p.1) ∧
    (∀ p ∈ (readGraphRecords rows ctrls starts).edgeidx, Q p.1) := by
  obtain ⟨r1, r2⟩ := rgk_fold rows initState hrows
    (by intro p hp; simp [initState] at hp) (by intro p hp; simp [initState] at hp)
  have r1' : ∀ p ∈ (pushDummy (rows.foldl (fun t r => addRow t r.1 r.2.1 r.2.2)
      initState)).idx, P p.1 := r1
  have r2' : ∀ p ∈ (pushDummy (rows.foldl (fun t r => addRow t r.1 r.2.1 r.2.2)
      initState)).edgeidx, Q p.1 := r2
  obtain ⟨c1, c2⟩ := rgk_des TAIL ctrls _ r1' r2'
  exact rgk_des HEAD starts _ c1 c2

/-- **C10 (amended).** Identifiers stored in the lookup tables come only from
the row field strings; whenever those are nonempty and `'\n'`-terminated (as
`extract_string` guarantees for every key that fired), every stored
identifier is too.  Unconditionally: no stored identifier ever resolves to
HEAD or TAIL, the sentinels have empty names and appear in no table, and the
dummy wiring edge has the empty name, is absent from the edge table and is
never deleted.  (The original claim fails: a robust-parse row with a missing
key stores the default-empty identifier — see the counterexample.) -/
theorem identifier_tables_amended (rows : List (Ident × Ident × Ident))
    (ctrls starts : List Ident) :
    ((∀ r ∈ rows, TermId r.1 ∧ TermId r.2.1 ∧ TermId r.2.2) →
      (∀ p ∈ (readGraphRecords rows ctrls starts).idx, TermId p.1) ∧
      (∀ p ∈ (readGraphRecords rows ctrls starts).edgeidx, TermId p.1)) ∧
    (∀ p ∈ (readGraphRecords rows ctrls starts).idx,
      2 ≤ p.2 ∧ p.2 < (readGraphRecords rows ctrls starts).nodes) ∧
    (∀ p ∈ (readGraphRecords rows ctrls starts).edgeidx,
      p.2 < (readGraphRecords rows ctrls starts).edges) ∧
    (readGraphRecords rows ctrls starts).badedge.getD
      (readGraphRecords rows ctrls starts).edges false = false ∧
    (readGraphRecords rows ctrls starts).name.getD HEAD [] = [] ∧
    (readGraphRecords rows ctrls starts).name.getD TAIL [] = [] ∧
    (readGraphRecords rows ctrls starts).edgename.getD
      (readGraphRecords rows ctrls starts).edges [] = [] := by
  have h := readGraph_dphase rows ctrls starts
  exact ⟨fun hrows => readGraph_keys rows ctrls starts hrows,
    fun p hp => ⟨h.gb.idx_lb p hp, h.gb.idx_ub p hp⟩, h.eidx_ub,
    h.dummy_bad, h.gb.head_name, h.gb.tail_name, h.dummy_name⟩

/-- Witness for C10 (amended) at the concrete running example: the inner
implication's premise holds there, so the terminated form carries through. -/
theorem identifier_tables_amended_witness :
    (∀ r ∈ [(['E', nl], ['A', nl], ['B', nl])],
      TermId r.1 ∧ TermId r.2.1 ∧ TermId r.2.2) ∧
    (∀ p ∈ (readGraphRecords [(['E', nl], ['A', nl], ['B', nl])] [['B', nl]] [['A', nl]]).idx,
      TermId p.1) ∧
    (∀ p ∈ (readGraphRecords [(['E', nl], ['A', nl], ['B', nl])] [['B', nl]] [['A', nl]]).edgeidx,
      TermId p.1) ∧
    (∀ p ∈ (readGraphRecords [(['E', nl], ['A', nl], ['B', nl])] [['B', nl]] [['A', nl]]).idx,
      2 ≤ p.2 ∧ p.2 < (readGraphRecords [(['E', nl], ['A', nl], ['B', nl])] [['B', nl]] [['A', nl]]).nodes) ∧
    (∀ p ∈ (readGraphRecords [(['E', nl], ['A', nl], ['B', nl])] [['B', nl]] [['A', nl]]).edgeidx,
      p.2 < (readGraphRecords [(['E', nl], ['A', nl], ['B', nl])] [['B', nl]] [['A', nl]]).edges) ∧
    (readGraphRecords [(['E', nl], ['A', nl], ['B', nl])] [['B', nl]] [['A', nl]]).badedge.getD
      (readGraphRecords [(['E', nl], ['A', nl], ['B', nl])] [['B', nl]] [['A', nl]]).edges false = false ∧
    (readGraphRecords [(['E', nl], ['A', nl], ['B', nl])] [['B', nl]] [['A', nl]]).name.getD HEAD [] = [] ∧
    (readGraphRecords [(['E', nl], ['A', nl], ['B', nl])] [['B', nl]] [['A', nl]]).name.getD TAIL [] = [] ∧
    (readGraphRecords [(['E', nl], ['A', nl], ['B', nl])] [['B', nl]] [['A', nl]]).edgename.getD
      (readGraphRecords [(['E', nl], ['A', nl], ['B', nl])] [['B', nl]] [['A', nl]]).edges [] = [] := by
  obtain ⟨h1, h2, h3, h4, h5, h6, h7⟩ :=
    identifier_tables_amended [(['E', nl], ['A', nl], ['B', nl])] [['B', nl]] [['A', nl]]
  obtain ⟨t1, t2⟩ := h1 (by decide)
  exact ⟨by decide, t1, t2, h2, h3, h4, h5, h6, h7⟩

/-- **C10 counterexample.** Running the robust rows scan on a list whose
first element is missing `toGlobalId` stores the empty string — neither
nonempty nor `'\n'`-terminated — as a vertex identifier, refuting "every
identifier stored in the vertex and edge lookup tables is non-empty and ends
with the terminator". -/
theorem identifier_tables_counterexample :
    ([], 3) ∈ (scanList rowAction initState jsonRows ⟨1, 0, false⟩ 4).2.1.idx ∧
    ¬ TermId ([] : Ident) := by
  constructor
  · decide
  · intro h
    exact h.1 rfl

/-- Any later designation — of any identifier, toward either sentinel —
leaves an already-exploded edge's deleted flag and substitute vertex set
untouched. -/
lemma designate_keeps_exploded (sent' : Nat) (s : GState) (id' : Ident)
    (e : Nat) (vs : List Nat) (h : DPhase s) (hsent' : sent' < 2)
    (hbad : s.badedge.getD e false = true)
    (hvs : alookup s.edgevtx e = some vs) :
    (designate sent' s id').badedge.getD e false = true ∧
    alookup (designate sent' s id').edgevtx e = some vs := by
  obtain ⟨hdp, _, _, _, _, _, _, _, _, _⟩ :=
    designateVertexPart_dphase sent' s id' h hsent'
  obtain ⟨_, _, fbad, _, fen, _, _, fvtx, _⟩ :=
    designateVertexPart_fields sent' s id'
  set s1 := designateVertexPart sent' s id' with hs1
  have hbad1 : s1.badedge.getD e false = true := by rw [fbad]; exact hbad
  have hvs1 : alookup s1.edgevtx e = some vs := by rw [fvtx]; exact hvs
  show (designateEdgePart sent' s1 id').badedge.getD e false = true ∧
    alookup (designateEdgePart sent' s1 id').edgevtx e = some vs
  unfold designateEdgePart
  split
  · exact ⟨hbad1, hvs1⟩
  · rename_i e' hl'
    by_cases hbad' : s1.badedge.getD e' false = true
    · rw [if_pos hbad']
      obtain ⟨_, _, f3, f4, _, _, _, _, _⟩ :=
        foldWire_fields sent' ((alookup s1.edgevtx e').getD []) s1
      rw [f3, f4]
      exact ⟨hbad1, hvs1⟩
    · rw [if_neg hbad']
      have hne : e ≠ e' := by
        intro hc
        rw [← hc] at hbad'
        exact hbad' hbad1
      constructor
      · rw [(foldExplode_content sent' e' id' _ _ []
          (by
            show alookup (avemplace s1.edgevtx e') e' = some []
            have hkey : alookup s1.edgevtx e' = none := by
              cases hx : alookup s1.edgevtx e' with
              | none => rfl
              | some ws =>
                have hb := hdp.evtx_bad _ (alookup_mem hx)
                simp only at hb
                exact absurd hb hbad'
            unfold avemplace
            rw [hkey, alookup_append_none hkey]
            simp [alookup])).2.2.1]
        show (s1.badedge.set e' true).getD e false = true
        rw [getD_set_ne _ _ _ _ _ (fun hc => hne hc.symm)]
        exact hbad1
      · rw [foldExplode_other sent' e' id' _ _ e hne]
        show alookup (avemplace s1.edgevtx e') e = some vs
        exact alookup_avemplace_of_some hvs1

/-- Iterated version of `designate_keeps_exploded` over any designation
sequence. -/
lemma foldDesignate_keeps_exploded (e : Nat) :
    ∀ (ds : List (Nat × Ident)) (s : GState) (vs : List Nat), DPhase s →
    (∀ d ∈ ds, d.1 < 2) →
    s.badedge.getD e false = true → alookup s.edgevtx e = some vs →
    (ds.foldl (fun t d => designate d.1 t d.2) s).badedge.getD e false = true ∧
    alookup (ds.foldl (fun t d => designate d.1 t d.2) s).edgevtx e = some vs := by
  intro ds
  induction ds with
  | nil => intro s vs _ _ hbad hvs; exact ⟨hbad, hvs⟩
  | cons d rest ih =>
    intro s vs h hd hbad hvs
    have hd1 : d.1 < 2 := hd d (List.mem_cons_self _ _)
    obtain ⟨hb', hv'⟩ := designate_keeps_exploded d.1 s d.2 e vs h hd1 hbad hvs
    exact ih _ vs (designate_dphase d.1 s d.2 h hd1)
      (fun q hq => hd q (List.mem_cons_of_mem d hq)) hb' hv'

/-- **C4.** For every edge identifier resolving to edge `e`: the first
designation as starting point or controller explodes it exactly once — the
deleted flag is set and one substitute vertex per recorded segment is
created, named after the identifier — while any designation of an
already-deleted edge creates no vertices and leaves the substitute set
untouched, and the recorded substitute set survives any sequence of later
designations unchanged. -/
theorem reduction1_exactly_once (s : GState) (id : Ident) (e sent : Nat)
    (h : DPhase s) (hsent : sent < 2) (hl : alookup s.edgeidx id = some e) :
    (s.badedge.getD e false = false →
      (designate sent s id).badedge.getD e false = true ∧
      (designate sent s id).nodes = s.nodes + (s.edgenodes.getD e []).length ∧
      (designate sent s id).name =
        s.name ++ List.replicate (s.edgenodes.getD e []).length id ∧
      alookup (designate sent s id).edgevtx e =
        some (List.range' s.nodes (s.edgenodes.getD e []).length)) ∧
    (s.badedge.getD e false = true →
      (designate sent s id).nodes = s.nodes ∧
      (designate sent s id).name = s.name ∧
      (designate sent s id).badedge = s.badedge ∧
      (designate sent s id).edgevtx = s.edgevtx) ∧
    (∀ (ds : List (Nat × Ident)) (vs : List Nat), (∀ d ∈ ds, d.1 < 2) →
      s.badedge.getD e false = true → alookup s.edgevtx e = some vs →
      (ds.foldl (fun t d => designate d.1 t d.2) s).badedge.getD e false = true ∧
      alookup (ds.foldl (fun t d => designate d.1 t d.2) s).edgevtx e = some vs) := by
  obtain ⟨hdp, _, _, _, _, _, _, _, _, _⟩ := designateVertexPart_dphase sent s id h hsent
  obtain ⟨fn, fname, fbad, _, fen, _, feidx, fvtx, fedges⟩ :=
    designateVertexPart_fields sent s id
  have hl1 : alookup (designateVertexPart sent s id).edgeidx id = some e := by
    rw [feidx]
    exact hl
  refine ⟨?_, ?_, ?_⟩
  · intro hbad
    obtain ⟨c1, c2, c3, c4, _, _, _⟩ := designateEdgePart_explode sent
      (designateVertexPart sent s id) id e hdp hl1 (by rw [fbad]; exact hbad)
    refine ⟨c1, ?_, ?_, ?_⟩
    · show (designateEdgePart sent (designateVertexPart sent s id) id).nodes = _
      rw [c2, fn, fen]
    · show (designateEdgePart sent (designateVertexPart sent s id) id).name = _
      rw [c3, fname, fen]
    · show alookup (designateEdgePart sent (designateVertexPart sent s id) id).edgevtx e = _
      rw [c4, fn, fen]
  · intro hbad
    obtain ⟨c1, c2, c3, c4, _, _⟩ := designateEdgePart_reuse sent
      (designateVertexPart sent s id) id e hl1 (by rw [fbad]; exact hbad)
    refine ⟨?_, ?_, ?_, ?_⟩
    · show (designateEdgePart sent (designateVertexPart sent s id) id).nodes = _
      rw [c1, fn]
    · show (designateEdgePart sent (designateVertexPart sent s id) id).name = _
      rw [c2, fname]
    · show (designateEdgePart sent (designateVertexPart sent s id) id).badedge = _
      rw [c3, fbad]
    · show (designateEdgePart sent (designateVertexPart sent s id) id).edgevtx = _
      rw [c4, fvtx]
  · intro ds vs hds hbad hvs
    exact foldDesignate_keeps_exploded e ds s vs h hds hbad hvs

/-- Witness for C4 at a concrete input: the graph with one row
(edge `E` joining `A` and `B`) after the dummy edge, with `E` designated. -/
theorem reduction1_exactly_once_witness :
    ((readGraphRecords [(['E', nl], ['A', nl], ['B', nl])] [] []).badedge.getD 0 false = false →
      (designate 1 (readGraphRecords [(['E', nl], ['A', nl], ['B', nl])] [] []) ['E', nl]).badedge.getD 0 false = true ∧
      (designate 1 (readGraphRecords [(['E', nl], ['A', nl], ['B', nl])] [] []) ['E', nl]).nodes =
        (readGraphRecords [(['E', nl], ['A', nl], ['B', nl])] [] []).nodes +
          ((readGraphRecords [(['E', nl], ['A', nl], ['B', nl])] [] []).edgenodes.getD 0 []).length ∧
      (designate 1 (readGraphRecords [(['E', nl], ['A', nl], ['B', nl])] [] []) ['E', nl]).name =
        (readGraphRecords [(['E', nl], ['A', nl], ['B', nl])] [] []).name ++
          List.replicate ((readGraphRecords [(['E', nl], ['A', nl], ['B', nl])] [] []).edgenodes.getD 0 []).length ['E', nl] ∧
      alookup (designate 1 (readGraphRecords [(['E', nl], ['A', nl], ['B', nl])] [] []) ['E', nl]).edgevtx 0 =
        some (List.range' (readGraphRecords [(['E', nl], ['A', nl], ['B', nl])] [] []).nodes
          ((readGraphRecords [(['E', nl], ['A', nl], ['B', nl])] [] []).edgenodes.getD 0 []).length)) ∧
    ((readGraphRecords [(['E', nl], ['A', nl], ['B', nl])] [] []).badedge.getD 0 false = true →
      (designate 1 (readGraphRecords [(['E', nl], ['A', nl], ['B', nl])] [] []) ['E', nl]).nodes =
        (readGraphRecords [(['E', nl], ['A', nl], ['B', nl])] [] []).nodes ∧
      (designate 1 (readGraphRecords [(['E', nl], ['A', nl], ['B', nl])] [] []) ['E', nl]).name =
        (readGraphRecords [(['E', nl], ['A', nl], ['B', nl])] [] []).name ∧
      (designate 1 (readGraphRecords [(['E', nl], ['A', nl], ['B', nl])] [] []) ['E', nl]).badedge =
        (readGraphRecords [(['E', nl], ['A', nl], ['B', nl])] [] []).badedge ∧
      (designate 1 (readGraphRecords [(['E', nl], ['A', nl], ['B', nl])] [] []) ['E', nl]).edgevtx =
        (readGraphRecords [(['E', nl], ['A', nl], ['B', nl])] [] []).edgevtx) ∧
    (∀ (ds : List (Nat × Ident)) (vs : List Nat), (∀ d ∈ ds, d.1 < 2) →
      (readGraphRecords [(['E', nl], ['A', nl], ['B', nl])] [] []).badedge.getD 0 false = true →
      alookup (readGraphRecords [(['E', nl], ['A', nl], ['B', nl])] [] []).edgevtx 0 = some vs →
      (ds.foldl (fun t d => designate d.1 t d.2)
        (readGraphRecords [(['E', nl], ['A', nl], ['B', nl])] [] [])).badedge.getD 0 false = true ∧
      alookup (ds.foldl (fun t d => designate d.1 t d.2)
        (readGraphRecords [(['E', nl], ['A', nl], ['B', nl])] [] [])).edgevtx 0 = some vs) :=
  reduction1_exactly_once (readGraphRecords [(['E', nl], ['A', nl], ['B', nl])] [] [])
    ['E', nl] 0 1 (readGraph_dphase _ _ _) (by omega) (by decide)

/-! ## Termination and visit discipline of `traverse` (claim C7) -/

/-- Spec-side reachability: `v` is reachable from `src` through edges not
deleted by reduction 1. -/
inductive ReachFrom (g : List (List (Nat × Nat))) (bad : List Bool) (src : Nat) :
    Nat → Prop
  | refl : ReachFrom g bad src src
  | tail (u : Nat) (p : Nat × Nat) : ReachFrom g bad src u → p ∈ g.getD u [] →
      bad.getD p.2 false = false → ReachFrom g bad src p.1

/-- Default frame, for indexed access to the recursion stack. -/
def fdef : Frame :=
  { v := 0, i := 0, best := 0, reached := false, started := false }

/-- The termination measure of the main loop of `traverse`: three units per
undiscovered vertex, one per stack frame, plus two unless the top frame is
freshly pushed. -/
def tMu (s : TState) : Nat :=
  3 * s.dfs.countP (fun q => q.1 == 0) + s.stk.length +
    (match s.stk with
     | [] => 2
     | fm :: _ => if fm.started then 2 else 0)

lemma getD_indep {α : Type} (l : List α) (i : Nat) (d d' : α) (h : i < l.length) :
    l.getD i d = l.getD i d' := by
  rw [List.getD_eq_getElem l d h, List.getD_eq_getElem l d' h]

lemma getD_replicate_any {α : Type} (x : α) : ∀ (n i : Nat),
    (List.replicate n x).getD i x = x
  | 0, i => by cases i <;> rfl
  | _ + 1, 0 => rfl
  | n + 1, i + 1 => getD_replicate_any x n i

lemma countP_set {α : Type} (p : α → Bool) (d : α) :
    ∀ (l : List α) (i : Nat) (x : α), i < l.length →
    (l.set i x).countP p + (if p (l.getD i d) then 1 else 0) =
      l.countP p + (if p x then 1 else 0)
  | [], _, _, h => by simp at h
  | a :: l, 0, x, _ => by
    show (x :: l).countP p + (if p a then 1 else 0) =
      (a :: l).countP p + (if p x then 1 else 0)
    simp only [List.countP_cons]
    omega
  | a :: l, i + 1, x, h => by
    show (a :: l.set i x).countP p + (if p (l.getD i d) then 1 else 0) =
      (a :: l).countP p + (if p x then 1 else 0)
    simp only [List.countP_cons]
    have := countP_set p d l i x (by simpa using h)
    omega

lemma countP_zero_replicate : ∀ n : Nat,
    (List.replicate n ((0, 0) : Nat × Nat)).countP (fun q => q.1 == 0) = n
  | 0 => rfl
  | n + 1 => by
    rw [List.replicate_succ, List.countP_cons]
    rw [countP_zero_replicate n]
    simp

lemma popAcc_len (u : Nat) (c : Bool) : ∀ (acc : List Nat) (up : List Bool),
    (popAcc u c acc up).2.length = up.length
  | [], _ => rfl
  | a :: rest, up => by
    unfold popAcc
    by_cases h : a = u
    · rw [if_pos h]
      exact List.length_set up a _
    · rw [if_neg h]
      rw [popAcc_len u c rest _]
      exact List.length_set up a _

lemma popAcc_acc_sub (u : Nat) (c : Bool) : ∀ (acc : List Nat) (up : List Bool)
    (x : Nat), x ∈ (popAcc u c acc up).1 → x ∈ acc
  | [], _, x, h => absurd h (List.not_mem_nil x)
  | a :: rest, up, x, h => by
    revert h
    unfold popAcc
    by_cases h' : a = u
    · rw [if_pos h']
      exact fun hx => List.mem_cons_of_mem a hx
    · rw [if_neg h']
      exact fun hx => List.mem_cons_of_mem a (popAcc_acc_sub u c rest _ x hx)

lemma popAcc_up_getD (u : Nat) (c : Bool) (v : Nat) : ∀ (acc : List Nat)
    (up : List Bool), (∀ a ∈ acc, a ≠ v) →
    (popAcc u c acc up).2.getD v false = up.getD v false
  | [], _, _ => rfl
  | a :: rest, up, h => by
    unfold popAcc
    by_cases h' : a = u
    · rw [if_pos h']
      exact getD_set_ne up a v _ false (h a (List.mem_cons_self a rest))
    · rw [if_neg h']
      rw [popAcc_up_getD u c v rest _ (fun b hb => h b (List.mem_cons_of_mem a hb))]
      exact getD_set_ne up a v _ false (h a (List.mem_cons_self a rest))

lemma markAcc_getD_ne (v : Nat) : ∀ (acc : List Nat) (up : List Bool),
    (∀ a ∈ acc, a ≠ v) → (markAcc acc up).getD v false = up.getD v false
  | [], _, _ => rfl
  | a :: rest, up, h => by
    show (markAcc rest (up.set a true)).getD v false = up.getD v false
    rw [markAcc_getD_ne v rest _ (fun b hb => h b (List.mem_cons_of_mem a hb))]
    exact getD_set_ne up a v true false (h a (List.mem_cons_self a rest))

lemma skipEdgesGo_spec (adj : List (Nat × Nat)) (bad : List Bool)
    (dfs : List (Nat × Nat)) : ∀ (k i b : Nat) (r : Bool),
    adj.length ≤ k + i → i ≤ adj.length →
    i ≤ (skipEdgesGo adj bad dfs k i b r).1 ∧
    (skipEdgesGo adj bad dfs k i b r).1 ≤ adj.length ∧
    (∀ j, i ≤ j → j < (skipEdgesGo adj bad dfs k i b r).1 →
      0 < (dfs.getD (adj.getD j (0, 0)).1 (0, 0)).1 ∨
      bad.getD (adj.getD j (0, 0)).2 false = true) ∧
    ((skipEdgesGo adj bad dfs k i b r).1 < adj.length →
      (dfs.getD (adj.getD (skipEdgesGo adj bad dfs k i b r).1 (0, 0)).1 (0, 0)).1 = 0 ∧
      bad.getD (adj.getD (skipEdgesGo adj bad dfs k i b r).1 (0, 0)).2 false = false)
  | 0, i, b, r, hk, hi => by
    have h0 : skipEdgesGo adj bad dfs 0 i b r = (i, b, r) := rfl
    rw [h0]
    dsimp only
    refine ⟨le_refl i, hi, fun j h1 h2 => absurd (lt_of_le_of_lt h1 h2) (lt_irrefl i), ?_⟩
    intro hlt
    exact absurd hlt (by omega)
  | k + 1, i, b, r, hk, hi => by
    by_cases hlen : i < adj.length
    · by_cases hg : 0 < (dfs.getD (adj.getD i (0, 0)).1 (0, 0)).1 ∨
          bad.getD (adj.getD i (0, 0)).2 false = true
      · by_cases hb : bad.getD (adj.getD i (0, 0)).2 false = true
        · have hred : skipEdgesGo adj bad dfs (k + 1) i b r =
              skipEdgesGo adj bad dfs k (i + 1) b r := by
            conv_lhs => unfold skipEdgesGo
            rw [if_pos hlen]
            dsimp only
            rw [if_pos hg, if_pos hb]
          rw [hred]
          obtain ⟨h1, h2, h3, h4⟩ :=
            skipEdgesGo_spec adj bad dfs k (i + 1) b r (by omega) (by omega)
          refine ⟨by omega, h2, ?_, h4⟩
          intro j hj1 hj2
          rcases Nat.eq_or_lt_of_le hj1 with hj | hj
          · rw [← hj]
            exact hg
          · exact h3 j (by omega) hj2
        · have hred : skipEdgesGo adj bad dfs (k + 1) i b r =
              skipEdgesGo adj bad dfs k (i + 1)
                (min b (dfs.getD (adj.getD i (0, 0)).1 (0, 0)).2)
                (r || ((adj.getD i (0, 0)).1 == TAIL)) := by
            conv_lhs => unfold skipEdgesGo
            rw [if_pos hlen]
            dsimp only
            rw [if_pos hg, if_neg hb]
          rw [hred]
          obtain ⟨h1, h2, h3, h4⟩ :=
            skipEdgesGo_spec adj bad dfs k (i + 1)
              (min b (dfs.getD (adj.getD i (0, 0)).1 (0, 0)).2)
              (r || ((adj.getD i (0, 0)).1 == TAIL)) (by omega) (by omega)
          refine ⟨by omega, h2, ?_, h4⟩
          intro j hj1 hj2
          rcases Nat.eq_or_lt_of_le hj1 with hj | hj
          · rw [← hj]
            exact hg
          · exact h3 j (by omega) hj2
      · have hred : skipEdgesGo adj bad dfs (k + 1) i b r = (i, b, r) := by
          conv_lhs => unfold skipEdgesGo
          rw [if_pos hlen]
          dsimp only
          rw [if_neg hg]
        rw [hred]
        dsimp only
        obtain ⟨hg1, hg2⟩ := not_or.mp hg
        refine ⟨le_refl i, hi,
          fun j hj1 hj2 => absurd (lt_of_le_of_lt hj1 hj2) (lt_irrefl i), ?_⟩
        intro _
        refine ⟨by omega, ?_⟩
        rcases Bool.eq_false_or_eq_true (bad.getD (adj.getD i (0, 0)).2 false) with
          hbb | hbb
        · exact absurd hbb hg2
        · exact hbb
    · have hred : skipEdgesGo adj bad dfs (k + 1) i b r = (i, b, r) := by
        conv_lhs => unfold skipEdgesGo
        rw [if_neg hlen]
      rw [hred]
      dsimp only
      exact ⟨le_refl i, hi,
        fun j hj1 hj2 => absurd (lt_of_le_of_lt hj1 hj2) (lt_irrefl i),
        fun hlt => absurd hlt hlen⟩

/-- The loop invariant of `traverse`'s main loop. -/
structure TInv (g : List (List (Nat × Nat))) (bad : List Bool) (n : Nat)
    (s : TState) : Prop where
  dfs_len : s.dfs.length = n
  up_len : s.upstream.length = n
  count2 : 2 ≤ s.count
  stk_v : ∀ fm ∈ s.stk, fm.v < n
  rest_started : ∀ fm ∈ s.stk.drop 1, fm.started = true
  fresh_top : ∀ fm rest, s.stk = fm :: rest → fm.started = false →
    (s.dfs.getD fm.v (0, 0)).1 = 0 ∧ fm.best + 1 = s.count ∧ 1 ≤ fm.best ∧
    ∀ u, u < n → 0 < (s.dfs.getD u (0, 0)).1 → (s.dfs.getD u (0, 0)).1 < fm.best
  started_top : ∀ fm rest, s.stk = fm :: rest → fm.started = true →
    fm.i < (g.getD fm.v []).length ∧
    0 < (s.dfs.getD ((g.getD fm.v []).getD fm.i (0, 0)).1 (0, 0)).1
  chain : ∀ j, j + 1 < s.stk.length →
    (s.stk.getD (j + 1) fdef).i < (g.getD (s.stk.getD (j + 1) fdef).v []).length ∧
    ((g.getD (s.stk.getD (j + 1) fdef).v []).getD (s.stk.getD (j + 1) fdef).i
        (0, 0)).1 = (s.stk.getD j fdef).v
  started_vis : ∀ fm ∈ s.stk, fm.started = true → 0 < (s.dfs.getD fm.v (0, 0)).1
  cursor_bound : ∀ fm ∈ s.stk, fm.i ≤ (g.getD fm.v []).length
  cursor_prefix : ∀ fm ∈ s.stk, ∀ j, j < fm.i →
    0 < (s.dfs.getD ((g.getD fm.v []).getD j (0, 0)).1 (0, 0)).1 ∨
    bad.getD ((g.getD fm.v []).getD j (0, 0)).2 false = true
  finished_closed : ∀ u, u < n → 0 < (s.dfs.getD u (0, 0)).1 →
    (∀ fm ∈ s.stk, fm.v ≠ u) → ∀ j, j < (g.getD u []).length →
    0 < (s.dfs.getD ((g.getD u []).getD j (0, 0)).1 (0, 0)).1 ∨
    bad.getD ((g.getD u []).getD j (0, 0)).2 false = true
  visited_lt : ∀ v, v < n → 0 < (s.dfs.getD v (0, 0)).1 →
    (s.dfs.getD v (0, 0)).1 < s.count
  inj : ∀ v w, v < n → w < n → 0 < (s.dfs.getD v (0, 0)).1 →
    0 < (s.dfs.getD w (0, 0)).1 → v ≠ w →
    (s.dfs.getD v (0, 0)).1 ≠ (s.dfs.getD w (0, 0)).1
  stk_reach : ∀ fm ∈ s.stk, ReachFrom g bad HEAD fm.v
  visited_reach : ∀ v, v < n → 0 < (s.dfs.getD v (0, 0)).1 → ReachFrom g bad HEAD v
  unvis_zero : ∀ v, v < n → (s.dfs.getD v (0, 0)).1 = 0 →
    s.dfs.getD v (0, 0) = (0, 0)
  acc_vis : ∀ a ∈ s.acc, a < n ∧ 0 < (s.dfs.getD a (0, 0)).1
  up_unreach : ∀ v, v < n → (s.dfs.getD v (0, 0)).1 = 0 →
    s.upstream.getD v false = false
  head_vis : 0 < (s.dfs.getD HEAD (0, 0)).1 ∨ ∃ fm ∈ s.stk, fm.v = HEAD

/-- The common tail (edge-skipping, then finish-or-recurse) of one `traverse`
loop iteration, applied to the state and frame produced by the first half. -/
def stage2 (g : List (List (Nat × Nat))) (bad : List Bool) (rest : List Frame)
    (s1 : TState) (fm : Frame) : TState :=
  let adj := g.getD fm.v []
  let sk := skipEdges adj bad s1.dfs fm.i fm.best fm.reached
  let fm := { fm with i := sk.1, best := sk.2.1, reached := sk.2.2 }
  if fm.i = adj.length then
    { s1 with dfs := s1.dfs.set fm.v ((s1.dfs.getD fm.v (0, 0)).1, fm.best),
              stk := rest, child := fm.reached }
  else
    let w := (adj.getD fm.i (0, 0)).1
    let fm := { fm with reached := fm.reached || (w == TAIL), started := true }
    { s1 with
        stk := { v := w, i := 0, best := s1.count, reached := false, started := false }
                 :: fm :: rest,
        count := s1.count + 1, child := false }

lemma step_eq_fresh (g : List (List (Nat × Nat))) (bad : List Bool) (s : TState)
    (fm : Frame) (rest : List Frame) (hstk : s.stk = fm :: rest)
    (hst : fm.started = false) :
    step g bad s = stage2 g bad rest
      { s with dfs := s.dfs.set fm.v (fm.best, fm.best), acc := fm.v :: s.acc }
      { fm with reached := fm.reached || s.child } := by
  obtain ⟨d, up, acc, stk, cnt, ch⟩ := s
  obtain ⟨v, i, b, r, st'⟩ := fm
  dsimp only at hstk hst
  subst hstk
  subst hst
  rfl

lemma step_eq_started (g : List (List (Nat × Nat))) (bad : List Bool) (s : TState)
    (fm : Frame) (rest : List Frame) (hstk : s.stk = fm :: rest)
    (hst : fm.started = true) :
    step g bad s =
      if (s.dfs.getD ((g.getD fm.v []).getD fm.i (0, 0)).1 (0, 0)).2 ≥
          (s.dfs.getD fm.v (0, 0)).1 then
        stage2 g bad rest
          { s with
              acc := (popAcc ((g.getD fm.v []).getD fm.i (0, 0)).1 s.child s.acc
                s.upstream).1,
              upstream := (popAcc ((g.getD fm.v []).getD fm.i (0, 0)).1 s.child s.acc
                s.upstream).2 }
          { fm with reached := fm.reached || s.child, i := fm.i + 1 }
      else
        stage2 g bad rest s
          { fm with reached := fm.reached || s.child,
                    best := min fm.best
                      (s.dfs.getD ((g.getD fm.v []).getD fm.i (0, 0)).1 (0, 0)).2,
                    i := fm.i + 1 } := by
  obtain ⟨d, up, acc, stk, cnt, ch⟩ := s
  obtain ⟨v, i, b, r, st'⟩ := fm
  dsimp only at hstk hst ⊢
  subst hstk
  subst hst
  by_cases hc : (d.getD ((g.getD v []).getD i (0, 0)).1 (0, 0)).2 ≥
      (d.getD v (0, 0)).1
  · rw [if_pos hc]
    unfold step
    dsimp only
    simp only [eq_self_iff_true, if_true]
    rw [if_pos hc]
    rfl
  · rw [if_neg hc]
    unfold step
    dsimp only
    simp only [eq_self_iff_true, if_true]
    rw [if_neg hc]
    rfl

lemma stage2_eq_finish (g : List (List (Nat × Nat))) (bad : List Bool)
    (rest : List Frame) (s1 : TState) (fm : Frame)
    (hC : (skipEdges (g.getD fm.v []) bad s1.dfs fm.i fm.best fm.reached).1 =
      (g.getD fm.v []).length) :
    stage2 g bad rest s1 fm =
      { s1 with
          dfs := s1.dfs.set fm.v ((s1.dfs.getD fm.v (0, 0)).1,
            (skipEdges (g.getD fm.v []) bad s1.dfs fm.i fm.best fm.reached).2.1),
          stk := rest,
          child := (skipEdges (g.getD fm.v []) bad s1.dfs fm.i fm.best
            fm.reached).2.2 } := by
  unfold stage2
  dsimp only
  rw [if_pos hC]

lemma stage2_eq_push (g : List (List (Nat × Nat))) (bad : List Bool)
    (rest : List Frame) (s1 : TState) (fm : Frame)
    (hC : ¬ (skipEdges (g.getD fm.v []) bad s1.dfs fm.i fm.best fm.reached).1 =
      (g.getD fm.v []).length) :
    stage2 g bad rest s1 fm =
      { s1 with
          stk :=
            { v := ((g.getD fm.v []).getD
                (skipEdges (g.getD fm.v []) bad s1.dfs fm.i fm.best fm.reached).1
                (0, 0)).1,
              i := 0, best := s1.count, reached := false, started := false } ::
            { fm with
              i := (skipEdges (g.getD fm.v []) bad s1.dfs fm.i fm.best fm.reached).1,
              best := (skipEdges (g.getD fm.v []) bad s1.dfs fm.i fm.best
                fm.reached).2.1,
              reached := ((skipEdges (g.getD fm.v []) bad s1.dfs fm.i fm.best
                fm.reached).2.2 ||
                (((g.getD fm.v []).getD
                  (skipEdges (g.getD fm.v []) bad s1.dfs fm.i fm.best fm.reached).1
                  (0, 0)).1 == TAIL)),
              started := true } :: rest,
          count := s1.count + 1, child := false } := by
  unfold stage2
  dsimp only
  rw [if_neg hC]

lemma skipEdges_spec (adj : List (Nat × Nat)) (bad : List Bool)
    (dfs : List (Nat × Nat)) (i b : Nat) (r : Bool) (hi : i ≤ adj.length) :
    i ≤ (skipEdges adj bad dfs i b r).1 ∧
    (skipEdges adj bad dfs i b r).1 ≤ adj.length ∧
    (∀ j, i ≤ j → j < (skipEdges adj bad dfs i b r).1 →
      0 < (dfs.getD (adj.getD j (0, 0)).1 (0, 0)).1 ∨
      bad.getD (adj.getD j (0, 0)).2 false = true) ∧
    ((skipEdges adj bad dfs i b r).1 < adj.length →
      (dfs.getD (adj.getD (skipEdges adj bad dfs i b r).1 (0, 0)).1 (0, 0)).1 = 0 ∧
      bad.getD (adj.getD (skipEdges adj bad dfs i b r).1 (0, 0)).2 false = false) := by
  unfold skipEdges
  exact skipEdgesGo_spec adj bad dfs (adj.length - i) i b r (by omega) hi

/-- Preservation of the `traverse` loop invariant, and decrease of the
termination measure, across the common tail of a loop iteration. -/
lemma stage2_inv (g : List (List (Nat × Nat))) (bad : List Bool) (n M : Nat)
    (hadj : ∀ v, v < n → ∀ p ∈ g.getD v [], p.1 < n)
    (s1 : TState) (fm : Frame) (rest : List Frame)
    (h_dlen : s1.dfs.length = n)
    (h_ulen : s1.upstream.length = n)
    (h_cnt : 2 ≤ s1.count)
    (h_fv : fm.v < n)
    (h_rv : ∀ f ∈ rest, f.v < n)
    (h_rst : ∀ f ∈ rest, f.started = true)
    (h_fvis : 0 < (s1.dfs.getD fm.v (0, 0)).1)
    (h_ilen : fm.i ≤ (g.getD fm.v []).length)
    (h_pref : ∀ j, j < fm.i →
      0 < (s1.dfs.getD ((g.getD fm.v []).getD j (0, 0)).1 (0, 0)).1 ∨
      bad.getD ((g.getD fm.v []).getD j (0, 0)).2 false = true)
    (h_link : rest ≠ [] →
      (rest.getD 0 fdef).i < (g.getD (rest.getD 0 fdef).v []).length ∧
      ((g.getD (rest.getD 0 fdef).v []).getD (rest.getD 0 fdef).i (0, 0)).1 = fm.v)
    (h_chain : ∀ j, j + 1 < rest.length →
      (rest.getD (j + 1) fdef).i < (g.getD (rest.getD (j + 1) fdef).v []).length ∧
      ((g.getD (rest.getD (j + 1) fdef).v []).getD (rest.getD (j + 1) fdef).i
          (0, 0)).1 = (rest.getD j fdef).v)
    (h_rbound : ∀ f ∈ rest, f.i ≤ (g.getD f.v []).length)
    (h_rpref : ∀ f ∈ rest, ∀ j, j < f.i →
      0 < (s1.dfs.getD ((g.getD f.v []).getD j (0, 0)).1 (0, 0)).1 ∨
      bad.getD ((g.getD f.v []).getD j (0, 0)).2 false = true)
    (h_rvis : ∀ f ∈ rest, 0 < (s1.dfs.getD f.v (0, 0)).1)
    (h_closed : ∀ u, u < n → 0 < (s1.dfs.getD u (0, 0)).1 → u ≠ fm.v →
      (∀ f ∈ rest, f.v ≠ u) → ∀ j, j < (g.getD u []).length →
      0 < (s1.dfs.getD ((g.getD u []).getD j (0, 0)).1 (0, 0)).1 ∨
      bad.getD ((g.getD u []).getD j (0, 0)).2 false = true)
    (h_vlt : ∀ v, v < n → 0 < (s1.dfs.getD v (0, 0)).1 →
      (s1.dfs.getD v (0, 0)).1 < s1.count)
    (h_inj : ∀ v w, v < n → w < n → 0 < (s1.dfs.getD v (0, 0)).1 →
      0 < (s1.dfs.getD w (0, 0)).1 → v ≠ w →
      (s1.dfs.getD v (0, 0)).1 ≠ (s1.dfs.getD w (0, 0)).1)
    (h_freach : ReachFrom g bad HEAD fm.v)
    (h_rreach : ∀ f ∈ rest, ReachFrom g bad HEAD f.v)
    (h_vreach : ∀ v, v < n → 0 < (s1.dfs.getD v (0, 0)).1 →
      ReachFrom g bad HEAD v)
    (h_uz : ∀ v, v < n → (s1.dfs.getD v (0, 0)).1 = 0 →
      s1.dfs.getD v (0, 0) = (0, 0))
    (h_acc : ∀ a ∈ s1.acc, a < n ∧ 0 < (s1.dfs.getD a (0, 0)).1)
    (h_upz : ∀ v, v < n → (s1.dfs.getD v (0, 0)).1 = 0 →
      s1.upstream.getD v false = false)
    (h_head : 0 < (s1.dfs.getD HEAD (0, 0)).1 ∨ ∃ f ∈ rest, f.v = HEAD)
    (h_mu : 3 * s1.dfs.countP (fun q => q.1 == 0) + rest.length + 3 ≤ M) :
    TInv g bad n (stage2 g bad rest s1 fm) ∧ tMu (stage2 g bad rest s1 fm) + 1 ≤ M := by
  obtain ⟨hsk1, hsk2, hsk3, hsk4⟩ :=
    skipEdges_spec (g.getD fm.v []) bad s1.dfs fm.i fm.best fm.reached h_ilen
  by_cases hC : (skipEdges (g.getD fm.v []) bad s1.dfs fm.i fm.best fm.reached).1 =
      (g.getD fm.v []).length
  · -- the vertex is exhausted: finish it and pop the frame
    rw [stage2_eq_finish g bad rest s1 fm hC]
    have hvis1 : ∀ u, ((s1.dfs.set fm.v ((s1.dfs.getD fm.v (0, 0)).1,
        (skipEdges (g.getD fm.v []) bad s1.dfs fm.i fm.best
          fm.reached).2.1)).getD u (0, 0)).1 = (s1.dfs.getD u (0, 0)).1 := by
      intro u
      by_cases hu : fm.v = u
      · subst hu
        rw [getD_set_self _ _ _ _ (by omega)]
      · rw [getD_set_ne _ _ _ _ _ hu]
    have hpair1 : ∀ u, fm.v ≠ u →
        (s1.dfs.set fm.v ((s1.dfs.getD fm.v (0, 0)).1,
          (skipEdges (g.getD fm.v []) bad s1.dfs fm.i fm.best
            fm.reached).2.1)).getD u (0, 0) = s1.dfs.getD u (0, 0) := by
      intro u hu
      rw [getD_set_ne _ _ _ _ _ hu]
    have hcntset : (s1.dfs.set fm.v ((s1.dfs.getD fm.v (0, 0)).1,
        (skipEdges (g.getD fm.v []) bad s1.dfs fm.i fm.best
          fm.reached).2.1)).countP (fun q => q.1 == 0) =
        s1.dfs.countP (fun q => q.1 == 0) := by
      have hcs := countP_set (fun q => q.1 == 0) (0, 0) s1.dfs fm.v
        ((s1.dfs.getD fm.v (0, 0)).1,
          (skipEdges (g.getD fm.v []) bad s1.dfs fm.i fm.best fm.reached).2.1)
        (by omega)
      dsimp only at hcs
      omega
    constructor
    · refine ⟨?_, h_ulen, h_cnt, h_rv, ?_, ?_, ?_, h_chain, ?_, h_rbound, ?_, ?_,
        ?_, ?_, h_rreach, ?_, ?_, ?_, ?_, ?_⟩
      · show (s1.dfs.set _ _).length = n
        rw [List.length_set]
        exact h_dlen
      · exact fun f hf => h_rst f (List.mem_of_mem_drop hf)
      · -- fresh_top: every frame below the popped one is started
        intro f rs hEq hf
        dsimp only at hEq
        have hmem : f ∈ rest := by
          rw [hEq]
          exact List.mem_cons_self f rs
        have := h_rst f hmem
        rw [hf] at this
        exact absurd this Bool.false_ne_true
      · -- started_top: the uncovered frame's current edge leads to the popped
        -- vertex, which is discovered
        intro f rs hEq hf
        dsimp only at hEq
        have hne : rest ≠ [] := by
          rw [hEq]
          exact List.cons_ne_nil f rs
        have hl := h_link hne
        rw [hEq] at hl
        simp only [List.getD_cons_zero] at hl
        refine ⟨hl.1, ?_⟩
        rw [hvis1, hl.2]
        exact h_fvis
      · exact fun f hf _ => by rw [hvis1]; exact h_rvis f hf
      · intro f hf j hj
        rcases h_rpref f hf j hj with h | h
        · exact Or.inl (by rw [hvis1]; exact h)
        · exact Or.inr h
      · -- finished_closed
        intro u hu hvisu hnof j hj
        rw [hvis1] at hvisu
        by_cases hufm : u = fm.v
        · subst hufm
          by_cases hji : j < fm.i
          · rcases h_pref j hji with h | h
            · exact Or.inl (by rw [hvis1]; exact h)
            · exact Or.inr h
          · rcases hsk3 j (by omega) (by omega) with h | h
            · exact Or.inl (by rw [hvis1]; exact h)
            · exact Or.inr h
        · rcases h_closed u hu hvisu hufm hnof j hj with h | h
          · exact Or.inl (by rw [hvis1]; exact h)
          · exact Or.inr h
      · intro v hv hvv
        rw [hvis1] at hvv ⊢
        exact h_vlt v hv hvv
      · intro v w hv hw hvv hvw hne
        rw [hvis1] at hvv hvw ⊢
        rw [hvis1]
        exact h_inj v w hv hw hvv hvw hne
      · intro v hv hvv
        rw [hvis1] at hvv
        exact h_vreach v hv hvv
      · -- unvis_zero
        intro v hv h0
        rw [hvis1] at h0
        by_cases hvf : fm.v = v
        · rw [← hvf] at h0
          omega
        · rw [hpair1 v hvf]
          exact h_uz v hv h0
      · intro a ha
        refine ⟨(h_acc a ha).1, ?_⟩
        rw [hvis1]
        exact (h_acc a ha).2
      · intro v hv h0
        rw [hvis1] at h0
        exact h_upz v hv h0
      · rcases h_head with h | ⟨f, hf, hfv⟩
        · exact Or.inl (by rw [hvis1]; exact h)
        · exact Or.inr ⟨f, hf, hfv⟩
    · -- measure: a pop with no new discovery frees at least one unit
      rcases rest with _ | ⟨f, rs⟩
      · show 3 * (s1.dfs.set _ _).countP (fun q => q.1 == 0) +
          ([] : List Frame).length + 2 + 1 ≤ M
        rw [hcntset]
        simpa using h_mu
      · show 3 * (s1.dfs.set _ _).countP (fun q => q.1 == 0) +
          (f :: rs).length + (if f.started = true then 2 else 0) + 1 ≤ M
        rw [hcntset, h_rst f (List.mem_cons_self f rs)]
        simp only [List.length_cons, eq_self_iff_true, if_true]
        simp only [List.length_cons] at h_mu
        omega
  · -- an unexplored edge remains: push a fresh frame for its endpoint
    have hlt : (skipEdges (g.getD fm.v []) bad s1.dfs fm.i fm.best
        fm.reached).1 < (g.getD fm.v []).length := by omega
    obtain ⟨hw0, hwbad⟩ := hsk4 hlt
    have hwn : ((g.getD fm.v []).getD
        (skipEdges (g.getD fm.v []) bad s1.dfs fm.i fm.best fm.reached).1
        (0, 0)).1 < n :=
      hadj fm.v h_fv _ (getD_mem _ (0, 0) _ hlt)
    rw [stage2_eq_push g bad rest s1 fm hC]
    constructor
    · refine ⟨h_dlen, h_ulen, by show 2 ≤ s1.count + 1; omega, ?_, ?_, ?_, ?_,
        ?_, ?_, ?_, ?_, ?_, ?_, ?_, ?_, ?_, h_uz, h_acc, h_upz, ?_⟩
      · -- stk_v
        intro f hf
        rcases List.mem_cons.mp hf with hf | hf
        · rw [hf]
          exact hwn
        rcases List.mem_cons.mp hf with hf | hf
        · rw [hf]
          exact h_fv
        · exact h_rv f hf
      · -- rest_started
        intro f hf
        rcases List.mem_cons.mp hf with hf | hf
        · rw [hf]
        · exact h_rst f hf
      · -- fresh_top for the new frame
        intro f rs hEq hf
        dsimp only at hEq
        injection hEq with h1 h2
        rw [← h1]
        refine ⟨hw0, rfl, ?_, ?_⟩
        · show 1 ≤ s1.count
          omega
        · intro u hu hvu
          show (s1.dfs.getD u (0, 0)).1 < s1.count
          exact h_vlt u hu hvu
      · -- started_top is vacuous: the new top is fresh
        intro f rs hEq hf
        dsimp only at hEq
        injection hEq with h1 h2
        rw [← h1] at hf
        exact absurd hf Bool.false_ne_true
      · -- chain
        intro j hj
        rcases j with _ | j
        · simp only [List.getD_cons_succ, List.getD_cons_zero]
          exact ⟨hlt, trivial⟩
        rcases j with _ | j
        · simp only [List.getD_cons_succ, List.getD_cons_zero]
          simp only [List.length_cons] at hj
          have hne : rest ≠ [] := by
            intro hnil
            rw [hnil] at hj
            simp at hj
          have hl := h_link hne
          exact hl
        · simp only [List.getD_cons_succ]
          simp only [List.length_cons] at hj
          exact h_chain j (by omega)
      · -- started_vis
        intro f hf hfs
        rcases List.mem_cons.mp hf with hf | hf
        · rw [hf] at hfs
          exact absurd hfs Bool.false_ne_true
        rcases List.mem_cons.mp hf with hf | hf
        · rw [hf]
          exact h_fvis
        · exact h_rvis f hf
      · -- cursor_bound
        intro f hf
        rcases List.mem_cons.mp hf with hf | hf
        · rw [hf]
          exact Nat.zero_le _
        rcases List.mem_cons.mp hf with hf | hf
        · rw [hf]
          exact le_of_lt hlt
        · exact h_rbound f hf
      · -- cursor_prefix
        intro f hf j hj
        rcases List.mem_cons.mp hf with hf | hf
        · rw [hf] at hj
          exact absurd hj (Nat.not_lt_zero j)
        rcases List.mem_cons.mp hf with hf | hf
        · rw [hf] at hj ⊢
          dsimp only at hj ⊢
          by_cases hji : j < fm.i
          · exact h_pref j hji
          · exact hsk3 j (by omega) hj
        · exact h_rpref f hf j hj
      · -- finished_closed
        intro u hu hvisu hnof j hj
        refine h_closed u hu hvisu ?_ ?_ j hj
        · have h1 := hnof _ (List.mem_cons_of_mem _ (List.mem_cons_self _ rest))
          exact Ne.symm h1
        · exact fun f hf =>
            hnof f (List.mem_cons_of_mem _ (List.mem_cons_of_mem _ hf))
      · -- visited_lt against the incremented counter
        intro v hv hvv
        have := h_vlt v hv hvv
        show (s1.dfs.getD v (0, 0)).1 < s1.count + 1
        omega
      · exact h_inj
      · -- stk_reach
        intro f hf
        rcases List.mem_cons.mp hf with hf | hf
        · rw [hf]
          exact ReachFrom.tail fm.v _ h_freach (getD_mem _ (0, 0) _ hlt) hwbad
        rcases List.mem_cons.mp hf with hf | hf
        · rw [hf]
          exact h_freach
        · exact h_rreach f hf
      · exact h_vreach
      · -- head_vis
        rcases h_head with h | ⟨f, hf, hfv⟩
        · exact Or.inl h
        · exact Or.inr ⟨f, List.mem_cons_of_mem _ (List.mem_cons_of_mem _ hf), hfv⟩
    · -- measure: the push is paid for by the newly discovered vertex
      show 3 * s1.dfs.countP (fun q => q.1 == 0) + (rest.length + 1 + 1) +
        0 + 1 ≤ M
      omega

lemma tMu_cons (s : TState) (fm : Frame) (rest : List Frame)
    (h : s.stk = fm :: rest) :
    tMu s = 3 * s.dfs.countP (fun q => q.1 == 0) + (rest.length + 1) +
      (if fm.started = true then 2 else 0) := by
  unfold tMu
  rw [h]
  rfl

/-- One iteration of the main loop of `traverse` preserves the invariant and
strictly decreases the termination measure. -/
lemma step_inv (g : List (List (Nat × Nat))) (bad : List Bool) (n : Nat)
    (hadj : ∀ v, v < n → ∀ p ∈ g.getD v [], p.1 < n)
    (s : TState) (hI : TInv g bad n s) (hne : s.stk ≠ []) :
    TInv g bad n (step g bad s) ∧ tMu (step g bad s) + 1 ≤ tMu s := by
  rcases hstk : s.stk with _ | ⟨fm, rest⟩
  · exact absurd hstk hne
  have hmem : fm ∈ s.stk := by
    rw [hstk]
    exact List.mem_cons_self fm rest
  have hmem' : ∀ f ∈ rest, f ∈ s.stk := by
    intro f hf
    rw [hstk]
    exact List.mem_cons_of_mem fm hf
  have hdr : s.stk.drop 1 = rest := by
    rw [hstk]
    rfl
  have hfvn : fm.v < n := hI.stk_v fm hmem
  have hlink0 : rest ≠ [] →
      (rest.getD 0 fdef).i < (g.getD (rest.getD 0 fdef).v []).length ∧
      ((g.getD (rest.getD 0 fdef).v []).getD (rest.getD 0 fdef).i (0, 0)).1 =
        fm.v := by
    intro hrne
    have hc := hI.chain 0 (by
      rw [hstk]
      simp only [List.length_cons]
      have := List.length_pos.mpr hrne
      omega)
    rw [hstk] at hc
    simp only [List.getD_cons_succ, List.getD_cons_zero] at hc
    exact hc
  have hchainr : ∀ j, j + 1 < rest.length →
      (rest.getD (j + 1) fdef).i < (g.getD (rest.getD (j + 1) fdef).v []).length ∧
      ((g.getD (rest.getD (j + 1) fdef).v []).getD (rest.getD (j + 1) fdef).i
          (0, 0)).1 = (rest.getD j fdef).v := by
    intro j hj
    have hc := hI.chain (j + 1) (by
      rw [hstk]
      simp only [List.length_cons]
      omega)
    rw [hstk] at hc
    simp only [List.getD_cons_succ] at hc
    exact hc
  rcases (Bool.eq_false_or_eq_true fm.started).symm with hst | hst
  · -- the top frame is fresh: it is discovered now
    rw [step_eq_fresh g bad s fm rest hstk hst]
    obtain ⟨hf0, hfb, hfb1, hflt⟩ := hI.fresh_top fm rest hstk hst
    have hsetv : (s.dfs.set fm.v (fm.best, fm.best)).getD fm.v (0, 0) =
        (fm.best, fm.best) := by
      apply getD_set_self
      rw [hI.dfs_len]
      exact hfvn
    have hset1 : ∀ u, fm.v ≠ u →
        (s.dfs.set fm.v (fm.best, fm.best)).getD u (0, 0) = s.dfs.getD u (0, 0) :=
      fun u hu => getD_set_ne _ _ _ _ _ hu
    have hvmon : ∀ u, 0 < (s.dfs.getD u (0, 0)).1 →
        0 < ((s.dfs.set fm.v (fm.best, fm.best)).getD u (0, 0)).1 := by
      intro u hu
      by_cases hf : fm.v = u
      · subst hf
        rw [hsetv]
        show 0 < fm.best
        omega
      · rw [hset1 u hf]
        exact hu
    refine stage2_inv g bad n (tMu s) hadj _ _ rest ?_ ?_ ?_ ?_ ?_ ?_ ?_ ?_ ?_
      ?_ ?_ ?_ ?_ ?_ ?_ ?_ ?_ ?_ ?_ ?_ ?_ ?_ ?_ ?_ ?_
    · show (s.dfs.set fm.v (fm.best, fm.best)).length = n
      rw [List.length_set]
      exact hI.dfs_len
    · exact hI.up_len
    · exact hI.count2
    · exact hfvn
    · exact fun f hf => hI.stk_v f (hmem' f hf)
    · exact fun f hf => hI.rest_started f (hdr ▸ hf)
    · show 0 < ((s.dfs.set fm.v (fm.best, fm.best)).getD fm.v (0, 0)).1
      rw [hsetv]
      show 0 < fm.best
      omega
    · exact hI.cursor_bound fm hmem
    · intro j hj
      rcases hI.cursor_prefix fm hmem j hj with h | h
      · exact Or.inl (hvmon _ h)
      · exact Or.inr h
    · exact hlink0
    · exact hchainr
    · exact fun f hf => hI.cursor_bound f (hmem' f hf)
    · intro f hf j hj
      rcases hI.cursor_prefix f (hmem' f hf) j hj with h | h
      · exact Or.inl (hvmon _ h)
      · exact Or.inr h
    · intro f hf
      exact hvmon _ (hI.started_vis f (hmem' f hf) (hI.rest_started f (hdr ▸ hf)))
    · intro u hu hvisu hufm hnof j hj
      have hufm' : fm.v ≠ u := Ne.symm hufm
      rw [hset1 u hufm'] at hvisu
      have hall : ∀ f ∈ s.stk, f.v ≠ u := by
        intro f hf
        rw [hstk] at hf
        rcases List.mem_cons.mp hf with hf | hf
        · rw [hf]
          exact hufm'
        · exact hnof f hf
      rcases hI.finished_closed u hu hvisu hall j hj with h | h
      · exact Or.inl (hvmon _ h)
      · exact Or.inr h
    · intro v hv hvv
      show ((s.dfs.set fm.v (fm.best, fm.best)).getD v (0, 0)).1 < s.count
      by_cases hvf : fm.v = v
      · subst hvf
        rw [hsetv]
        show fm.best < s.count
        omega
      · rw [hset1 v hvf]
        rw [show ((s.dfs.set fm.v (fm.best, fm.best)).getD v (0, 0)).1 =
          (s.dfs.getD v (0, 0)).1 from by rw [hset1 v hvf]] at hvv
        exact hI.visited_lt v hv hvv
    · intro v w hv hw hvv hvw hne'
      by_cases hvf : fm.v = v
      · subst hvf
        by_cases hwf : fm.v = w
        · exact absurd hwf hne'
        · rw [hsetv, hset1 w hwf]
          rw [hset1 w hwf] at hvw
          have := hflt w hw hvw
          show fm.best ≠ (s.dfs.getD w (0, 0)).1
          omega
      · by_cases hwf : fm.v = w
        · subst hwf
          rw [hset1 v hvf, hsetv]
          rw [hset1 v hvf] at hvv
          have := hflt v hv hvv
          show (s.dfs.getD v (0, 0)).1 ≠ fm.best
          omega
        · rw [hset1 v hvf, hset1 w hwf]
          rw [hset1 v hvf] at hvv
          rw [hset1 w hwf] at hvw
          exact hI.inj v w hv hw hvv hvw hne'
    · exact hI.stk_reach fm hmem
    · exact fun f hf => hI.stk_reach f (hmem' f hf)
    · intro v hv hvv
      by_cases hvf : fm.v = v
      · subst hvf
        exact hI.stk_reach fm hmem
      · rw [hset1 v hvf] at hvv
        exact hI.visited_reach v hv hvv
    · intro v hv h0
      by_cases hvf : fm.v = v
      · subst hvf
        rw [hsetv] at h0
        exact absurd h0 (by show fm.best ≠ 0; omega)
      · show (s.dfs.set fm.v (fm.best, fm.best)).getD v (0, 0) = (0, 0)
        rw [hset1 v hvf]
        rw [hset1 v hvf] at h0
        exact hI.unvis_zero v hv h0
    · intro a ha
      rcases List.mem_cons.mp ha with ha | ha
      · rw [ha]
        refine ⟨hfvn, ?_⟩
        rw [hsetv]
        show 0 < fm.best
        omega
      · obtain ⟨h1, h2⟩ := hI.acc_vis a ha
        exact ⟨h1, hvmon a h2⟩
    · intro v hv h0
      by_cases hvf : fm.v = v
      · subst hvf
        rw [hsetv] at h0
        exact absurd h0 (by show fm.best ≠ 0; omega)
      · rw [hset1 v hvf] at h0
        exact hI.up_unreach v hv h0
    · rcases hI.head_vis with h | ⟨f, hf, hfv⟩
      · exact Or.inl (hvmon _ h)
      · rw [hstk] at hf
        rcases List.mem_cons.mp hf with hf | hf
        · refine Or.inl ?_
          rw [hf] at hfv
          rw [← hfv, hsetv]
          show 0 < fm.best
          omega
        · exact Or.inr ⟨f, hf, hfv⟩
    · -- measure bookkeeping: the fresh vertex leaves the undiscovered count
      have hcs := countP_set (fun q => q.1 == 0) (0, 0) s.dfs fm.v
        (fm.best, fm.best) (by rw [hI.dfs_len]; exact hfvn)
      have hold : s.dfs.getD fm.v (0, 0) = (0, 0) :=
        hI.unvis_zero fm.v hfvn hf0
      rw [hold] at hcs
      have e1 : ((((0 : Nat), (0 : Nat)) : Nat × Nat).1 == 0) = true := rfl
      have e2 : (((fm.best, fm.best) : Nat × Nat).1 == 0) = (fm.best == 0) := rfl
      dsimp only at hcs
      rw [e1, e2, if_pos rfl] at hcs
      rw [if_neg (by
        rw [beq_eq_false_iff_ne.mpr (by omega : fm.best ≠ 0)]
        exact Bool.false_ne_true)] at hcs
      rw [tMu_cons s fm rest hstk, hst]
      simp only [Bool.false_eq_true, if_false]
      show 3 * (s.dfs.set fm.v (fm.best, fm.best)).countP (fun q => q.1 == 0) +
        rest.length + 3 ≤ _
      omega
  · -- the top frame is started: the child has just returned
    rw [step_eq_started g bad s fm rest hstk hst]
    obtain ⟨hitop, hutop⟩ := hI.started_top fm rest hstk hst
    have hfvis : 0 < (s.dfs.getD fm.v (0, 0)).1 := hI.started_vis fm hmem hst
    by_cases hcc : (s.dfs.getD ((g.getD fm.v []).getD fm.i (0, 0)).1 (0, 0)).2 ≥
        (s.dfs.getD fm.v (0, 0)).1
    · rw [if_pos hcc]
      refine stage2_inv g bad n (tMu s) hadj _ _ rest ?_ ?_ ?_ ?_ ?_ ?_ ?_ ?_ ?_
        ?_ ?_ ?_ ?_ ?_ ?_ ?_ ?_ ?_ ?_ ?_ ?_ ?_ ?_ ?_ ?_
      · exact hI.dfs_len
      · show (popAcc ((g.getD fm.v []).getD fm.i (0, 0)).1 s.child s.acc
          s.upstream).2.length = n
        rw [popAcc_len]
        exact hI.up_len
      · exact hI.count2
      · exact hfvn
      · exact fun f hf => hI.stk_v f (hmem' f hf)
      · exact fun f hf => hI.rest_started f (hdr ▸ hf)
      · exact hfvis
      · show fm.i + 1 ≤ (g.getD fm.v []).length
        omega
      · intro j hj
        by_cases hji : j < fm.i
        · exact hI.cursor_prefix fm hmem j hji
        · have hje : j = fm.i := by
            have : j < fm.i + 1 := hj
            omega
          rw [hje]
          exact Or.inl hutop
      · exact hlink0
      · exact hchainr
      · exact fun f hf => hI.cursor_bound f (hmem' f hf)
      · exact fun f hf j hj => hI.cursor_prefix f (hmem' f hf) j hj
      · exact fun f hf => hI.started_vis f (hmem' f hf) (hI.rest_started f (hdr ▸ hf))
      · intro u hu hvisu hufm hnof j hj
        have hall : ∀ f ∈ s.stk, f.v ≠ u := by
          intro f hf
          rw [hstk] at hf
          rcases List.mem_cons.mp hf with hf | hf
          · rw [hf]
            exact Ne.symm hufm
          · exact hnof f hf
        exact hI.finished_closed u hu hvisu hall j hj
      · exact hI.visited_lt
      · exact hI.inj
      · exact hI.stk_reach fm hmem
      · exact fun f hf => hI.stk_reach f (hmem' f hf)
      · exact hI.visited_reach
      · exact hI.unvis_zero
      · intro a ha
        exact hI.acc_vis a (popAcc_acc_sub _ _ _ _ a ha)
      · intro v hv h0
        dsimp only at h0
        have hne2 : ∀ a ∈ s.acc, a ≠ v := by
          intro a ha hav
          have h2 := (hI.acc_vis a ha).2
          rw [hav] at h2
          omega
        show (popAcc ((g.getD fm.v []).getD fm.i (0, 0)).1 s.child s.acc
          s.upstream).2.getD v false = false
        rw [popAcc_up_getD _ _ v s.acc s.upstream hne2]
        exact hI.up_unreach v hv h0
      · rcases hI.head_vis with h | ⟨f, hf, hfv⟩
        · exact Or.inl h
        · rw [hstk] at hf
          rcases List.mem_cons.mp hf with hf | hf
          · refine Or.inl ?_
            rw [hf] at hfv
            rw [← hfv]
            exact hfvis
          · exact Or.inr ⟨f, hf, hfv⟩
      · rw [tMu_cons s fm rest hstk, hst]
        simp only [eq_self_iff_true, if_true]
        show 3 * s.dfs.countP (fun q => q.1 == 0) + rest.length + 3 ≤ _
        omega
    · rw [if_neg hcc]
      refine stage2_inv g bad n (tMu s) hadj _ _ rest ?_ ?_ ?_ ?_ ?_ ?_ ?_ ?_ ?_
        ?_ ?_ ?_ ?_ ?_ ?_ ?_ ?_ ?_ ?_ ?_ ?_ ?_ ?_ ?_ ?_
      · exact hI.dfs_len
      · exact hI.up_len
      · exact hI.count2
      · exact hfvn
      · exact fun f hf => hI.stk_v f (hmem' f hf)
      · exact fun f hf => hI.rest_started f (hdr ▸ hf)
      · exact hfvis
      · show fm.i + 1 ≤ (g.getD fm.v []).length
        omega
      · intro j hj
        by_cases hji : j < fm.i
        · exact hI.cursor_prefix fm hmem j hji
        · have hje : j = fm.i := by
            have : j < fm.i + 1 := hj
            omega
          rw [hje]
          exact Or.inl hutop
      · exact hlink0
      · exact hchainr
      · exact fun f hf => hI.cursor_bound f (hmem' f hf)
      · exact fun f hf j hj => hI.cursor_prefix f (hmem' f hf) j hj
      · exact fun f hf => hI.started_vis f (hmem' f hf) (hI.rest_started f (hdr ▸ hf))
      · intro u hu hvisu hufm hnof j hj
        have hall : ∀ f ∈ s.stk, f.v ≠ u := by
          intro f hf
          rw [hstk] at hf
          rcases List.mem_cons.mp hf with hf | hf
          · rw [hf]
            exact Ne.symm hufm
          · exact hnof f hf
        exact hI.finished_closed u hu hvisu hall j hj
      · exact hI.visited_lt
      · exact hI.inj
      · exact hI.stk_reach fm hmem
      · exact fun f hf => hI.stk_reach f (hmem' f hf)
      · exact hI.visited_reach
      · exact hI.unvis_zero
      · exact hI.acc_vis
      · exact hI.up_unreach
      · rcases hI.head_vis with h | ⟨f, hf, hfv⟩
        · exact Or.inl h
        · rw [hstk] at hf
          rcases List.mem_cons.mp hf with hf | hf
          · refine Or.inl ?_
            rw [hf] at hfv
            rw [← hfv]
            exact hfvis
          · exact Or.inr ⟨f, hf, hfv⟩
      · rw [tMu_cons s fm rest hstk, hst]
        simp only [eq_self_iff_true, if_true]
        show 3 * s.dfs.countP (fun q => q.1 == 0) + rest.length + 3 ≤ _
        omega

/-- The initial state of `traverse` satisfies the loop invariant. -/
lemma initT_inv (g : List (List (Nat × Nat))) (bad : List Bool) (n : Nat)
    (hn : 0 < n) : TInv g bad n (initT n) := by
  have hz : ∀ u, (((initT n).dfs).getD u (0, 0)).1 = 0 := by
    intro u
    show ((List.replicate n ((0, 0) : Nat × Nat)).getD u (0, 0)).1 = 0
    rw [getD_replicate_any]
  refine ⟨?_, ?_, le_refl 2, ?_, ?_, ?_, ?_, ?_, ?_, ?_, ?_, ?_, ?_, ?_, ?_, ?_,
    ?_, ?_, ?_, ?_⟩
  · show (List.replicate n ((0, 0) : Nat × Nat)).length = n
    exact List.length_replicate n _
  · show (List.replicate n false).length = n
    exact List.length_replicate n _
  · intro f hf
    rw [List.mem_singleton.mp hf]
    show HEAD < n
    exact hn
  · intro f hf
    exact absurd hf (List.not_mem_nil f)
  · intro f rs hEq hf
    have h1 : ({ v := HEAD, i := 0, best := 1, reached := false, started := false } : Frame) = f := by
      injection hEq
    rw [← h1]
    refine ⟨hz HEAD, rfl, le_refl 1, ?_⟩
    intro u hu hvu
    rw [hz u] at hvu
    omega
  · intro f rs hEq hf
    have h1 : ({ v := HEAD, i := 0, best := 1, reached := false, started := false } : Frame) = f := by
      injection hEq
    rw [← h1] at hf
    exact absurd hf Bool.false_ne_true
  · intro j hj
    exact absurd hj (by show ¬ j + 1 < 1; omega)
  · intro f hf hfs
    rw [List.mem_singleton.mp hf] at hfs
    exact absurd hfs Bool.false_ne_true
  · intro f hf
    rw [List.mem_singleton.mp hf]
    exact Nat.zero_le _
  · intro f hf j hj
    rw [List.mem_singleton.mp hf] at hj
    exact absurd hj (Nat.not_lt_zero j)
  · intro u hu hvu
    rw [hz u] at hvu
    omega
  · intro v hv hvv
    rw [hz v] at hvv
    omega
  · intro v w hv hw hvv
    rw [hz v] at hvv
    omega
  · intro f hf
    rw [List.mem_singleton.mp hf]
    exact ReachFrom.refl
  · intro v hv hvv
    rw [hz v] at hvv
    omega
  · intro v hv h0
    show (List.replicate n ((0, 0) : Nat × Nat)).getD v (0, 0) = (0, 0)
    rw [getD_replicate_any]
  · intro a ha
    exact absurd ha (List.not_mem_nil a)
  · intro v hv h0
    show (List.replicate n false).getD v false = false
    rw [getD_replicate_any]
  · exact Or.inr ⟨{ v := HEAD, i := 0, best := 1, reached := false, started := false }, List.mem_cons_self _ _, rfl⟩

/-- With fuel at least the termination measure, the main loop of `traverse`
runs to completion: the frame stack empties and the invariant holds. -/
lemma runT_inv (g : List (List (Nat × Nat))) (bad : List Bool) (n : Nat)
    (hadj : ∀ v, v < n → ∀ p ∈ g.getD v [], p.1 < n) :
    ∀ (fuel : Nat) (s : TState), TInv g bad n s → tMu s ≤ fuel →
    TInv g bad n (runT g bad fuel s) ∧ (runT g bad fuel s).stk = [] := by
  intro fuel
  induction fuel with
  | zero =>
    intro s hI hm
    rcases hstk : s.stk with _ | ⟨fm, rest⟩
    · exact ⟨hI, hstk⟩
    · exfalso
      rw [tMu_cons s fm rest hstk] at hm
      omega
  | succ fuel ih =>
    intro s hI hm
    rcases hstk : s.stk with _ | ⟨fm, rest⟩
    · have hr : runT g bad (fuel + 1) s = s := by
        conv_lhs => unfold runT
        rw [hstk]
      rw [hr]
      exact ⟨hI, hstk⟩
    · have hr : runT g bad (fuel + 1) s = runT g bad fuel (step g bad s) := by
        conv_lhs => unfold runT
        rw [hstk]
      rw [hr]
      obtain ⟨hI2, hdec⟩ := step_inv g bad n hadj s hI (by
        rw [hstk]
        exact List.cons_ne_nil fm rest)
      rw [tMu_cons s fm rest hstk] at hm
      refine ih (step g bad s) hI2 ?_
      rw [tMu_cons s fm rest hstk] at hdec
      omega

/-- **C7.** On any finite graph whose adjacency targets stay in range,
`traverse` rooted at HEAD terminates within fuel `3·nodes + 2` (the frame
stack empties); a vertex holds a nonzero discovery number iff it is reachable
from HEAD through non-deleted edges, distinct visited vertices hold distinct
discovery numbers (each is assigned exactly once); and every vertex
unreachable from HEAD ends with a zero `dfs` pair and an `upstream` mark of
`false`, so it is excluded from the output. -/
theorem traverse_terminates_and_visits (g : List (List (Nat × Nat)))
    (bad : List Bool) (n : Nat) (hn : 0 < n)
    (hadj : ∀ v, v < n → ∀ p ∈ g.getD v [], p.1 < n) :
    (traverseFinal g bad n (3 * n + 2)).stk = [] ∧
    (∀ v, v < n →
      (0 < ((traverseFinal g bad n (3 * n + 2)).dfs.getD v (0, 0)).1 ↔
        ReachFrom g bad HEAD v)) ∧
    (∀ v w, v < n → w < n →
      0 < ((traverseFinal g bad n (3 * n + 2)).dfs.getD v (0, 0)).1 →
      0 < ((traverseFinal g bad n (3 * n + 2)).dfs.getD w (0, 0)).1 → v ≠ w →
      ((traverseFinal g bad n (3 * n + 2)).dfs.getD v (0, 0)).1 ≠
        ((traverseFinal g bad n (3 * n + 2)).dfs.getD w (0, 0)).1) ∧
    (∀ v, v < n → ¬ ReachFrom g bad HEAD v →
      (traverseFinal g bad n (3 * n + 2)).dfs.getD v (0, 0) = (0, 0) ∧
      (traverseFinal g bad n (3 * n + 2)).upstream.getD v false = false) := by
  have hmu0 : tMu (initT n) ≤ 3 * n + 2 := by
    have e : tMu (initT n) = 3 * n + 1 := by
      show 3 * (List.replicate n ((0, 0) : Nat × Nat)).countP
        (fun q => q.1 == 0) + 1 + 0 = 3 * n + 1
      rw [countP_zero_replicate n]
    omega
  obtain ⟨hIf, hempty⟩ := runT_inv g bad n hadj (3 * n + 2) (initT n)
    (initT_inv g bad n hn) hmu0
  have hHv : 0 < ((runT g bad (3 * n + 2) (initT n)).dfs.getD HEAD (0, 0)).1 := by
    rcases hIf.head_vis with h | ⟨f, hf, _⟩
    · exact h
    · rw [hempty] at hf
      exact absurd hf (List.not_mem_nil f)
  have hclosed : ∀ u, u < n →
      0 < ((runT g bad (3 * n + 2) (initT n)).dfs.getD u (0, 0)).1 →
      ∀ j, j < (g.getD u []).length →
      0 < ((runT g bad (3 * n + 2) (initT n)).dfs.getD
        ((g.getD u []).getD j (0, 0)).1 (0, 0)).1 ∨
      bad.getD ((g.getD u []).getD j (0, 0)).2 false = true := by
    intro u hu hv
    refine hIf.finished_closed u hu hv ?_
    intro f hf
    rw [hempty] at hf
    exact absurd hf (List.not_mem_nil f)
  have hRvis : ∀ v, ReachFrom g bad HEAD v → v < n ∧
      0 < ((runT g bad (3 * n + 2) (initT n)).dfs.getD v (0, 0)).1 := by
    intro v hr
    induction hr with
    | refl => exact ⟨hn, hHv⟩
    | tail u p hru hp hbad ih =>
      obtain ⟨hun, huv⟩ := ih
      refine ⟨hadj u hun p hp, ?_⟩
      obtain ⟨j, hjlt, hjp⟩ := List.getElem_of_mem hp
      have hgd : (g.getD u []).getD j (0, 0) = p := by
        rw [List.getD_eq_getElem _ _ hjlt, hjp]
      rcases hclosed u hun huv j hjlt with h | h
      · rw [hgd] at h
        exact h
      · rw [hgd, hbad] at h
        exact absurd h Bool.false_ne_true
  refine ⟨hempty, ?_, ?_, ?_⟩
  · intro v hv
    constructor
    · intro hvis
      exact hIf.visited_reach v hv hvis
    · intro hr
      exact (hRvis v hr).2
  · intro v w hv hw hvv hvw hne
    exact hIf.inj v w hv hw hvv hvw hne
  · intro v hv hnr
    have hnvis : ¬ 0 < ((runT g bad (3 * n + 2) (initT n)).dfs.getD v (0, 0)).1 :=
      fun hvis => hnr (hIf.visited_reach v hv hvis)
    have h0 : ((runT g bad (3 * n + 2) (initT n)).dfs.getD v (0, 0)).1 = 0 := by
      omega
    refine ⟨hIf.unvis_zero v hv h0, ?_⟩
    have hnacc : ∀ a ∈ (runT g bad (3 * n + 2) (initT n)).acc, a ≠ v := by
      intro a ha hav
      have h2 := (hIf.acc_vis a ha).2
      rw [hav] at h2
      omega
    show (markAcc (runT g bad (3 * n + 2) (initT n)).acc
      (runT g bad (3 * n + 2) (initT n)).upstream).getD v false = false
    rw [markAcc_getD_ne v _ _ hnacc]
    exact hIf.up_unreach v hv h0

/-- Witness for the C7 theorem at a concrete one-vertex graph. -/
theorem traverse_terminates_and_visits_witness :
    (0 < 1 ∧
      (∀ v, v < 1 → ∀ p ∈ ([[]] : List (List (Nat × Nat))).getD v [], p.1 < 1)) ∧
    ((traverseFinal [[]] [] 1 (3 * 1 + 2)).stk = [] ∧
    (∀ v, v < 1 →
      (0 < ((traverseFinal [[]] [] 1 (3 * 1 + 2)).dfs.getD v (0, 0)).1 ↔
        ReachFrom [[]] [] HEAD v)) ∧
    (∀ v w, v < 1 → w < 1 →
      0 < ((traverseFinal [[]] [] 1 (3 * 1 + 2)).dfs.getD v (0, 0)).1 →
      0 < ((traverseFinal [[]] [] 1 (3 * 1 + 2)).dfs.getD w (0, 0)).1 → v ≠ w →
      ((traverseFinal [[]] [] 1 (3 * 1 + 2)).dfs.getD v (0, 0)).1 ≠
        ((traverseFinal [[]] [] 1 (3 * 1 + 2)).dfs.getD w (0, 0)).1) ∧
    (∀ v, v < 1 → ¬ ReachFrom [[]] [] HEAD v →
      (traverseFinal [[]] [] 1 (3 * 1 + 2)).dfs.getD v (0, 0) = (0, 0) ∧
      (traverseFinal [[]] [] 1 (3 * 1 + 2)).upstream.getD v false = false)) :=
  ⟨⟨by decide, by decide⟩,
    traverse_terminates_and_visits [[]] [] 1 (by decide) (by decide)⟩

/-! ## Upstream marking versus simple HEAD-TAIL paths (claim C1) -/

/-- Spec-side: `vs` is a simple path from HEAD to TAIL in the reduced graph
restricted to non-deleted edges. -/
def IsSimplePathHT (g : List (List (Nat × Nat))) (bad : List Bool)
    (vs : List Nat) : Prop :=
  vs.Nodup ∧ vs.head? = some HEAD ∧ vs.getLast? = some TAIL ∧
  ∀ k, k < vs.length - 1 →
    ∃ p ∈ g.getD (vs.getD k 0) [], p.1 = vs.getD (k + 1) 0 ∧
      bad.getD p.2 false = false

lemma getD_getLast? {α : Type} : ∀ (l : List α) (a d : α),
    l.getLast? = some a → l.getD (l.length - 1) d = a
  | [], a, d, h => by simp at h
  | [x], a, d, h => by
    simp only [List.getLast?_singleton, Option.some.injEq] at h
    simpa using h
  | x :: y :: l, a, d, h => by
    have hrec := getD_getLast? (y :: l) a d (by
      rwa [List.getLast?_cons_cons] at h)
    show (x :: y :: l).getD ((y :: l).length + 1 - 1) d = a
    rw [show (y :: l).length + 1 - 1 = l.length + 1 from by simp]
    rw [List.getD_cons_succ]
    rw [show l.length = (y :: l).length - 1 from by simp]
    exact hrec

/-- If no non-deleted or deleted edge of the graph enters TAIL at all, then no
simple HEAD-TAIL path exists. -/
lemma no_path_of_no_tail_edge (g : List (List (Nat × Nat))) (bad : List Bool)
    (h : ∀ v, v < g.length → ∀ p ∈ g.getD v [], p.1 ≠ TAIL) :
    ∀ vs, ¬ IsSimplePathHT g bad vs := by
  intro vs hsp
  obtain ⟨hnd, hhd, hlast, hstep⟩ := hsp
  rcases vs with _ | ⟨v0, vrest⟩
  · simp at hlast
  rcases vrest with _ | ⟨v1, vrest2⟩
  · have h1 : v0 = HEAD := by simpa using hhd
    have h2 : v0 = TAIL := by simpa using hlast
    rw [h1] at h2
    exact absurd h2 (by decide)
  · have hlen : (v0 :: v1 :: vrest2).length = vrest2.length + 2 := by simp
    obtain ⟨p, hp, hp1, hpbad⟩ := hstep vrest2.length (by omega)
    have hlastD : (v0 :: v1 :: vrest2).getD
        ((v0 :: v1 :: vrest2).length - 1) 0 = TAIL :=
      getD_getLast? _ _ _ hlast
    rw [show (v0 :: v1 :: vrest2).length - 1 = vrest2.length + 1 from by omega]
      at hlastD
    rw [hlastD] at hp1
    by_cases hu : (v0 :: v1 :: vrest2).getD vrest2.length 0 < g.length
    · exact h _ hu p hp hp1
    · rw [getD_oob g [] _ (le_of_not_lt hu)] at hp
      exact absurd hp (List.not_mem_nil p)

lemma markAcc_getD_mem : ∀ (acc : List Nat) (up : List Bool) (a : Nat),
    a ∈ acc → a < up.length → (markAcc acc up).getD a false = true
  | [], _, a, ha, _ => absurd ha (List.not_mem_nil a)
  | b :: rest, up, a, ha, hlen => by
    show (markAcc rest (up.set b true)).getD a false = true
    by_cases har : a ∈ rest
    · exact markAcc_getD_mem rest _ a har (by rw [List.length_set]; exact hlen)
    · have hab : a = b := by
        rcases List.mem_cons.mp ha with h | h
        · exact h
        · exact absurd h har
      rw [markAcc_getD_ne a rest _ (fun x hx hxa => har (hxa ▸ hx))]
      rw [hab]
      exact getD_set_self up b true false (by rw [← hab]; exact hlen)

/-- **C1 counterexample.** In the reduced graph of the single row
(`E` joining `A` and `B`) with controller `B` and starting point `A`
(vertices: 0 = HEAD, 1 = TAIL, 2 = `A`, 3 = `B`), the vertex list
`[HEAD, 2, 3, TAIL]` is a simple HEAD-TAIL path, yet `traverse` leaves
`upstream[TAIL] = false`.  Conversely, with no controller at all, no simple
HEAD-TAIL path exists (nothing touches TAIL), yet `traverse` marks vertex
HEAD upstream (it sits in the final accumulator).  Both directions of the
claimed equivalence fail. -/
theorem upstream_simple_path_counterexample :
    IsSimplePathHT
      (readGraphRecords [(['E', nl], ['A', nl], ['B', nl])] [['B', nl]]
        [['A', nl]]).graph
      (readGraphRecords [(['E', nl], ['A', nl], ['B', nl])] [['B', nl]]
        [['A', nl]]).badedge
      [HEAD, 2, 3, TAIL] ∧
    (traverseFinal
      (readGraphRecords [(['E', nl], ['A', nl], ['B', nl])] [['B', nl]]
        [['A', nl]]).graph
      (readGraphRecords [(['E', nl], ['A', nl], ['B', nl])] [['B', nl]]
        [['A', nl]]).badedge
      (readGraphRecords [(['E', nl], ['A', nl], ['B', nl])] [['B', nl]]
        [['A', nl]]).nodes
      (3 * (readGraphRecords [(['E', nl], ['A', nl], ['B', nl])] [['B', nl]]
        [['A', nl]]).nodes + 2)).upstream.getD TAIL false = false ∧
    (traverseFinal
      (readGraphRecords [(['E', nl], ['A', nl], ['B', nl])] [] [['A', nl]]).graph
      (readGraphRecords [(['E', nl], ['A', nl], ['B', nl])] [] [['A', nl]]).badedge
      (readGraphRecords [(['E', nl], ['A', nl], ['B', nl])] [] [['A', nl]]).nodes
      (3 * (readGraphRecords [(['E', nl], ['A', nl], ['B', nl])] []
        [['A', nl]]).nodes + 2)).upstream.getD HEAD false = true ∧
    (∀ vs, ¬ IsSimplePathHT
      (readGraphRecords [(['E', nl], ['A', nl], ['B', nl])] [] [['A', nl]]).graph
      (readGraphRecords [(['E', nl], ['A', nl], ['B', nl])] []
        [['A', nl]]).badedge vs) := by
  refine ⟨?_, by decide, by decide, ?_⟩
  · unfold IsSimplePathHT
    decide
  · apply no_path_of_no_tail_edge
    decide

/-- **C1 (amended).** What the marking does guarantee: every vertex marked
upstream at the end of `traverse` is reachable from HEAD through non-deleted
edges (it lies on some HEAD-path, though not necessarily on a simple
HEAD-TAIL path), and every accumulator entry remaining at the end of the
recursion — HEAD's own biconnected component — is unconditionally marked
upstream.  The claimed equivalence with simple HEAD-TAIL paths fails in both
directions. -/
theorem upstream_marks_amended (g : List (List (Nat × Nat))) (bad : List Bool)
    (n : Nat) (hn : 0 < n)
    (hadj : ∀ v, v < n → ∀ p ∈ g.getD v [], p.1 < n) :
    (∀ v, v < n →
      (traverseFinal g bad n (3 * n + 2)).upstream.getD v false = true →
      ReachFrom g bad HEAD v) ∧
    (∀ a ∈ (runT g bad (3 * n + 2) (initT n)).acc,
      (traverseFinal g bad n (3 * n + 2)).upstream.getD a false = true) := by
  have hmu0 : tMu (initT n) ≤ 3 * n + 2 := by
    have e : tMu (initT n) = 3 * n + 1 := by
      show 3 * (List.replicate n ((0, 0) : Nat × Nat)).countP
        (fun q => q.1 == 0) + 1 + 0 = 3 * n + 1
      rw [countP_zero_replicate n]
    omega
  obtain ⟨hIf, hempty⟩ := runT_inv g bad n hadj (3 * n + 2) (initT n)
    (initT_inv g bad n hn) hmu0
  constructor
  · intro v hv hm
    have hm2 : (markAcc (runT g bad (3 * n + 2) (initT n)).acc
        (runT g bad (3 * n + 2) (initT n)).upstream).getD v false = true := hm
    by_cases hvac : v ∈ (runT g bad (3 * n + 2) (initT n)).acc
    · exact hIf.visited_reach v hv (hIf.acc_vis v hvac).2
    · rw [markAcc_getD_ne v _ _ (fun a ha hav => hvac (hav ▸ ha))] at hm2
      by_cases hv0 : 0 < ((runT g bad (3 * n + 2) (initT n)).dfs.getD v (0, 0)).1
      · exact hIf.visited_reach v hv hv0
      · rw [hIf.up_unreach v hv (by omega)] at hm2
        exact absurd hm2 Bool.false_ne_true
  · intro a ha
    show (markAcc (runT g bad (3 * n + 2) (initT n)).acc
      (runT g bad (3 * n + 2) (initT n)).upstream).getD a false = true
    refine markAcc_getD_mem _ _ a ha ?_
    rw [hIf.up_len]
    exact (hIf.acc_vis a ha).1

/-- Witness for the amended C1 theorem at a concrete one-vertex graph. -/
theorem upstream_marks_amended_witness :
    (0 < 1 ∧
      (∀ v, v < 1 → ∀ p ∈ ([[]] : List (List (Nat × Nat))).getD v [], p.1 < 1)) ∧
    ((∀ v, v < 1 →
      (traverseFinal [[]] [] 1 (3 * 1 + 2)).upstream.getD v false = true →
      ReachFrom [[]] [] HEAD v) ∧
    (∀ a ∈ (runT [[]] [] (3 * 1 + 2) (initT 1)).acc,
      (traverseFinal [[]] [] 1 (3 * 1 + 2)).upstream.getD a false = true)) :=
  ⟨⟨by decide, by decide⟩, upstream_marks_amended [[]] [] 1 (by decide) (by decide)⟩

